import Mathlib

/-!
Verification development for `sync_script.py`, a one-way synchronization
script from a GitHub markdown document to a Trello card.

The script is embedded shallowly:

* Python strings are Lean `String`s (lists of characters); the few regular
  expressions the script uses are fixed patterns, expanded here into
  explicit character-list matchers with the exact match/backtracking
  semantics of Python `re` on those patterns.
* `parse_markdown` is a fold over the lines of the document, mirroring the
  script's statement-by-statement structure (Python `dict`s become
  association lists with insertion-order iteration and replace-on-rewrite
  semantics).
* The two reconcilers `sync_milestones` and `sync_daily_log` are embedded
  as *operation-list generators* (`sync_milestones_ops`,
  `sync_daily_log_ops`): each HTTP write the script issues becomes one
  `Op`.  The Trello-side meaning of each write is `applyOp`; running a
  reconciler against a card snapshot and then applying the generated
  operations (`applyOps`) gives the remote state after a run in which
  every remote call succeeds.
* The network fetchers (`get_github_file_content`, `get_trello_card_data`)
  return `None` on failure; they are modelled as oracle functions
  returning `Option`, and `runEntry` / `mainLoop` mirror the per-entry
  control flow of `main`.
-/

namespace SyncScript

/-! ### Python string primitives -/

/-- ASCII whitespace, as recognized by Python `str.strip()` and `\s`
(the script only ever meets ASCII whitespace in the documents and
comments it handles). -/
def isSpaceChar (c : Char) : Bool :=
  c = ' ' || c = '\t' || c = '\n' || c = '\r' || c = '\x0b' || c = '\x0c'

/-- Strip leading and trailing whitespace from a character list. -/
def stripList (l : List Char) : List Char :=
  ((l.dropWhile isSpaceChar).reverse.dropWhile isSpaceChar).reverse

/-- Python `str.strip()`. -/
def pyStrip (s : String) : String := String.mk (stripList s.data)

/-- Python `str.split(c)` for a single-character separator: splits at every
occurrence, keeping empty pieces (`"a,,b".split(",") == ["a","","b"]`). -/
def splitOnChar (c : Char) : List Char → List (List Char)
  | [] => [[]]
  | x :: rest =>
    if x = c then [] :: splitOnChar c rest
    else
      match splitOnChar c rest with
      | [] => [[x]]
      | h :: t => (x :: h) :: t

/-- `content.split('\n')` as used by `parse_markdown`. -/
def splitLines (content : String) : List String :=
  (splitOnChar '\n' content.data).map String.mk

/-- Split a character list at the first occurrence of (non-empty) `sep`:
the part strictly before the occurrence and the part strictly after it. -/
def firstSplit (sep : List Char) : List Char → Option (List Char × List Char)
  | [] => if sep.isPrefixOf ([] : List Char) then some ([], []) else none
  | c :: rest =>
    if sep.isPrefixOf (c :: rest) then some ([], (c :: rest).drop sep.length)
    else (firstSplit sep rest).map fun q => (c :: q.1, q.2)

/-- Python `content.split(sep)[1]` for a non-empty `sep`.  In
`parse_markdown`, `sep` is a stripped line of `content` and hence always a
substring of it, so the Python index `[1]` never raises; the `none` branch
below is dead in all reachable uses. -/
def pySplitGet1 (sep l : List Char) : List Char :=
  match firstSplit sep l with
  | none => []
  | some q =>
    match firstSplit sep q.2 with
    | none => q.2
    | some q2 => q2.1

/-- Python `s.split('---')[0]`. -/
def upToTripleDash (l : List Char) : List Char :=
  match firstSplit ['-', '-', '-'] l with
  | none => l
  | some q => q.1

/-! ### Regular-expression matchers of the script -/

/-- `re.match(r"###\s*(.+)", s)` followed by `.group(1).strip()`.
The anchored pattern succeeds exactly when something follows `"###"`
(if everything after `"###"` is whitespace, `\s*` backtracks and `(.+)`
matches the trailing whitespace, which `.strip()` reduces to `""`); in
every successful case `group(1).strip()` equals the remainder after
`"###"` with surrounding whitespace stripped. -/
def milestoneHeading (s : String) : Option String :=
  match s.data with
  | '#' :: '#' :: '#' :: rest =>
    if rest.isEmpty then none else some (String.mk (stripList rest))
  | _ => none

/-- `re.match(r"-\s*\[(x| )\]\s*(.+)", s)`, returning
(`group(1) == 'x'`, `group(2).strip()`). -/
def taskMatch (s : String) : Option (Bool × String) :=
  match s.data with
  | '-' :: rest =>
    match rest.dropWhile isSpaceChar with
    | '[' :: c :: ']' :: r2 =>
      if (c = 'x' || c = ' ') && !r2.isEmpty then
        some (c = 'x', String.mk (stripList r2))
      else none
    | _ => none
  | _ => none

/-- The `(\d{4}-\d{2}-\d{2})` group, matched at the head of a character
list (fixed-width, so no backtracking is possible inside it). -/
def matchDateDigits : List Char → Option String
  | c1 :: c2 :: c3 :: c4 :: '-' :: c5 :: c6 :: '-' :: c7 :: c8 :: _ =>
    if c1.isDigit && c2.isDigit && c3.isDigit && c4.isDigit &&
        c5.isDigit && c6.isDigit && c7.isDigit && c8.isDigit then
      some (String.mk [c1, c2, c3, c4, '-', c5, c6, '-', c7, c8])
    else none
  | _ => none

/-- Anchored `re.match(r"###\s*(\d{4}-\d{2}-\d{2})", ·)` on a character
list, returning group 1. -/
def dateHeadingAt (l : List Char) : Option String :=
  match l with
  | '#' :: '#' :: '#' :: rest => matchDateDigits (rest.dropWhile isSpaceChar)
  | _ => none

/-- `re.match(r"###\s*(\d{4}-\d{2}-\d{2})", s)`, returning group 1. -/
def dateHeading (s : String) : Option String := dateHeadingAt s.data

/-- `re.search(r"###\s*(\d{4}-\d{2}-\d{2})", ·)`: the leftmost match,
found by trying the anchored pattern at every position left to right. -/
def searchDateAux : List Char → Option String
  | [] => none
  | c :: rest =>
    match dateHeadingAt (c :: rest) with
    | some d => some d
    | none => searchDateAux rest

/-- `re.search(r"###\s*(\d{4}-\d{2}-\d{2})", s)`, returning group 1. -/
def searchDate (s : String) : Option String := searchDateAux s.data

/-! ### The document parser (`parse_markdown`) -/

/-- A checkbox line under a milestone. -/
structure Task where
  name : String
  checked : Bool
deriving DecidableEq, Repr

/-- Python-`dict` assignment `d[k] = v` on an association list built in
insertion order: rewriting an existing key keeps its position, a new key
is appended. -/
def dictSet {β : Type} (l : List (String × β)) (k : String) (v : β) : List (String × β) :=
  if l.any fun p => p.1 = k then l.map fun p => if p.1 = k then (k, v) else p
  else l ++ [(k, v)]

/-- In-place mutation of the value stored at key `k` (Python
`d[k].append(...)`); a no-op when the key is absent, which never happens
in the script (the key is always inserted before being appended to). -/
def dictModify {β : Type} (l : List (String × β)) (k : String) (f : β → β) :
    List (String × β) :=
  l.map fun p => if p.1 = k then (p.1, f p.2) else p

/-- Python `dict` lookup on an association list with unique keys (as built
by `dictSet`). -/
def lookupFirst {β : Type} (l : List (String × β)) (k : String) : Option β :=
  (l.find? fun p => p.1 = k).map Prod.snd

/-- Lookup in a Python dict *comprehension* built from a list that may
repeat keys: the later binding wins. -/
def lookupLast {β : Type} (l : List (String × β)) (k : String) : Option β :=
  l.foldl (fun acc p => if p.1 = k then some p.2 else acc) none

/-- The literal section marker `"## ðŸ Milestones"` of the script
(the two mojibake characters are U+00F0 U+0178). -/
def milestonesMarker : String := "## ðŸ Milestones"

/-- The literal section marker `"## ðŸ“† Daily Logs"` of the script
(mojibake characters U+00F0 U+0178 U+201C U+2020). -/
def dailyLogsMarker : String := "## ðŸ“† Daily Logs"

inductive DocSection where
  | milestones
  | dailyLogs
deriving DecidableEq, Repr

/-- The loop state of `parse_markdown`: the two result dicts plus
`current_section` and `current_milestone`. -/
structure ParseState where
  milestones : List (String × List Task)
  daily_logs : List (String × String)
  currentSection : Option DocSection
  currentMilestone : Option String
deriving DecidableEq, Repr

/-- The value stored for one daily-log date:
`f"### {date_str}\n" + content.split(stripped_line)[1].split('---')[0].strip()`. -/
def logBlockFor (content strippedLine dateStr : String) : String :=
  "### " ++ dateStr ++ "\n" ++
    String.mk (stripList (upToTripleDash (pySplitGet1 strippedLine.data content.data)))

/-- The body of the `for line in content.split('\n')` loop of
`parse_markdown`, phrased on the already-stripped line `s`
(`stripped_line` in the script). -/
def parseLineS (content : String) (st : ParseState) (s : String) : ParseState :=
  if s = milestonesMarker then { st with currentSection := some .milestones }
  else if s = dailyLogsMarker then { st with currentSection := some .dailyLogs }
  else
    match st.currentSection with
    | some .milestones =>
      match milestoneHeading s with
      | some m =>
        { st with currentMilestone := some m, milestones := dictSet st.milestones m [] }
      | none =>
        match taskMatch s with
        | some tm =>
          match st.currentMilestone with
          | some m =>
            { st with milestones := dictModify st.milestones m fun ts => ts ++ [⟨tm.2, tm.1⟩] }
          | none => st
        | none => st
    | some .dailyLogs =>
      match dateHeading s with
      | some d => { st with daily_logs := dictSet st.daily_logs d (logBlockFor content s d) }
      | none => st
    | none => st

/-- One iteration of the `for line in content.split('\n')` loop:
`stripped_line = line.strip()` followed by the branch dispatch. -/
def parseLine (content : String) (st : ParseState) (line : String) : ParseState :=
  parseLineS content st (pyStrip line)

/-- The structured result of `parse_markdown`. -/
structure ParsedDoc where
  milestones : List (String × List Task)
  daily_logs : List (String × String)
deriving DecidableEq, Repr

/-- `parse_markdown` of the script. -/
def parse_markdown (content : String) : ParsedDoc :=
  let st := (splitLines content).foldl (parseLine content) ⟨[], [], none, none⟩
  ⟨st.milestones, st.daily_logs⟩

/-! ### The remote (Trello) data model and write operations -/

/-- A checklist item (`name` plus `state`, `"complete"` or
`"incomplete"`). -/
structure RemoteItem where
  id : Nat
  name : String
  state : String
deriving DecidableEq, Repr

structure RemoteChecklist where
  id : Nat
  name : String
  checkItems : List RemoteItem
deriving DecidableEq, Repr

/-- A comment-type action on the card; `text` is the body
(`action['data']['text']` in the API payload). -/
structure RemoteComment where
  id : Nat
  text : String
deriving DecidableEq, Repr

/-- The snapshot returned by `get_trello_card_data`: all checklists and
all comment actions. -/
structure CardData where
  checklists : List RemoteChecklist
  actions : List RemoteComment
deriving DecidableEq, Repr

/-- One remote write issued by the script; ids that Trello would mint for
created resources are carried inside the operation (the generators below
thread a fresh-id counter). -/
inductive Op where
  | createChecklist (checklistId : Nat) (name : String)
  | createItem (checklistId itemId : Nat) (name : String) (checked : Bool)
  | updateItemState (itemId : Nat) (state : String)
  | deleteItem (checklistId itemId : Nat)
  | createComment (commentId : Nat) (text : String)
  | updateComment (commentId : Nat) (text : String)
deriving DecidableEq, Repr

def stateStr (checked : Bool) : String := if checked then "complete" else "incomplete"

/-- Trello-side semantics of one successful write. -/
def applyOp (card : CardData) : Op → CardData
  | .createChecklist i n =>
    { card with checklists := card.checklists ++ [⟨i, n, []⟩] }
  | .createItem cid iid n ck =>
    { card with checklists := card.checklists.map fun cl =>
        if cl.id = cid then { cl with checkItems := cl.checkItems ++ [⟨iid, n, stateStr ck⟩] }
        else cl }
  | .updateItemState iid st =>
    { card with checklists := card.checklists.map fun cl =>
        { cl with checkItems := cl.checkItems.map fun it =>
            if it.id = iid then { it with state := st } else it } }
  | .deleteItem cid iid =>
    { card with checklists := card.checklists.map fun cl =>
        if cl.id = cid then { cl with checkItems := cl.checkItems.filter fun it => it.id ≠ iid }
        else cl }
  | .createComment i t => { card with actions := card.actions ++ [⟨i, t⟩] }
  | .updateComment i t =>
    { card with actions := card.actions.map fun c => if c.id = i then { c with text := t } else c }

/-- Remote state after a run in which every write succeeds. -/
def applyOps (card : CardData) (ops : List Op) : CardData := ops.foldl applyOp card

/-! ### The milestone reconciler (`sync_milestones`) -/

/-- `{item['name']: item for item in checklist.get('checkItems', [])}`:
insertion-ordered, the later duplicate replaces the value but keeps the
first occurrence's position. -/
def dictOfItems (items : List RemoteItem) : List (String × RemoteItem) :=
  items.foldl (fun acc it => dictSet acc it.name it) []

/-- The create/update loop over the tasks of one milestone; returns the
writes in issue order plus the advanced fresh-id counter. -/
def cuOps (clId : Nat) (d : List (String × RemoteItem)) : Nat → List Task → List Op × Nat
  | k, [] => ([], k)
  | k, t :: ts =>
    match lookupFirst d t.name with
    | none =>
      let r := cuOps clId d (k + 1) ts
      (Op.createItem clId k t.name t.checked :: r.1, r.2)
    | some it =>
      let r := cuOps clId d k ts
      ((if it.state = stateStr t.checked then []
        else [Op.updateItemState it.id (stateStr t.checked)]) ++ r.1, r.2)

/-- The deletion loop: every dict entry whose name is not among the
milestone's task names is deleted. -/
def delOps (clId : Nat) (d : List (String × RemoteItem)) (names : List String) : List Op :=
  d.filterMap fun p => if names.contains p.1 then none else some (Op.deleteItem clId p.2.id)

/-- `github_task_names_by_milestone.get(m, set())`, built from the full
milestones mapping before the loop. -/
def taskNamesFor (ms : List (String × List Task)) (m : String) : List String :=
  ((lookupLast ms m).getD []).map Task.name

/-- Loop state of `sync_milestones`: writes issued so far, the fresh-id
counter, and the `existing_checklists` dict (original checklists plus the
ones created so far, the created ones with the empty `checkItems` the
creation response carries). -/
structure MsAcc where
  ops : List Op
  counter : Nat
  known : List (String × RemoteChecklist)
deriving DecidableEq, Repr

/-- One iteration of the `for milestone_name, tasks_from_github in
milestones_from_github.items()` loop. -/
def syncStep (ms : List (String × List Task)) (acc : MsAcc) (p : String × List Task) : MsAcc :=
  match lookupLast acc.known p.1 with
  | some cl =>
    let d := dictOfItems cl.checkItems
    let cu := cuOps cl.id d acc.counter p.2
    { acc with
      ops := acc.ops ++ cu.1 ++ delOps cl.id d (taskNamesFor ms p.1)
      counter := cu.2 }
  | none =>
    let cl : RemoteChecklist := ⟨acc.counter, p.1, []⟩
    let cu := cuOps cl.id [] (acc.counter + 1) p.2
    { ops := acc.ops ++ Op.createChecklist cl.id p.1 :: cu.1 ++ delOps cl.id [] (taskNamesFor ms p.1)
      counter := cu.2
      known := acc.known ++ [(p.1, cl)] }

/-- `sync_milestones`, as an operation generator.  The `state` parameter
of the Python function is written but never read back into any decision,
so it is not modelled. -/
def sync_milestones_run (freshBase : Nat) (card : CardData) (ms : List (String × List Task)) :
    MsAcc :=
  ms.foldl (syncStep ms) ⟨[], freshBase, card.checklists.map fun cl => (cl.name, cl)⟩

/-- The writes issued by one `sync_milestones` run. -/
def sync_milestones_ops (freshBase : Nat) (card : CardData) (ms : List (String × List Task)) :
    List Op :=
  (sync_milestones_run freshBase card ms).ops

/-! ### The log reconciler (`sync_daily_log`) -/

/-- The date extracted from a comment:
`re.search(r"###\s*(\d{4}-\d{2}-\d{2})", comment['data']['text'].strip())`. -/
def extractDate (c : RemoteComment) : Option String := searchDate (pyStrip c.text)

/-- `posted_logs[d]`: the dict is built over all comments in list order,
so the later comment with a given extracted date wins; the stored value is
`(comment id, stripped text)`. -/
def findPosted (as : List RemoteComment) (d : String) : Option (Nat × String) :=
  as.foldl (fun acc c => if extractDate c = some d then some (c.id, pyStrip c.text) else acc) none

/-- Python tuple comparison on `(date, text)` pairs, used by
`sorted(daily_logs_from_github.items())`. -/
def pairLe (a b : String × String) : Prop :=
  a.1 < b.1 ∨ (a.1 = b.1 ∧ a.2 ≤ b.2)

instance : DecidableRel pairLe := fun a b => by
  unfold pairLe; exact inferInstance

instance : IsTotal (String × String) pairLe :=
  ⟨fun a b => by
    rcases lt_trichotomy a.1 b.1 with h | h | h
    · exact Or.inl (Or.inl h)
    · rcases le_total a.2 b.2 with h2 | h2
      · exact Or.inl (Or.inr ⟨h, h2⟩)
      · exact Or.inr (Or.inr ⟨h.symm, h2⟩)
    · exact Or.inr (Or.inl h)⟩

instance : IsTrans (String × String) pairLe :=
  ⟨fun a b c hab hbc => by
    rcases hab with h1 | ⟨e1, l1⟩
    · rcases hbc with h2 | ⟨e2, _⟩
      · exact Or.inl (h1.trans h2)
      · exact Or.inl (e2 ▸ h1)
    · rcases hbc with h2 | ⟨e2, l2⟩
      · exact Or.inl (e1 ▸ h2)
      · exact Or.inr ⟨e1.trans e2, l1.trans l2⟩⟩

/-- `sorted(daily_logs_from_github.items())` (a stable ascending sort by
the tuple order). -/
def sortLogs (logs : List (String × String)) : List (String × String) :=
  List.insertionSort pairLe logs

/-- The `for date_str, log_content_from_github in sorted_logs` loop,
generating one create or at most one update per parsed date
(`pyStrip p.2` is the locally re-bound stripped log text). -/
def dailyOpsAux (as : List RemoteComment) : Nat → List (String × String) → List Op
  | _, [] => []
  | k, p :: rest =>
    match findPosted as p.1 with
    | some it =>
      (if pyStrip p.2 = it.2 then [] else [Op.updateComment it.1 (pyStrip p.2)])
        ++ dailyOpsAux as k rest
    | none => Op.createComment k (pyStrip p.2) :: dailyOpsAux as (k + 1) rest

/-- `sync_daily_log`, as an operation generator. -/
def sync_daily_log_ops (freshBase : Nat) (card : CardData) (logs : List (String × String)) :
    List Op :=
  dailyOpsAux card.actions freshBase (sortLogs logs)

/-! ### The run coordinator (`main`) -/

def cardIds (card : CardData) : List Nat :=
  card.checklists.map RemoteChecklist.id
    ++ (card.checklists.map fun cl => cl.checkItems.map RemoteItem.id).flatten
    ++ card.actions.map RemoteComment.id

def maxCardId (card : CardData) : Nat := (cardIds card).foldl max 0

/-- One entry of `config.json`; absent keys are `none` (Python
`dict.get`). -/
structure InternConfig where
  name : Option String
  branch : Option String
  trello_card_id : Option String
  log_file_path : Option String
deriving DecidableEq, Repr

/-- `all([intern_name, branch_name, card_id, file_path])`: in Python both
a missing key (`None`) and an empty string are falsy. -/
def presentAll (e : InternConfig) : Bool :=
  e.name.getD "" != "" && e.branch.getD "" != "" &&
    e.trello_card_id.getD "" != "" && e.log_file_path.getD "" != ""

/-- One iteration of the per-entry loop of `main`.  `fetchFile` and
`fetchCard` are the two network fetchers, returning `none` on failure as
`get_github_file_content` / `get_trello_card_data` return `None`; a `none`
result for the whole entry means the entry was skipped with no write
issued. -/
def runEntry (fetchFile : String → String → Option String)
    (fetchCard : String → Option CardData) (e : InternConfig) : Option (List Op) :=
  if presentAll e then
    match fetchFile (e.branch.getD "") (e.log_file_path.getD "") with
    | none => none
    | some content =>
      let parsed := parse_markdown content
      match fetchCard (e.trello_card_id.getD "") with
      | none => none
      | some card =>
        let run := sync_milestones_run (maxCardId card + 1) card parsed.milestones
        some (run.ops ++ sync_daily_log_ops run.counter card parsed.daily_logs)
  else none

/-- The full per-entry loop of `main`; entries are processed independently
(the shared `state` dict is write-only), so the batch is the list of
per-entry outcomes. -/
def mainLoop (fetchFile : String → String → Option String)
    (fetchCard : String → Option CardData) (cfg : List InternConfig) :
    List (Option (List Op)) :=
  cfg.map (runEntry fetchFile fetchCard)

/-- `s` is exactly a ten-character `YYYY-MM-DD` digit string. -/
def isValidDate (s : String) : Bool := decide (matchDateDigits s.data = some s)

/-- The dates shared by all daily-log values produced by `parse_markdown`:
every stored text starts with the canonical `"### YYYY-MM-DD"` heading of
its own (valid) date. -/
def LogShape (logs : List (String × String)) : Prop :=
  ∀ p ∈ logs, isValidDate p.1 = true ∧ ∃ t, p.2 = "### " ++ p.1 ++ t

/-- Invariant maintained by the parsing loop over `daily_logs`. -/
def DailyInv (st : ParseState) : Prop :=
  LogShape st.daily_logs ∧ (st.daily_logs.map Prod.fst).Nodup

def joinLinesChars : List (List Char) → List Char
  | [] => []
  | [l] => l
  | l :: ls => l ++ '\n' :: joinLinesChars ls

/-- A document given as its list of lines (the right inverse of
`splitLines` on newline-free lines). -/
def joinLines (ls : List String) : String := String.mk (joinLinesChars (ls.map String.data))

/-- The tasks contributed by a run of lines, one per checkbox line. -/
def tasksOfLines (ls : List String) : List Task :=
  ls.filterMap fun l => (taskMatch (pyStrip l)).map fun tm => Task.mk tm.2 tm.1

/-- C4 failing input: the exact text of the daily-log heading
`### 2024-01-05` also occurs verbatim earlier in the document body. -/
def c4doc : String :=
  "Intro ### 2024-01-05 fake\n---\n" ++ dailyLogsMarker ++ "\n### 2024-01-05\nReal content\n---\n"

/-! ### Analysis functions for the log reconciler -/

/-- The comment (not just its id and text) that `posted_logs[d]` refers
to: the last comment in list order whose extracted date is `d`. -/
def lastMatch (as : List RemoteComment) (d : String) : Option RemoteComment :=
  as.foldl (fun acc c => if extractDate c = some d then some c else acc) none

/-- Whether the parsed pair `p` targets the existing comment `c`: the
last comment matching `p`'s date is the one with `c`'s id. -/
def targetsOf (origAs : List RemoteComment) (c : RemoteComment) (p : String × String) : Bool :=
  match lastMatch origAs p.1 with
  | some c0 => c0.id == c.id
  | none => false

/-- How one run rewrites an existing comment `c` (the specification of
`sync_daily_log`'s update path, used to characterize the applied state):
if some parsed pair targets `c` (its date's last matcher is `c`), the
comment keeps its text when the trimmed texts agree and otherwise carries
the freshly parsed trimmed text; `u` is the pending rewrite from pairs
already processed. -/
def updFn2 (origAs : List RemoteComment) (P : List (String × String))
    (u : RemoteComment → RemoteComment) (c : RemoteComment) : RemoteComment :=
  match P.find? (targetsOf origAs c) with
  | some p => if pyStrip p.2 = pyStrip c.text then c else ⟨c.id, pyStrip p.2⟩
  | none => u c

/-- The net rewrite of one full `sync_daily_log` run on an existing
comment. -/
def updFn (origAs : List RemoteComment) (P : List (String × String)) :
    RemoteComment → RemoteComment :=
  updFn2 origAs P id

/-- The comments created by one run: one per parsed date with no matching
existing comment, in processing order, with fresh ids from `k` up. -/
def createdFrom (origAs : List RemoteComment) : Nat → List (String × String) → List RemoteComment
  | _, [] => []
  | k, p :: rest =>
    match findPosted origAs p.1 with
    | some _ => createdFrom origAs k rest
    | none => ⟨k, pyStrip p.2⟩ :: createdFrom origAs (k + 1) rest

/-- The action-list component of `applyOp` (each write either touches the
comments or leaves them alone). -/
def commentApply (as : List RemoteComment) : Op → List RemoteComment
  | .createComment i t => as ++ [⟨i, t⟩]
  | .updateComment i t => as.map fun c => if c.id = i then { c with text := t } else c
  | _ => as

/-- The dates of the comments a run creates, in issue order. -/
def createdDates (ops : List Op) : List String :=
  ops.filterMap fun op =>
    match op with
    | .createComment _ t => searchDate t
    | _ => none

/-- C6 counterexample card: its single comment carries the date pattern in
the middle of the body, not as a leading heading. -/
def c6card : CardData := ⟨[], [⟨1, "see ### 2024-01-05 for details"⟩]⟩

/-- A small two-entry daily-log document used by concrete witnesses. -/
def wdoc : String :=
  dailyLogsMarker ++ "\n### 2024-01-05\nDid work\n---\n### 2024-01-06\nMore work\n---\n"

/-- A card with one stale comment for the first date of `wdoc`. -/
def wcard : CardData := ⟨[], [⟨1, "### 2024-01-05\nOld text"⟩]⟩

/-- C2 counterexample document: one parsed log for 2024-01-05. -/
def c2cexDoc : String := dailyLogsMarker ++ "\n### 2024-01-05\nB\n---\n"

/-- C2 counterexample card: two distinct comments both carrying the
extracted date 2024-01-05 (the second equal to the parsed text up to
surrounding whitespace). -/
def c2cexCard : CardData := ⟨[], [⟨1, "### 2024-01-05\nA"⟩, ⟨2, " ### 2024-01-05\nB "⟩]⟩

/-- A card with one comment carrying no date pattern anywhere in its
body. -/
def c6wcard : CardData := ⟨[], [⟨5, "just a note"⟩]⟩

/-- Per-checklist view of one write: how the item list of the checklist
with id `c` changes.  `updateItemState` is addressed by item id alone (the
script's update URL is card-scoped), so it reaches items of every
checklist. -/
def clApply (c : Nat) (items : List RemoteItem) : Op → List RemoteItem
  | .createItem cid iid n ck => if c = cid then items ++ [⟨iid, n, stateStr ck⟩] else items
  | .updateItemState iid st =>
    items.map fun it => if it.id = iid then { it with state := st } else it
  | .deleteItem cid iid => if c = cid then items.filter fun it => it.id ≠ iid else items
  | _ => items

/-- An existing checklist after a batch of writes: its id and name are
never rewritten, its items evolve by `clApply`. -/
def evolveCl (ops : List Op) (cl : RemoteChecklist) : RemoteChecklist :=
  ⟨cl.id, cl.name, ops.foldl (clApply cl.id) cl.checkItems⟩

/-- The name a write creates a checklist under, if any. -/
def createName : Op → Option String
  | .createChecklist _ n => some n
  | _ => none

/-- The checklists a batch creates, each evolved by the writes that follow
its creation. -/
def createdCls : List Op → List RemoteChecklist
  | [] => []
  | .createChecklist i n :: ops => ⟨i, n, ops.foldl (clApply i) []⟩ :: createdCls ops
  | _ :: ops => createdCls ops

/-- Whether task `t` addresses existing item `it`: the item dict at `t`'s
name holds the item with `it`'s id. -/
def taskTargets (d : List (String × RemoteItem)) (it : RemoteItem) (t : Task) : Bool :=
  match lookupFirst d t.name with
  | some it0 => it0.id == it.id
  | none => false

/-- How the create/update loop rewrites an existing item (`u` is the
pending rewrite from tasks already processed). -/
def itemUpd2 (d : List (String × RemoteItem)) (ts : List Task)
    (u : RemoteItem → RemoteItem) (it : RemoteItem) : RemoteItem :=
  match ts.find? (taskTargets d it) with
  | some t => { it with state := stateStr t.checked }
  | none => u it

/-- The items the create/update loop creates: one per task whose name is
absent from the item dict, with fresh ids counting up from `k`. -/
def cuCreated (d : List (String × RemoteItem)) : Nat → List Task → List RemoteItem
  | _, [] => []
  | k, t :: ts =>
    match lookupFirst d t.name with
    | none => ⟨k, t.name, stateStr t.checked⟩ :: cuCreated d (k + 1) ts
    | some _ => cuCreated d k ts

/-- The (name, state) view of a checklist item. -/
def itemPair (it : RemoteItem) : String × String := (it.name, it.state)

/-- The (name, state) view a parsed task prescribes. -/
def taskPair (t : Task) : String × String := (t.name, stateStr t.checked)

/-- Provenance of one write issued by a `sync_milestones` segment that
starts with fresh counter `c0` and ends with counter `c1`: every
checklist-level target is either an original checklist whose name is among
the processed keys, or a checklist created within the segment; all minted
ids lie in `[c0, c1)`; no comment write is ever issued. -/
def SegProv (card : CardData) (keys : List String) (c0 c1 : Nat) : Op → Prop
  | .createChecklist i n => c0 ≤ i ∧ i < c1 ∧ n ∈ keys
  | .createItem cid iid _ _ => c0 ≤ iid ∧ iid < c1 ∧
      ((∃ cl ∈ card.checklists, cl.name ∈ keys ∧ cid = cl.id) ∨ (c0 ≤ cid ∧ cid < c1))
  | .updateItemState iid _ =>
      ∃ cl ∈ card.checklists, cl.name ∈ keys ∧ iid ∈ cl.checkItems.map RemoteItem.id
  | .deleteItem cid iid =>
      ∃ cl ∈ card.checklists, cl.name ∈ keys ∧ cid = cl.id ∧ iid ∈ cl.checkItems.map RemoteItem.id
  | .createComment _ _ => False
  | .updateComment _ _ => False

/-- C1 counterexample card: checklist "M" holds two items with the same
name; the item dict keeps only the later one, so the deletion pass misses
the first. -/
def c1cexCard : CardData :=
  ⟨[⟨1, "M", [⟨10, "T", "complete"⟩, ⟨11, "T", "incomplete"⟩]⟩], []⟩

/-- C1/C8 witness card: one checklist with one outdated and one stale
item, one untracked checklist, one comment. -/
def c1wCard : CardData :=
  ⟨[⟨1, "Week 1", [⟨10, "Setup env", "incomplete"⟩, ⟨11, "Old task", "complete"⟩]⟩,
    ⟨2, "Other", [⟨12, "Keep", "incomplete"⟩]⟩], [⟨3, "note"⟩]⟩

/-- C1/C8 witness milestones. -/
def c1wMs : List (String × List Task) :=
  [("Week 1", [⟨"Setup env", true⟩, ⟨"Write tests", false⟩])]

/-! ### Generic dropWhile / strip lemmas -/

theorem dropWhile_head_false {α : Type} {p : α → Bool} :
    ∀ {l : List α} {c : α} {cs : List α}, l.dropWhile p = c :: cs → p c = false
  | [], _, _, h => by simp at h
  | a :: l, c, cs, h => by
    cases hb : p a with
    | true =>
      rw [List.dropWhile_cons_of_pos hb] at h
      exact dropWhile_head_false h
    | false =>
      rw [List.dropWhile_cons_of_neg (by simp [hb])] at h
      cases h
      exact hb

theorem dropWhile_eq_self_of_head {α : Type} {p : α → Bool} {c : α} {cs : List α}
    (h : p c = false) : (c :: cs).dropWhile p = c :: cs :=
  List.dropWhile_cons_of_neg (by simp [h])

theorem dropWhile_idem {α : Type} {p : α → Bool} (l : List α) :
    (l.dropWhile p).dropWhile p = l.dropWhile p := by
  cases h : l.dropWhile p with
  | nil => rfl
  | cons c cs => exact dropWhile_eq_self_of_head (dropWhile_head_false h)

theorem dropWhile_reverse_cons {α : Type} {p : α → Bool} {a : α} (as : List α)
    (h : p a = false) : ∃ b, ((a :: as).reverse).dropWhile p = b ++ [a] := by
  rw [List.reverse_cons, List.dropWhile_append]
  by_cases he : (as.reverse.dropWhile p).isEmpty
  · exact ⟨[], by simp [he, dropWhile_eq_self_of_head h]⟩
  · exact ⟨as.reverse.dropWhile p, by simp [he]⟩

theorem stripList_head_dropWhile (l : List Char) :
    (stripList l).dropWhile isSpaceChar = stripList l := by
  unfold stripList
  cases hA : l.dropWhile isSpaceChar with
  | nil => simp
  | cons a as =>
    have ha : isSpaceChar a = false := dropWhile_head_false hA
    obtain ⟨b, hb⟩ := dropWhile_reverse_cons as ha
    rw [hb, List.reverse_append]
    simp only [List.reverse_cons, List.reverse_nil, List.nil_append, List.singleton_append]
    exact dropWhile_eq_self_of_head ha

theorem stripList_reverse_dropWhile (l : List Char) :
    (stripList l).reverse.dropWhile isSpaceChar = (stripList l).reverse := by
  unfold stripList
  rw [List.reverse_reverse]
  exact dropWhile_idem _

theorem stripList_eq_self {l : List Char} (h1 : l.dropWhile isSpaceChar = l)
    (h2 : l.reverse.dropWhile isSpaceChar = l.reverse) : stripList l = l := by
  unfold stripList
  rw [h1, h2, List.reverse_reverse]

theorem stripList_idem (l : List Char) : stripList (stripList l) = stripList l :=
  stripList_eq_self (stripList_head_dropWhile l) (stripList_reverse_dropWhile l)

theorem pyStrip_idem (s : String) : pyStrip (pyStrip s) = pyStrip s :=
  congrArg String.mk (stripList_idem s.data)

/-! ### Date-string and shape lemmas -/

theorem matchDateDigits_eq_some {l : List Char} {r : String} (h : matchDateDigits l = some r) :
    ∃ c1 c2 c3 c4 c5 c6 c7 c8 rest,
      l = c1 :: c2 :: c3 :: c4 :: '-' :: c5 :: c6 :: '-' :: c7 :: c8 :: rest ∧
      r = String.mk [c1, c2, c3, c4, '-', c5, c6, '-', c7, c8] ∧
      (c1.isDigit && c2.isDigit && c3.isDigit && c4.isDigit &&
        c5.isDigit && c6.isDigit && c7.isDigit && c8.isDigit) = true := by
  unfold matchDateDigits at h
  split at h
  case _ c1 c2 c3 c4 c5 c6 c7 c8 rest =>
    split at h
    case isTrue hd =>
      exact ⟨c1, c2, c3, c4, c5, c6, c7, c8, rest, rfl, (Option.some.inj h).symm, hd⟩
    case isFalse => exact absurd h (by simp)
  case _ => exact absurd h (by simp)

theorem matchDateDigits_valid {l : List Char} {r : String} (h : matchDateDigits l = some r) :
    isValidDate r = true := by
  obtain ⟨c1, c2, c3, c4, c5, c6, c7, c8, rest, _, hr, hd⟩ := matchDateDigits_eq_some h
  subst hr
  unfold isValidDate matchDateDigits
  simp [hd]

theorem isValidDate_elim {s : String} (h : isValidDate s = true) :
    ∃ c1 c2 c3 c4 c5 c6 c7 c8,
      s.data = [c1, c2, c3, c4, '-', c5, c6, '-', c7, c8] ∧
      (c1.isDigit && c2.isDigit && c3.isDigit && c4.isDigit &&
        c5.isDigit && c6.isDigit && c7.isDigit && c8.isDigit) = true := by
  unfold isValidDate at h
  rw [decide_eq_true_eq] at h
  obtain ⟨c1, c2, c3, c4, c5, c6, c7, c8, rest, hl, hr, hd⟩ := matchDateDigits_eq_some h
  exact ⟨c1, c2, c3, c4, c5, c6, c7, c8, congrArg String.data hr, hd⟩

theorem isDigit_not_space {c : Char} (h : c.isDigit = true) : isSpaceChar c = false := by
  cases hx : isSpaceChar c
  · rfl
  · exfalso
    unfold isSpaceChar at hx
    simp only [Bool.or_eq_true, decide_eq_true_eq] at hx
    rcases hx with ((((h1 | h1) | h1) | h1) | h1) | h1 <;> subst h1 <;>
      exact absurd h (by decide)

theorem stripList_shape {dstr : String} (hval : isValidDate dstr = true) (t : List Char) :
    ∃ t', stripList ('#' :: '#' :: '#' :: ' ' :: (dstr.data ++ t)) =
      '#' :: '#' :: '#' :: ' ' :: (dstr.data ++ t') := by
  obtain ⟨c1, c2, c3, c4, c5, c6, c7, c8, hdata, hd⟩ := isValidDate_elim hval
  simp only [Bool.and_eq_true] at hd
  have h8 : isSpaceChar c8 = false := isDigit_not_space hd.2
  unfold stripList
  rw [dropWhile_eq_self_of_head (by decide)]
  rw [show ('#' :: '#' :: '#' :: ' ' :: (dstr.data ++ t)).reverse
      = (t.reverse ++ (dstr.data.reverse ++ [' ', '#', '#', '#'])) by simp]
  rw [List.dropWhile_append]
  by_cases he : (t.reverse.dropWhile isSpaceChar).isEmpty
  · simp only [he, if_true]
    rw [hdata]
    rw [show ([c1, c2, c3, c4, '-', c5, c6, '-', c7, c8].reverse
        ++ [' ', '#', '#', '#'])
        = c8 :: (c7 :: '-' :: c6 :: c5 :: '-' :: c4 :: c3 :: c2 :: c1 :: [' ', '#', '#', '#']) by simp]
    rw [dropWhile_eq_self_of_head h8]
    refine ⟨[], ?_⟩
    simp [hdata]
  · simp only [he, if_false]
    refine ⟨(t.reverse.dropWhile isSpaceChar).reverse, ?_⟩
    simp

theorem dateHeadingAt_header {dstr : String} (hval : isValidDate dstr = true) (t : List Char) :
    dateHeadingAt ('#' :: '#' :: '#' :: ' ' :: (dstr.data ++ t)) = some dstr := by
  obtain ⟨c1, c2, c3, c4, c5, c6, c7, c8, hdata, hd⟩ := isValidDate_elim hval
  have h1 : isSpaceChar c1 = false := by
    have hd' := hd
    simp only [Bool.and_eq_true] at hd'
    exact isDigit_not_space hd'.1.1.1.1.1.1.1
  have hred : dateHeadingAt ('#' :: '#' :: '#' :: ' ' :: (dstr.data ++ t))
      = matchDateDigits ((' ' :: (dstr.data ++ t)).dropWhile isSpaceChar) := rfl
  rw [hred, List.dropWhile_cons_of_pos (by decide), hdata]
  simp only [List.cons_append, List.nil_append]
  rw [dropWhile_eq_self_of_head h1]
  have hm : matchDateDigits (c1 :: c2 :: c3 :: c4 :: '-' :: c5 :: c6 :: '-' :: c7 :: c8 :: t)
      = if (c1.isDigit && c2.isDigit && c3.isDigit && c4.isDigit &&
          c5.isDigit && c6.isDigit && c7.isDigit && c8.isDigit) then
          some (String.mk [c1, c2, c3, c4, '-', c5, c6, '-', c7, c8]) else none := rfl
  rw [hm, if_pos hd, ← hdata]

theorem searchDate_header {dstr : String} (hval : isValidDate dstr = true) (t : List Char) :
    searchDateAux ('#' :: '#' :: '#' :: ' ' :: (dstr.data ++ t)) = some dstr := by
  have hred : searchDateAux ('#' :: '#' :: '#' :: ' ' :: (dstr.data ++ t))
      = match dateHeadingAt ('#' :: '#' :: '#' :: ' ' :: (dstr.data ++ t)) with
        | some d => some d
        | none => searchDateAux ('#' :: '#' :: ' ' :: (dstr.data ++ t)) := rfl
  rw [hred, dateHeadingAt_header hval t]

theorem searchDate_of_shape {dstr : String} (hval : isValidDate dstr = true) (t : String) :
    searchDate (pyStrip ("### " ++ dstr ++ t)) = some dstr := by
  have hdata : ("### " ++ dstr ++ t).data = '#' :: '#' :: '#' :: ' ' :: (dstr.data ++ t.data) := by
    simp [String.data_append]
  obtain ⟨t', ht'⟩ := stripList_shape hval t.data
  show searchDateAux (stripList ("### " ++ dstr ++ t).data) = some dstr
  rw [hdata, ht']
  exact searchDate_header hval t'

theorem logShape_extract {logs : List (String × String)} (h : LogShape logs) :
    ∀ p ∈ logs, searchDate (pyStrip p.2) = some p.1 := by
  intro p hp
  obtain ⟨hval, t, ht⟩ := h p hp
  rw [ht]
  exact searchDate_of_shape hval t

/-! ### dict lemmas -/

theorem dictSet_mem {β : Type} {l : List (String × β)} {k : String} {v : β} :
    ∀ p ∈ dictSet l k v, p ∈ l ∨ p = (k, v) := by
  intro p hp
  unfold dictSet at hp
  split at hp
  · rw [List.mem_map] at hp
    obtain ⟨q, hq, hpq⟩ := hp
    by_cases hk : q.1 = k
    · rw [if_pos hk] at hpq
      exact Or.inr hpq.symm
    · rw [if_neg hk] at hpq
      exact Or.inl (hpq ▸ hq)
  · rw [List.mem_append] at hp
    rcases hp with hp | hp
    · exact Or.inl hp
    · exact Or.inr (List.mem_singleton.mp hp)

theorem dictSet_keys {β : Type} (l : List (String × β)) (k : String) (v : β) :
    (dictSet l k v).map Prod.fst = l.map Prod.fst ∨
      ((dictSet l k v).map Prod.fst = l.map Prod.fst ++ [k] ∧ k ∉ l.map Prod.fst) := by
  unfold dictSet
  split
  case isTrue h =>
    left
    rw [List.map_map]
    apply List.map_congr_left
    intro p _
    by_cases hk : p.1 = k
    · simp [hk]
    · simp [hk]
  case isFalse h =>
    right
    refine ⟨by simp, fun hk => h ?_⟩
    rw [List.mem_map] at hk
    obtain ⟨q, hq, hqk⟩ := hk
    exact List.any_eq_true.mpr ⟨q, hq, by simp [hqk]⟩

theorem dictSet_keys_nodup {β : Type} {l : List (String × β)} {k : String} {v : β}
    (h : (l.map Prod.fst).Nodup) : ((dictSet l k v).map Prod.fst).Nodup := by
  rcases dictSet_keys l k v with he | ⟨he, hk⟩
  · rw [he]; exact h
  · rw [he, List.nodup_append]
    exact ⟨h, List.nodup_singleton k, fun a ha hb => hk ((List.mem_singleton.mp hb) ▸ ha)⟩

/-! ### parse invariants -/

theorem foldl_inv {σ α : Type} {Inv : σ → Prop} (f : σ → α → σ)
    (hf : ∀ s a, Inv s → Inv (f s a)) :
    ∀ (ls : List α) (s : σ), Inv s → Inv (ls.foldl f s)
  | [], _, h => h
  | a :: ls, s, h => foldl_inv f hf ls (f s a) (hf s a h)

theorem strAppend_assoc (a b c : String) : a ++ b ++ c = a ++ (b ++ c) := by
  cases a; cases b; cases c
  exact congrArg String.mk (List.append_assoc _ _ _)

theorem dateHeading_valid {s : String} {d : String} (h : dateHeading s = some d) :
    isValidDate d = true := by
  unfold dateHeading dateHeadingAt at h
  split at h
  · exact matchDateDigits_valid h
  · exact absurd h (by simp)

/-- In every branch, the loop body either leaves `daily_logs` unchanged
or stores one freshly matched date block. -/
theorem parseLineS_daily_logs (content : String) (st : ParseState) (s : String) :
    (parseLineS content st s).daily_logs = st.daily_logs ∨
    ∃ d, dateHeading s = some d ∧
      (parseLineS content st s).daily_logs
        = dictSet st.daily_logs d (logBlockFor content s d) := by
  unfold parseLineS
  split
  · exact Or.inl rfl
  split
  · exact Or.inl rfl
  split
  · split
    · exact Or.inl rfl
    · split
      · split
        · exact Or.inl rfl
        · exact Or.inl rfl
      · exact Or.inl rfl
  · split
    case _ d hd => exact Or.inr ⟨d, hd, rfl⟩
    case _ => exact Or.inl rfl
  · exact Or.inl rfl

theorem parseLine_dailyInv (content : String) (st : ParseState) (line : String)
    (h : DailyInv st) : DailyInv (parseLine content st line) := by
  rcases parseLineS_daily_logs content st (pyStrip line) with he | ⟨d, hd, he⟩
  · rw [DailyInv, parseLine, he]; exact h
  · rw [DailyInv, parseLine, he]
    constructor
    · intro p hp
      rcases dictSet_mem p hp with hp' | hp'
      · exact h.1 p hp'
      · subst hp'
        refine ⟨dateHeading_valid hd, "\n" ++
          String.mk (stripList (upToTripleDash
            (pySplitGet1 (pyStrip line).data content.data))), ?_⟩
        unfold logBlockFor
        rw [strAppend_assoc, strAppend_assoc]
    · exact dictSet_keys_nodup h.2

theorem parse_markdown_daily_shape (content : String) :
    LogShape (parse_markdown content).daily_logs :=
  (foldl_inv (parseLine content) (parseLine_dailyInv content) (splitLines content)
    ⟨[], [], none, none⟩ ⟨fun _ hp => absurd hp (List.not_mem_nil _), List.nodup_nil⟩).1

theorem parse_markdown_daily_nodup (content : String) :
    ((parse_markdown content).daily_logs.map Prod.fst).Nodup :=
  (foldl_inv (parseLine content) (parseLine_dailyInv content) (splitLines content)
    ⟨[], [], none, none⟩ ⟨fun _ hp => absurd hp (List.not_mem_nil _), List.nodup_nil⟩).2

/-! ### Joining lines (for building documents line by line) -/

theorem splitOnChar_no_sep : ∀ l : List Char, '\n' ∉ l → splitOnChar '\n' l = [l]
  | [], _ => rfl
  | x :: rest, h => by
    unfold splitOnChar
    rw [if_neg (fun hx : x = '\n' => h (hx ▸ List.mem_cons_self x rest))]
    rw [splitOnChar_no_sep rest fun hr => h (List.mem_cons_of_mem x hr)]

theorem splitOnChar_append : ∀ l r : List Char, '\n' ∉ l →
    splitOnChar '\n' (l ++ '\n' :: r) = l :: splitOnChar '\n' r
  | [], r, _ => by
    rw [List.nil_append]
    rfl
  | x :: xs, r, h => by
    rw [List.cons_append]
    show (if x = '\n' then [] :: splitOnChar '\n' (xs ++ '\n' :: r)
        else match splitOnChar '\n' (xs ++ '\n' :: r) with
          | [] => [[x]]
          | h :: t => (x :: h) :: t) = (x :: xs) :: splitOnChar '\n' r
    rw [if_neg (fun hx : x = '\n' => h (hx ▸ List.mem_cons_self x xs))]
    rw [splitOnChar_append xs r fun hr => h (List.mem_cons_of_mem x hr)]

theorem splitOnChar_join : ∀ L : List (List Char), (∀ l ∈ L, '\n' ∉ l) → L ≠ [] →
    splitOnChar '\n' (joinLinesChars L) = L
  | [], _, hne => absurd rfl hne
  | [l], h, _ => by
    unfold joinLinesChars
    exact splitOnChar_no_sep l (h l (List.mem_singleton.mpr rfl))
  | l :: l2 :: ls, h, _ => by
    unfold joinLinesChars
    rw [splitOnChar_append l _ (h l (List.mem_cons_self _ _))]
    rw [splitOnChar_join (l2 :: ls) (fun x hx => h x (List.mem_cons_of_mem l hx)) (by simp)]

theorem splitLines_joinLines (ls : List String) (h : ∀ l ∈ ls, '\n' ∉ l.data)
    (hne : ls ≠ []) : splitLines (joinLines ls) = ls := by
  unfold splitLines joinLines
  rw [show (String.mk (joinLinesChars (ls.map String.data))).data
      = joinLinesChars (ls.map String.data) from rfl]
  rw [splitOnChar_join (ls.map String.data)
    (fun l hl => by
      rw [List.mem_map] at hl
      obtain ⟨s, hs, hds⟩ := hl
      exact hds ▸ h s hs)
    (by simpa using hne)]
  rw [List.map_map]
  calc (ls.map fun s => String.mk s.data) = ls.map id := List.map_congr_left fun s _ => rfl
    _ = ls := List.map_id ls

/-! ### Milestone-section parsing lemmas (for C10) -/

theorem heading_ne_markers {s m : String} (h : milestoneHeading s = some m) :
    s ≠ milestonesMarker ∧ s ≠ dailyLogsMarker := by
  refine ⟨fun he => ?_, fun he => ?_⟩
  · rw [he, show milestoneHeading milestonesMarker = none from by decide] at h
    exact Option.noConfusion h
  · rw [he, show milestoneHeading dailyLogsMarker = none from by decide] at h
    exact Option.noConfusion h

theorem lookupFirst_replace {β : Type} (k : String) (v : β) :
    ∀ l : List (String × β), l.any (fun p => p.1 = k) = true →
      lookupFirst (l.map fun p => if p.1 = k then (k, v) else p) k = some v
  | [], h => by simp at h
  | p :: rest, h => by
    by_cases hk : p.1 = k
    · unfold lookupFirst
      rw [List.map_cons, if_pos hk, List.find?_cons_of_pos _ (by simp)]
      rfl
    · unfold lookupFirst
      rw [List.map_cons, if_neg hk, List.find?_cons_of_neg _ (by simp [hk])]
      have hrest : rest.any (fun p => p.1 = k) = true := by
        rcases List.any_eq_true.mp h with ⟨q, hq, hqk⟩
        rcases List.mem_cons.mp hq with he | he
        · exact absurd (of_decide_eq_true (he ▸ hqk)) hk
        · exact List.any_eq_true.mpr ⟨q, he, hqk⟩
      exact lookupFirst_replace k v rest hrest

theorem lookupFirst_append_self {β : Type} (k : String) (v : β) :
    ∀ l : List (String × β), l.any (fun p => p.1 = k) = false →
      lookupFirst (l ++ [(k, v)]) k = some v
  | [], _ => by
    unfold lookupFirst
    rw [List.nil_append, List.find?_cons_of_pos _ (by simp)]
    rfl
  | p :: rest, h => by
    rw [List.any_cons] at h
    obtain ⟨hp, hrest⟩ := Bool.or_eq_false_iff.mp h
    unfold lookupFirst
    rw [List.cons_append, List.find?_cons_of_neg _ (by simp_all)]
    exact lookupFirst_append_self k v rest hrest

theorem lookupFirst_dictSet_self {β : Type} (l : List (String × β)) (k : String) (v : β) :
    lookupFirst (dictSet l k v) k = some v := by
  unfold dictSet
  split
  case isTrue h => exact lookupFirst_replace k v l h
  case isFalse h =>
    have hf : l.any (fun p => p.1 = k) = false := by
      cases hx : l.any (fun p => p.1 = k)
      · rfl
      · exact absurd hx h
    exact lookupFirst_append_self k v l hf

theorem lookupFirst_dictModify {β : Type} (k : String) (f : β → β) :
    ∀ l : List (String × β), ∀ {v : β}, lookupFirst l k = some v →
      lookupFirst (dictModify l k f) k = some (f v)
  | [], v, h => by simp [lookupFirst] at h
  | p :: rest, v, h => by
    by_cases hk : p.1 = k
    · unfold lookupFirst at h ⊢
      rw [List.find?_cons_of_pos _ (by simp [hk])] at h
      have hv : p.2 = v := Option.some.inj h
      unfold dictModify
      rw [List.map_cons, if_pos hk, List.find?_cons_of_pos _ (by simp [hk])]
      rw [← hv]
      rfl
    · unfold lookupFirst at h ⊢
      rw [List.find?_cons_of_neg _ (by simp [hk])] at h
      unfold dictModify
      rw [List.map_cons, if_neg hk, List.find?_cons_of_neg _ (by simp [hk])]
      exact lookupFirst_dictModify k f rest h

theorem parseLineS_marker1 (content : String) (st : ParseState) :
    parseLineS content st milestonesMarker = { st with currentSection := some .milestones } := by
  unfold parseLineS
  rw [if_pos rfl]

theorem parseLineS_heading (content : String) (st : ParseState) (s m : String)
    (hm : milestoneHeading s = some m) (hsec : st.currentSection = some .milestones) :
    parseLineS content st s
      = { st with currentMilestone := some m, milestones := dictSet st.milestones m [] } := by
  obtain ⟨hne1, hne2⟩ := heading_ne_markers hm
  simp only [parseLineS, if_neg hne1, if_neg hne2, hsec, hm]

theorem parseLineS_task (content : String) (st : ParseState) (s : String) (tm : Bool × String)
    (name : String) (hs1 : s ≠ milestonesMarker) (hs2 : s ≠ dailyLogsMarker)
    (hh : milestoneHeading s = none) (ht : taskMatch s = some tm)
    (hsec : st.currentSection = some .milestones) (hcm : st.currentMilestone = some name) :
    parseLineS content st s
      = { st with milestones := dictModify st.milestones name fun ts => ts ++ [⟨tm.2, tm.1⟩] } := by
  simp only [parseLineS, if_neg hs1, if_neg hs2, hsec, hh, ht, hcm]

theorem parseLineS_inert (content : String) (st : ParseState) (s : String)
    (hs1 : s ≠ milestonesMarker) (hs2 : s ≠ dailyLogsMarker)
    (hh : milestoneHeading s = none) (ht : taskMatch s = none)
    (hsec : st.currentSection = some .milestones) :
    parseLineS content st s = st := by
  simp only [parseLineS, if_neg hs1, if_neg hs2, hsec, hh, ht]

theorem parseLineS_milestones_section (content : String) (st : ParseState) (s : String)
    (hs : s ≠ dailyLogsMarker) (hsec : st.currentSection = some .milestones) :
    (parseLineS content st s).currentSection = some .milestones := by
  unfold parseLineS
  by_cases hs1 : s = milestonesMarker
  · rw [if_pos hs1]
  · rw [if_neg hs1, if_neg hs, hsec]
    cases hmh : milestoneHeading s with
    | some m => rfl
    | none =>
      cases htm : taskMatch s with
      | some tm =>
        cases hcm : st.currentMilestone with
        | some m => rfl
        | none => exact hsec
      | none => exact hsec

theorem foldl_milestones_section (content : String) :
    ∀ (ls : List String) (st : ParseState), (∀ l ∈ ls, pyStrip l ≠ dailyLogsMarker) →
      st.currentSection = some .milestones →
      (ls.foldl (parseLine content) st).currentSection = some .milestones
  | [], _, _, hsec => hsec
  | l :: ls, st, h, hsec => by
    rw [List.foldl_cons]
    exact foldl_milestones_section content ls _ (fun x hx => h x (List.mem_cons_of_mem l hx))
      (parseLineS_milestones_section content st (pyStrip l) (h l (List.mem_cons_self _ _)) hsec)

theorem foldl_body3 (content : String) :
    ∀ (ls : List String) (st : ParseState) (name : String) (acc : List Task),
      (∀ l ∈ ls, pyStrip l ≠ dailyLogsMarker ∧ milestoneHeading (pyStrip l) = none) →
      st.currentSection = some .milestones → st.currentMilestone = some name →
      lookupFirst st.milestones name = some acc →
      lookupFirst ((ls.foldl (parseLine content) st).milestones) name
        = some (acc ++ tasksOfLines ls)
  | [], st, name, acc, _, _, _, hlk => by
    simpa [tasksOfLines] using hlk
  | l :: ls, st, name, acc, h, hsec, hcm, hlk => by
    obtain ⟨hs, hh⟩ := h l (List.mem_cons_self _ _)
    have hrest := fun x hx => h x (List.mem_cons_of_mem l hx)
    rw [List.foldl_cons]
    by_cases hs1 : pyStrip l = milestonesMarker
    · have hst : parseLine content st l = { st with currentSection := some .milestones } := by
        show parseLineS content st (pyStrip l) = _
        rw [hs1]
        exact parseLineS_marker1 content st
      rw [hst]
      have htm : taskMatch (pyStrip l) = none := by rw [hs1]; decide
      rw [show tasksOfLines (l :: ls) = tasksOfLines ls by simp [tasksOfLines, htm]]
      exact foldl_body3 content ls _ name acc hrest rfl hcm hlk
    · cases htm : taskMatch (pyStrip l) with
      | some tm =>
        have hst : parseLine content st l
            = { st with milestones := dictModify st.milestones name fun ts =>
                  ts ++ [⟨tm.2, tm.1⟩] } :=
          parseLineS_task content st (pyStrip l) tm name hs1 hs hh htm hsec hcm
        rw [hst]
        have hlk' : lookupFirst (dictModify st.milestones name fun ts => ts ++ [⟨tm.2, tm.1⟩]) name
            = some (acc ++ [⟨tm.2, tm.1⟩]) := lookupFirst_dictModify name _ st.milestones hlk
        have hrec := foldl_body3 content ls
          { st with milestones := dictModify st.milestones name fun ts => ts ++ [⟨tm.2, tm.1⟩] }
          name (acc ++ [⟨tm.2, tm.1⟩]) hrest hsec hcm hlk'
        rw [hrec]
        simp [tasksOfLines, htm]
      | none =>
        have hst : parseLine content st l = st :=
          parseLineS_inert content st (pyStrip l) hs1 hs hh htm hsec
        rw [hst]
        rw [show tasksOfLines (l :: ls) = tasksOfLines ls by simp [tasksOfLines, htm]]
        exact foldl_body3 content ls st name acc hrest hsec hcm hlk

theorem foldl_heading_body3 (content : String) (body3 : List String) (st : ParseState)
    (s name : String) (hm : milestoneHeading s = some name)
    (hsec : st.currentSection = some .milestones)
    (hb3 : ∀ l ∈ body3, pyStrip l ≠ dailyLogsMarker ∧ milestoneHeading (pyStrip l) = none) :
    lookupFirst ((body3.foldl (parseLine content) (parseLineS content st s)).milestones) name
      = some (tasksOfLines body3) := by
  rw [parseLineS_heading content st s name hm hsec]
  have hrec := foldl_body3 content body3
    { st with currentMilestone := some name, milestones := dictSet st.milestones name [] }
    name [] hb3 hsec rfl (lookupFirst_dictSet_self st.milestones name [])
  rw [hrec, List.nil_append]

/-- C10: if the milestones section contains two level-3 headings whose
stripped text denotes the same milestone `name` (`hl1` and `hl2`, with
arbitrary milestone-section lines `body2` between them and heading-free
lines `body3` after the second), `parse_markdown` maps `name` to the
checkbox tasks of `body3` only: each milestone heading re-initializes
that name's task list to empty, so everything parsed under the earlier
occurrence is discarded. -/
theorem c10_duplicate_milestone_heading_resets
    (name : String) (body1 body2 body3 : List String) (hl1 hl2 : String)
    (hh1 : milestoneHeading (pyStrip hl1) = some name)
    (hh2 : milestoneHeading (pyStrip hl2) = some name)
    (hb1 : ∀ l ∈ body1, pyStrip l ≠ dailyLogsMarker)
    (hb2 : ∀ l ∈ body2, pyStrip l ≠ dailyLogsMarker)
    (hb3 : ∀ l ∈ body3, pyStrip l ≠ dailyLogsMarker ∧ milestoneHeading (pyStrip l) = none)
    (hnl : ∀ l ∈ milestonesMarker :: body1 ++ hl1 :: body2 ++ hl2 :: body3, '\n' ∉ l.data) :
    lookupFirst (parse_markdown (joinLines
        (milestonesMarker :: body1 ++ hl1 :: body2 ++ hl2 :: body3))).milestones name
      = some (tasksOfLines body3) := by
  generalize hC : joinLines (milestonesMarker :: body1 ++ hl1 :: body2 ++ hl2 :: body3) = content
  have hsl : splitLines content = milestonesMarker :: body1 ++ hl1 :: body2 ++ hl2 :: body3 := by
    rw [← hC]
    exact splitLines_joinLines _ hnl (by simp)
  show lookupFirst ((splitLines content).foldl (parseLine content)
      ⟨[], [], none, none⟩).milestones name = _
  rw [hsl]
  simp only [List.foldl_append, List.foldl_cons]
  have hm1 : parseLine content ⟨[], [], none, none⟩ milestonesMarker
      = ⟨[], [], some .milestones, none⟩ := by
    show parseLineS content ⟨[], [], none, none⟩ (pyStrip milestonesMarker) = _
    rw [show pyStrip milestonesMarker = milestonesMarker from by decide]
    exact parseLineS_marker1 content _
  rw [hm1]
  have hsec1 : ((body1.foldl (parseLine content)
      (⟨[], [], some .milestones, none⟩ : ParseState))).currentSection = some .milestones :=
    foldl_milestones_section content body1 _ hb1 rfl
  rw [show parseLine content
        (body1.foldl (parseLine content) (⟨[], [], some .milestones, none⟩ : ParseState)) hl1
      = { body1.foldl (parseLine content) (⟨[], [], some .milestones, none⟩ : ParseState) with
            currentMilestone := some name,
            milestones := dictSet (body1.foldl (parseLine content)
              (⟨[], [], some .milestones, none⟩ : ParseState)).milestones name [] } from
    parseLineS_heading content _ (pyStrip hl1) name hh1 hsec1]
  have hsec2 : ((body2.foldl (parseLine content)
      { body1.foldl (parseLine content) (⟨[], [], some .milestones, none⟩ : ParseState) with
          currentMilestone := some name,
          milestones := dictSet (body1.foldl (parseLine content)
            (⟨[], [], some .milestones, none⟩ : ParseState)).milestones name [] })).currentSection
      = some .milestones :=
    foldl_milestones_section content body2 _ hb2 hsec1
  exact foldl_heading_body3 content body3 _ (pyStrip hl2) name hh2 hsec2 hb3

/-- C10 witness: a concrete document whose milestones section repeats the
heading `### M`; only the task after the second occurrence survives. -/
theorem c10_duplicate_milestone_heading_resets_witness :
    lookupFirst (parse_markdown (joinLines
        (milestonesMarker :: [] ++ "### M" :: ["- [x] a"] ++ "### M" :: ["- [ ] b"]))).milestones
        "M"
      = some [⟨"b", false⟩] := by
  have h := c10_duplicate_milestone_heading_resets "M" [] ["- [x] a"] ["- [ ] b"] "### M" "### M"
    (by decide) (by decide) (by decide) (by decide) (by decide) (by decide)
  rw [h]
  decide

/-! ### C4: the textual-split block extraction conflates duplicated text -/

/-- C4: the claim says the parser still captures only the bounded block of
the actual heading occurrence (`"### 2024-01-05\nReal content"`); the code
instead splits the whole document on the heading text, so the captured
block comes from the first (quoted) occurrence — `"fake"` — and the bound
runs to the `---` before the daily-log section.  This theorem evaluates
`parse_markdown` at the failing input and exhibits the wrong block. -/
theorem c4_duplicate_heading_slices_wrong_block :
    lookupFirst (parse_markdown c4doc).daily_logs "2024-01-05"
      = some "### 2024-01-05\nfake"
    ∧ "### 2024-01-05\nfake" ≠ "### 2024-01-05\nReal content" := by
  exact ⟨by decide, by decide⟩

/-! ### C9: a failed fetch skips the entry without aborting the batch -/

/-- C9: if either the document fetch or the card fetch returns `none` for
an entry, that entry produces no write operation (`runEntry` returns
`none`, issuing nothing), and the rest of the configured entries are
processed exactly as they would be without that entry. -/
theorem c9_failed_fetch_skips_entry
    (fetchFile : String → String → Option String) (fetchCard : String → Option CardData)
    (e : InternConfig) (pre post : List InternConfig) (b p c : String)
    (hb : e.branch = some b) (hp : e.log_file_path = some p) (hc : e.trello_card_id = some c)
    (hfail : fetchFile b p = none ∨ fetchCard c = none) :
    runEntry fetchFile fetchCard e = none ∧
      mainLoop fetchFile fetchCard (pre ++ e :: post)
        = mainLoop fetchFile fetchCard pre ++ none :: mainLoop fetchFile fetchCard post := by
  have h1 : runEntry fetchFile fetchCard e = none := by
    unfold runEntry
    split
    case isTrue hpres =>
      rw [hb, hp, hc]
      simp only [Option.getD_some]
      rcases hfail with hf | hf
      · rw [hf]
      · cases hff : fetchFile b p
        · rfl
        · rw [hf]
    case isFalse => rfl
  refine ⟨h1, ?_⟩
  unfold mainLoop
  rw [List.map_append, List.map_cons, h1]

/-- C9 witness: one entry whose file fetch fails, between two empty
batches. -/
theorem c9_failed_fetch_skips_entry_witness :
    runEntry (fun _ _ => none) (fun _ => some ⟨[], []⟩)
        ⟨some "A", some "b", some "c", some "p"⟩ = none ∧
      mainLoop (fun _ _ => none) (fun _ => some ⟨[], []⟩)
          ([] ++ ⟨some "A", some "b", some "c", some "p"⟩ :: [])
        = mainLoop (fun _ _ => none) (fun _ => some ⟨[], []⟩) []
          ++ none :: mainLoop (fun _ _ => none) (fun _ => some ⟨[], []⟩) [] :=
  c9_failed_fetch_skips_entry (fun _ _ => none) (fun _ => some ⟨[], []⟩)
    ⟨some "A", some "b", some "c", some "p"⟩ [] [] "b" "p" "c" rfl rfl rfl (Or.inl rfl)

/-! ### Generic helper lemmas for the log reconciler -/

theorem nodup_id_inj : ∀ {as : List RemoteComment}, (as.map RemoteComment.id).Nodup →
    ∀ {c c' : RemoteComment}, c ∈ as → c' ∈ as → c.id = c'.id → c = c'
  | [], _, _, _, hc, _, _ => absurd hc (List.not_mem_nil _)
  | a :: as, h, c, c', hc, hc', he => by
    rw [List.map_cons, List.nodup_cons] at h
    rcases List.mem_cons.mp hc with rfl | hc2
    · rcases List.mem_cons.mp hc' with rfl | hc2'
      · rfl
      · exact absurd (he.symm ▸ List.mem_map_of_mem RemoteComment.id hc2') h.1
    · rcases List.mem_cons.mp hc' with rfl | hc2'
      · exact absurd (he ▸ List.mem_map_of_mem RemoteComment.id hc2) h.1
      · exact nodup_id_inj h.2 hc2 hc2' he

theorem nodup_key_pair_eq {β : Type} :
    ∀ {P : List (String × β)}, (P.map Prod.fst).Nodup →
    ∀ {p q : String × β}, p ∈ P → q ∈ P → p.1 = q.1 → p = q
  | [], _, _, _, hp, _, _ => absurd hp (List.not_mem_nil _)
  | a :: P, h, p, q, hp, hq, he => by
    rw [List.map_cons, List.nodup_cons] at h
    rcases List.mem_cons.mp hp with rfl | hp2
    · rcases List.mem_cons.mp hq with rfl | hq2
      · rfl
      · exact absurd (he.symm ▸ List.mem_map_of_mem Prod.fst hq2) h.1
    · rcases List.mem_cons.mp hq with rfl | hq2
      · exact absurd (he ▸ List.mem_map_of_mem Prod.fst hp2) h.1
      · exact nodup_key_pair_eq h.2 hp2 hq2 he

theorem find?_unique {α : Type} {pred : α → Bool} :
    ∀ {P : List α} {p : α}, p ∈ P → pred p = true → (∀ q ∈ P, pred q = true → q = p) →
      P.find? pred = some p
  | [], p, hp, _, _ => absurd hp (List.not_mem_nil _)
  | a :: P, p, hp, hpred, huniq => by
    by_cases ha : pred a
    · rw [List.find?_cons_of_pos _ ha, huniq a (List.mem_cons_self _ _) ha]
    · rw [List.find?_cons_of_neg _ ha]
      have hp2 : p ∈ P := by
        rcases List.mem_cons.mp hp with rfl | h2
        · exact absurd hpred ha
        · exact h2
      exact find?_unique hp2 hpred fun q hq hq2 => huniq q (List.mem_cons_of_mem _ hq) hq2

theorem applyOp_actions (card : CardData) (op : Op) :
    (applyOp card op).actions = commentApply card.actions op := by
  cases op <;> rfl

theorem applyOps_actions : ∀ (ops : List Op) (card : CardData),
    (applyOps card ops).actions = ops.foldl commentApply card.actions
  | [], _ => rfl
  | op :: ops, card => by
    show (applyOps (applyOp card op) ops).actions = _
    rw [applyOps_actions ops (applyOp card op), List.foldl_cons, applyOp_actions]

theorem foldl_lastMatch_acc (d : String) :
    ∀ (as : List RemoteComment) (acc : Option RemoteComment),
      as.foldl (fun a c => if extractDate c = some d then some c else a) acc
        = match lastMatch as d with
          | some c => some c
          | none => acc
  | [], _ => rfl
  | x :: as, acc => by
    have hL : (x :: as).foldl (fun a c => if extractDate c = some d then some c else a) acc
        = as.foldl (fun a c => if extractDate c = some d then some c else a)
            (if extractDate x = some d then some x else acc) := rfl
    have hM : lastMatch (x :: as) d
        = as.foldl (fun a c => if extractDate c = some d then some c else a)
            (if extractDate x = some d then some x else none) := rfl
    rw [hL, foldl_lastMatch_acc d as, hM, foldl_lastMatch_acc d as]
    by_cases hx : extractDate x = some d
    · rw [if_pos hx, if_pos hx]
      cases lastMatch as d <;> rfl
    · rw [if_neg hx, if_neg hx]
      cases lastMatch as d <;> rfl

theorem lastMatch_cons (x : RemoteComment) (as : List RemoteComment) (d : String) :
    lastMatch (x :: as) d = match lastMatch as d with
      | some y => some y
      | none => if extractDate x = some d then some x else none := by
  show as.foldl _ (if extractDate x = some d then some x else none) = _
  exact foldl_lastMatch_acc d as _

theorem lastMatch_append (as bs : List RemoteComment) (d : String) :
    lastMatch (as ++ bs) d = match lastMatch bs d with
      | some c => some c
      | none => lastMatch as d := by
  rw [show lastMatch (as ++ bs) d
      = bs.foldl (fun a c => if extractDate c = some d then some c else a)
          (as.foldl (fun a c => if extractDate c = some d then some c else a) none) from by
    unfold lastMatch
    rw [List.foldl_append]]
  rw [foldl_lastMatch_acc d bs]
  rfl

theorem lastMatch_map_aux (d : String) (f : RemoteComment → RemoteComment) :
    ∀ (as : List RemoteComment), (∀ c ∈ as, extractDate (f c) = extractDate c) →
    ∀ (acc : Option RemoteComment),
      (as.map f).foldl (fun a c => if extractDate c = some d then some c else a) (acc.map f)
        = (as.foldl (fun a c => if extractDate c = some d then some c else a) acc).map f
  | [], _, _ => rfl
  | x :: as, h, acc => by
    have hx : extractDate (f x) = extractDate x := h x (List.mem_cons_self _ _)
    have hrest := fun c hc => h c (List.mem_cons_of_mem x hc)
    have hL : ((x :: as).map f).foldl (fun a c => if extractDate c = some d then some c else a)
        (acc.map f)
        = (as.map f).foldl (fun a c => if extractDate c = some d then some c else a)
            (if extractDate (f x) = some d then some (f x) else acc.map f) := rfl
    have hR : (x :: as).foldl (fun a c => if extractDate c = some d then some c else a) acc
        = as.foldl (fun a c => if extractDate c = some d then some c else a)
            (if extractDate x = some d then some x else acc) := rfl
    rw [hL, hR, hx]
    by_cases hxd : extractDate x = some d
    · rw [if_pos hxd, if_pos hxd]
      exact lastMatch_map_aux d f as hrest (some x)
    · rw [if_neg hxd, if_neg hxd]
      exact lastMatch_map_aux d f as hrest acc

theorem lastMatch_map {f : RemoteComment → RemoteComment} {as : List RemoteComment} (d : String)
    (hf : ∀ c ∈ as, extractDate (f c) = extractDate c) :
    lastMatch (as.map f) d = (lastMatch as d).map f :=
  lastMatch_map_aux d f as hf none

theorem lastMatch_some_aux (d : String) :
    ∀ (as : List RemoteComment) (acc : Option RemoteComment) {c : RemoteComment},
      as.foldl (fun a c => if extractDate c = some d then some c else a) acc = some c →
      (c ∈ as ∧ extractDate c = some d) ∨ acc = some c
  | [], _, _, h => Or.inr h
  | x :: as, acc, c, h => by
    have hstep : (x :: as).foldl (fun a c => if extractDate c = some d then some c else a) acc
        = as.foldl (fun a c => if extractDate c = some d then some c else a)
            (if extractDate x = some d then some x else acc) := rfl
    rw [hstep] at h
    rcases lastMatch_some_aux d as _ h with ⟨hm, he⟩ | hacc
    · exact Or.inl ⟨List.mem_cons_of_mem _ hm, he⟩
    · by_cases hx : extractDate x = some d
      · rw [if_pos hx] at hacc
        cases Option.some.inj hacc
        exact Or.inl ⟨List.mem_cons_self _ _, hx⟩
      · rw [if_neg hx] at hacc
        exact Or.inr hacc

theorem lastMatch_some_mem {as : List RemoteComment} {d : String} {c : RemoteComment}
    (h : lastMatch as d = some c) : c ∈ as ∧ extractDate c = some d := by
  rcases lastMatch_some_aux d as none h with h2 | h2
  · exact h2
  · exact absurd h2 (by simp)

theorem lastMatch_ne_none :
    ∀ {as : List RemoteComment} {d : String} {c : RemoteComment},
      c ∈ as → extractDate c = some d → lastMatch as d ≠ none
  | [], _, _, hc, _ => absurd hc (List.not_mem_nil _)
  | x :: as, d, c, hc, he => by
    rw [lastMatch_cons]
    rcases List.mem_cons.mp hc with rfl | hc2
    · cases hl : lastMatch as d
      · rw [if_pos he]
        simp
      · simp
    · have hne := lastMatch_ne_none hc2 he
      cases hl : lastMatch as d
      · exact absurd hl hne
      · simp

theorem lastMatch_none_forall {as : List RemoteComment} {d : String}
    (h : lastMatch as d = none) : ∀ c ∈ as, extractDate c ≠ some d :=
  fun _ hc he => lastMatch_ne_none hc he h

theorem findPosted_aux (d : String) :
    ∀ (as : List RemoteComment) (acc : Option RemoteComment),
      as.foldl (fun a c => if extractDate c = some d then some (c.id, pyStrip c.text) else a)
        (acc.map fun c => (c.id, pyStrip c.text))
        = (as.foldl (fun a c => if extractDate c = some d then some c else a) acc).map
            fun c => (c.id, pyStrip c.text)
  | [], _ => rfl
  | x :: as, acc => by
    have hL : (x :: as).foldl
          (fun a c => if extractDate c = some d then some (c.id, pyStrip c.text) else a)
          (acc.map fun c => (c.id, pyStrip c.text))
        = as.foldl (fun a c => if extractDate c = some d then some (c.id, pyStrip c.text) else a)
            (if extractDate x = some d then some (x.id, pyStrip x.text)
              else acc.map fun c => (c.id, pyStrip c.text)) := rfl
    have hR : (x :: as).foldl (fun a c => if extractDate c = some d then some c else a) acc
        = as.foldl (fun a c => if extractDate c = some d then some c else a)
            (if extractDate x = some d then some x else acc) := rfl
    rw [hL, hR]
    by_cases hxd : extractDate x = some d
    · rw [if_pos hxd, if_pos hxd]
      exact findPosted_aux d as (some x)
    · rw [if_neg hxd, if_neg hxd]
      exact findPosted_aux d as acc

theorem findPosted_eq_lastMatch (as : List RemoteComment) (d : String) :
    findPosted as d = (lastMatch as d).map fun c => (c.id, pyStrip c.text) :=
  findPosted_aux d as none

theorem extractDate_strip (i : Nat) (v : String) :
    extractDate ⟨i, pyStrip v⟩ = searchDate (pyStrip v) := by
  show searchDate (pyStrip (pyStrip v)) = _
  rw [pyStrip_idem]

theorem targetsOf_of_none {origAs : List RemoteComment} {p : String × String}
    (h : lastMatch origAs p.1 = none) (c : RemoteComment) : targetsOf origAs c p = false := by
  unfold targetsOf
  rw [h]

theorem targetsOf_self {origAs : List RemoteComment} {p : String × String} {c0 : RemoteComment}
    (h : lastMatch origAs p.1 = some c0) : targetsOf origAs c0 p = true := by
  unfold targetsOf
  rw [h]
  exact beq_self_eq_true _

theorem find?_targets_none {origAs : List RemoteComment} {P : List (String × String)}
    {p : String × String} {c0 : RemoteComment}
    (hids : (origAs.map RemoteComment.id).Nodup)
    (hc0 : lastMatch origAs p.1 = some c0)
    (hnp : p.1 ∉ P.map Prod.fst) :
    P.find? (targetsOf origAs c0) = none := by
  rw [List.find?_eq_none]
  intro q hq
  cases hl : lastMatch origAs q.1 with
  | none => simp [targetsOf, hl]
  | some cq =>
    simp only [targetsOf, hl, beq_iff_eq]
    intro hid
    have hcqm := lastMatch_some_mem hl
    have hc0m := lastMatch_some_mem hc0
    have : cq = c0 := nodup_id_inj hids hcqm.1 hc0m.1 hid
    have hdq : q.1 = p.1 := by
      have h1 := hcqm.2
      rw [this, hc0m.2] at h1
      exact (Option.some.inj h1).symm
    exact hnp (hdq ▸ List.mem_map_of_mem Prod.fst hq)

theorem updFn2_nil (origAs : List RemoteComment) (u : RemoteComment → RemoteComment)
    (c : RemoteComment) : updFn2 origAs [] u c = u c := rfl

theorem updFn2_cons_target {origAs : List RemoteComment} {P : List (String × String)}
    {p : String × String} {c0 : RemoteComment} (u : RemoteComment → RemoteComment)
    (hc0 : lastMatch origAs p.1 = some c0) :
    updFn2 origAs (p :: P) u c0
      = if pyStrip p.2 = pyStrip c0.text then c0 else ⟨c0.id, pyStrip p.2⟩ := by
  unfold updFn2
  rw [List.find?_cons_of_pos _ (targetsOf_self hc0)]

theorem updFn2_cons_of_ne {origAs : List RemoteComment} {P : List (String × String)}
    {p : String × String} {c : RemoteComment} (u : RemoteComment → RemoteComment)
    (h : targetsOf origAs c p = false) :
    updFn2 origAs (p :: P) u c = updFn2 origAs P u c := by
  unfold updFn2
  rw [List.find?_cons_of_neg _ (by simp [h])]

/-- The central characterization of one `sync_daily_log` run: applying the
generated operations rewrites each existing comment by `updFn2` and
appends exactly the `createdFrom` comments.  `u` accumulates the rewrites
of already-processed pairs, `E` the comments appended so far. -/
theorem dailyOps_apply (origAs : List RemoteComment) :
    ∀ (P : List (String × String)) (k : Nat) (u : RemoteComment → RemoteComment)
      (E : List RemoteComment),
      (P.map Prod.fst).Nodup →
      (∀ p ∈ P, searchDate (pyStrip p.2) = some p.1) →
      (origAs.map RemoteComment.id).Nodup →
      (∀ c ∈ origAs, c.id < k) →
      (∀ c, (u c).id = c.id) →
      (∀ c ∈ origAs, extractDate (u c) = extractDate c) →
      (∀ p ∈ P, ∀ c ∈ origAs, lastMatch origAs p.1 = some c → u c = c) →
      (∀ e ∈ E, ∀ c ∈ origAs, e.id ≠ c.id) →
      (∀ e ∈ E, ∀ p ∈ P, extractDate e ≠ some p.1) →
      (dailyOpsAux origAs k P).foldl commentApply (origAs.map u ++ E)
        = origAs.map (updFn2 origAs P u) ++ (E ++ createdFrom origAs k P)
  | [], k, u, E, _, _, _, _, _, _, _, _, _ => by
    show origAs.map u ++ E = origAs.map (updFn2 origAs [] u) ++ (E ++ createdFrom origAs k [])
    rw [show createdFrom origAs k [] = [] from rfl, List.append_nil]
    congr 1
  | p :: P, k, u, E, hnd, hx, hids, hlt, huid, hux, huf, he1, he2 => by
    have hxp : searchDate (pyStrip p.2) = some p.1 := hx p (List.mem_cons_self _ _)
    have hndp : p.1 ∉ P.map Prod.fst ∧ (P.map Prod.fst).Nodup := by
      rw [List.map_cons, List.nodup_cons] at hnd
      exact hnd
    have hxr := fun q hq => hx q (List.mem_cons_of_mem p hq)
    have hufr := fun q hq => huf q (List.mem_cons_of_mem p hq)
    have he2r := fun e he q hq => he2 e he q (List.mem_cons_of_mem p hq)
    cases hfp : findPosted origAs p.1 with
    | none =>
      have hlmn : lastMatch origAs p.1 = none := by
        have hb := findPosted_eq_lastMatch origAs p.1
        rw [hfp] at hb
        exact Option.map_eq_none'.mp hb.symm
      simp only [dailyOpsAux, hfp, List.foldl_cons]
      rw [show commentApply (origAs.map u ++ E) (Op.createComment k (pyStrip p.2))
          = origAs.map u ++ (E ++ [⟨k, pyStrip p.2⟩]) from by
        show (origAs.map u ++ E) ++ [(⟨k, pyStrip p.2⟩ : RemoteComment)] = _
        rw [List.append_assoc]]
      have hnew1 : ∀ e ∈ E ++ [(⟨k, pyStrip p.2⟩ : RemoteComment)], ∀ c ∈ origAs,
          e.id ≠ c.id := by
        intro e hemem c hc
        rcases List.mem_append.mp hemem with hmem | hmem
        · exact he1 e hmem c hc
        · rw [List.mem_singleton.mp hmem]
          exact ne_of_gt (hlt c hc)
      have hnew2 : ∀ e ∈ E ++ [(⟨k, pyStrip p.2⟩ : RemoteComment)], ∀ q ∈ P,
          extractDate e ≠ some q.1 := by
        intro e hemem q hq
        rcases List.mem_append.mp hemem with hmem | hmem
        · exact he2 e hmem q (List.mem_cons_of_mem p hq)
        · rw [List.mem_singleton.mp hmem, extractDate_strip, hxp]
          intro hesome
          have hqp : p.1 = q.1 := Option.some.inj hesome
          exact hndp.1 (hqp ▸ List.mem_map_of_mem Prod.fst hq)
      have hltr : ∀ c ∈ origAs, c.id < k + 1 := fun c hc => Nat.lt_succ_of_lt (hlt c hc)
      rw [dailyOps_apply origAs P (k + 1) u (E ++ [(⟨k, pyStrip p.2⟩ : RemoteComment)]) hndp.2
        hxr hids hltr huid hux hufr hnew1 hnew2]
      congr 1
      · exact List.map_congr_left fun c _ =>
          (updFn2_cons_of_ne u (targetsOf_of_none hlmn c)).symm
      · rw [List.append_assoc]
        congr 1
        simp only [createdFrom, hfp]
        rfl
    | some it =>
      have hlm : ∃ c0, lastMatch origAs p.1 = some c0 ∧ it.1 = c0.id ∧ it.2 = pyStrip c0.text := by
        have hb := findPosted_eq_lastMatch origAs p.1
        rw [hfp] at hb
        cases hl : lastMatch origAs p.1 with
        | none =>
          rw [hl] at hb
          exact absurd hb (by simp)
        | some c0 =>
          rw [hl] at hb
          have hit : it = (c0.id, pyStrip c0.text) := Option.some.inj hb
          exact ⟨c0, rfl, by rw [hit], by rw [hit]⟩
      obtain ⟨c0, hc0lm, hit1, hit2⟩ := hlm
      have hc0mem := lastMatch_some_mem hc0lm
      have huc0 : u c0 = c0 := huf p (List.mem_cons_self _ _) c0 hc0mem.1 hc0lm
      have hfind0 : P.find? (targetsOf origAs c0) = none :=
        find?_targets_none hids hc0lm hndp.1
      by_cases hcmp : pyStrip p.2 = it.2
      · simp only [dailyOpsAux, hfp, if_pos hcmp, List.nil_append]
        rw [dailyOps_apply origAs P k u E hndp.2 hxr hids hlt huid hux hufr he1 he2r]
        congr 1
        · apply List.map_congr_left
          intro c hc
          by_cases hcid : c0.id = c.id
          · have hceq : c = c0 := nodup_id_inj hids hc hc0mem.1 hcid.symm
            subst hceq
            rw [updFn2_cons_target u hc0lm]
            rw [if_pos (by rw [← hit2]; exact hcmp)]
            show updFn2 origAs P u c = c
            unfold updFn2
            rw [hfind0]
            exact huc0
          · exact (updFn2_cons_of_ne u (by
              unfold targetsOf
              rw [hc0lm]
              exact beq_eq_false_iff_ne.mpr fun h => hcid h)).symm
        · simp only [createdFrom, hfp]
      · -- an update is issued for the last matching comment
        simp only [dailyOpsAux, hfp, if_neg hcmp, List.cons_append, List.nil_append,
          List.foldl_cons]
        rw [show commentApply (origAs.map u ++ E) (Op.updateComment it.1 (pyStrip p.2))
            = origAs.map (fun c =>
                if (u c).id = it.1 then { u c with text := pyStrip p.2 } else u c) ++ E from by
          show (origAs.map u ++ E).map (fun c =>
              if c.id = it.1 then { c with text := pyStrip p.2 } else c) = _
          rw [List.map_append, List.map_map]
          congr 1
          calc E.map (fun c => if c.id = it.1 then { c with text := pyStrip p.2 } else c)
              = E.map id := List.map_congr_left fun e hemem => by
                show (if e.id = it.1 then { e with text := pyStrip p.2 } else e) = e
                rw [if_neg]
                rw [hit1]
                exact he1 e hemem c0 hc0mem.1
            _ = E := List.map_id E]
        have huid' : ∀ c, ((fun c =>
            if (u c).id = it.1 then { u c with text := pyStrip p.2 } else u c) c).id = c.id := by
          intro c
          show (if (u c).id = it.1 then { u c with text := pyStrip p.2 } else u c).id = c.id
          by_cases hci : (u c).id = it.1
          · rw [if_pos hci]
            exact huid c
          · rw [if_neg hci]
            exact huid c
        have hux' : ∀ c ∈ origAs, extractDate ((fun c =>
            if (u c).id = it.1 then { u c with text := pyStrip p.2 } else u c) c)
            = extractDate c := by
          intro c hc
          show extractDate (if (u c).id = it.1 then { u c with text := pyStrip p.2 } else u c)
            = extractDate c
          by_cases hci : (u c).id = it.1
          · rw [if_pos hci]
            have hcid : c.id = c0.id := by rw [← huid c, hci, hit1]
            have hceq : c = c0 := nodup_id_inj hids hc hc0mem.1 hcid
            rw [hceq, huc0]
            show extractDate ⟨c0.id, pyStrip p.2⟩ = extractDate c0
            rw [extractDate_strip, hxp, hc0mem.2]
          · rw [if_neg hci]
            exact hux c hc
        have huf' : ∀ q ∈ P, ∀ c ∈ origAs, lastMatch origAs q.1 = some c →
            (fun c => if (u c).id = it.1 then { u c with text := pyStrip p.2 } else u c) c
              = c := by
          intro q hq c hc hqlm
          have hucq : u c = c := hufr q hq c hc hqlm
          show (if (u c).id = it.1 then { u c with text := pyStrip p.2 } else u c) = c
          rw [hucq]
          have hne : ¬ c.id = it.1 := by
            intro hci
            have hcid : c.id = c0.id := by rw [hci, hit1]
            have hceq : c = c0 := nodup_id_inj hids hc hc0mem.1 hcid
            have h1 := (lastMatch_some_mem hqlm).2
            rw [hceq, hc0mem.2] at h1
            have hpq : p.1 = q.1 := Option.some.inj h1
            exact hndp.1 (hpq ▸ List.mem_map_of_mem Prod.fst hq)
          rw [if_neg hne]
        rw [dailyOps_apply origAs P k _ E hndp.2 hxr hids hlt huid' hux' huf' he1 he2r]
        congr 1
        · apply List.map_congr_left
          intro c hc
          by_cases hcid : c0.id = c.id
          · have hceq : c = c0 := nodup_id_inj hids hc hc0mem.1 hcid.symm
            subst hceq
            show updFn2 origAs P (fun c =>
              if (u c).id = it.1 then { u c with text := pyStrip p.2 } else u c) c
              = updFn2 origAs (p :: P) u c
            rw [updFn2_cons_target u hc0lm]
            rw [if_neg (by rw [← hit2]; exact hcmp)]
            unfold updFn2
            rw [hfind0]
            show (if (u c).id = it.1 then { u c with text := pyStrip p.2 } else u c)
              = ⟨c.id, pyStrip p.2⟩
            rw [huc0, if_pos (by rw [hit1])]
          · have hne : targetsOf origAs c p = false := by
              unfold targetsOf
              rw [hc0lm]
              exact beq_eq_false_iff_ne.mpr fun h => hcid h
            rw [updFn2_cons_of_ne u hne]
            show updFn2 origAs P _ c = updFn2 origAs P u c
            unfold updFn2
            cases hfq : P.find? (targetsOf origAs c) with
            | some q => rfl
            | none =>
              show (if (u c).id = it.1 then { u c with text := pyStrip p.2 } else u c) = u c
              rw [if_neg]
              rw [huid c, hit1]
              exact fun h => hcid h.symm
        · simp only [createdFrom, hfp]

/-! ### The run-level characterization and per-date lookup facts -/

theorem sortLogs_perm (logs : List (String × String)) : List.Perm (sortLogs logs) logs :=
  List.perm_insertionSort pairLe logs

theorem sync_daily_log_run (card : CardData) (logs : List (String × String)) (k : Nat)
    (hnd : (logs.map Prod.fst).Nodup)
    (hx : ∀ p ∈ logs, searchDate (pyStrip p.2) = some p.1)
    (hids : (card.actions.map RemoteComment.id).Nodup)
    (hlt : ∀ c ∈ card.actions, c.id < k) :
    (applyOps card (sync_daily_log_ops k card logs)).actions
      = card.actions.map (updFn card.actions (sortLogs logs))
        ++ createdFrom card.actions k (sortLogs logs) := by
  rw [applyOps_actions]
  have h := dailyOps_apply card.actions (sortLogs logs) k id []
    (((sortLogs_perm logs).map Prod.fst).nodup_iff.mpr hnd)
    (fun p hp => hx p ((sortLogs_perm logs).mem_iff.mp hp))
    hids hlt (fun _ => rfl) (fun _ _ => rfl) (fun _ _ _ _ _ => rfl)
    (fun e he => absurd he (List.not_mem_nil _)) (fun e he => absurd he (List.not_mem_nil _))
  rw [List.map_id, List.append_nil] at h
  rw [show sync_daily_log_ops k card logs
      = dailyOpsAux card.actions k (sortLogs logs) from rfl]
  rw [h, List.nil_append]
  rfl

theorem updFn_extract (origAs : List RemoteComment) (P : List (String × String))
    (hids : (origAs.map RemoteComment.id).Nodup)
    (hx : ∀ p ∈ P, searchDate (pyStrip p.2) = some p.1) :
    ∀ c ∈ origAs, extractDate (updFn origAs P c) = extractDate c := by
  intro c hc
  unfold updFn updFn2
  cases hf : P.find? (targetsOf origAs c) with
  | none => rfl
  | some q =>
    have hqm : q ∈ P := List.mem_of_find?_eq_some hf
    have hqt : targetsOf origAs c q = true := List.find?_some hf
    cases hl : lastMatch origAs q.1 with
    | none =>
      unfold targetsOf at hqt
      rw [hl] at hqt
      exact absurd hqt (by simp)
    | some c0 =>
      unfold targetsOf at hqt
      rw [hl] at hqt
      have hid : c0.id = c.id := by simpa using hqt
      have hc0m := lastMatch_some_mem hl
      have hceq : c0 = c := nodup_id_inj hids hc0m.1 hc hid
      have hce : extractDate c = some q.1 := hceq ▸ hc0m.2
      show extractDate (if pyStrip q.2 = pyStrip c.text then c else ⟨c.id, pyStrip q.2⟩)
        = extractDate c
      by_cases hcm : pyStrip q.2 = pyStrip c.text
      · rw [if_pos hcm]
      · rw [if_neg hcm]
        rw [extractDate_strip, hx q hqm, hce]

theorem updFn_target {origAs : List RemoteComment} {P : List (String × String)}
    {p : String × String} {c0 : RemoteComment}
    (hnd : (P.map Prod.fst).Nodup) (hids : (origAs.map RemoteComment.id).Nodup)
    (hp : p ∈ P) (hc0 : lastMatch origAs p.1 = some c0) :
    updFn origAs P c0 = if pyStrip p.2 = pyStrip c0.text then c0 else ⟨c0.id, pyStrip p.2⟩ := by
  have huniq : ∀ q ∈ P, targetsOf origAs c0 q = true → q = p := by
    intro q hq hqt
    cases hl : lastMatch origAs q.1 with
    | none =>
      unfold targetsOf at hqt
      rw [hl] at hqt
      exact absurd hqt (by simp)
    | some cq =>
      unfold targetsOf at hqt
      rw [hl] at hqt
      have hid : cq.id = c0.id := by simpa using hqt
      have hcqm := lastMatch_some_mem hl
      have hc0m := lastMatch_some_mem hc0
      have hceq : cq = c0 := nodup_id_inj hids hcqm.1 hc0m.1 hid
      have h1 := hcqm.2
      rw [hceq, hc0m.2] at h1
      exact nodup_key_pair_eq hnd hq hp (Option.some.inj h1).symm
  unfold updFn updFn2
  rw [find?_unique hp (targetsOf_self hc0) huniq]

theorem updFn_target_text {origAs : List RemoteComment} {P : List (String × String)}
    {p : String × String} {c0 : RemoteComment}
    (hnd : (P.map Prod.fst).Nodup) (hids : (origAs.map RemoteComment.id).Nodup)
    (hp : p ∈ P) (hc0 : lastMatch origAs p.1 = some c0) :
    pyStrip (updFn origAs P c0).text = pyStrip p.2 := by
  rw [updFn_target hnd hids hp hc0]
  by_cases hcm : pyStrip p.2 = pyStrip c0.text
  · rw [if_pos hcm]
    exact hcm.symm
  · rw [if_neg hcm]
    show pyStrip (pyStrip p.2) = pyStrip p.2
    exact pyStrip_idem _

theorem lastMatch_none_of_forall :
    ∀ {as : List RemoteComment} {d : String}, (∀ c ∈ as, extractDate c ≠ some d) →
      lastMatch as d = none
  | [], _, _ => rfl
  | x :: as, d, h => by
    rw [lastMatch_cons,
      lastMatch_none_of_forall fun c hc => h c (List.mem_cons_of_mem x hc)]
    show (if extractDate x = some d then some x else none) = none
    rw [if_neg (h x (List.mem_cons_self _ _))]

theorem createdFrom_extract (origAs : List RemoteComment) :
    ∀ (P : List (String × String)) (k : Nat),
      (∀ q ∈ P, searchDate (pyStrip q.2) = some q.1) →
      ∀ e ∈ createdFrom origAs k P, ∃ q ∈ P,
        extractDate e = some q.1 ∧ findPosted origAs q.1 = none ∧ e.text = pyStrip q.2
  | [], _, _, e, he => absurd he (List.not_mem_nil _)
  | p :: P, k, hx, e, he => by
    have hxr := fun q hq => hx q (List.mem_cons_of_mem p hq)
    cases hfp : findPosted origAs p.1 with
    | some it =>
      rw [show createdFrom origAs k (p :: P) = createdFrom origAs k P from by
        simp only [createdFrom, hfp]] at he
      obtain ⟨q, hq, h1, h2, h3⟩ := createdFrom_extract origAs P k hxr e he
      exact ⟨q, List.mem_cons_of_mem p hq, h1, h2, h3⟩
    | none =>
      rw [show createdFrom origAs k (p :: P)
          = ⟨k, pyStrip p.2⟩ :: createdFrom origAs (k + 1) P from by
        simp only [createdFrom, hfp]] at he
      rcases List.mem_cons.mp he with rfl | he2
      · refine ⟨p, List.mem_cons_self _ _, ?_, hfp, rfl⟩
        rw [extractDate_strip, hx p (List.mem_cons_self _ _)]
      · obtain ⟨q, hq, h1, h2, h3⟩ := createdFrom_extract origAs P (k + 1) hxr e he2
        exact ⟨q, List.mem_cons_of_mem p hq, h1, h2, h3⟩

theorem createdFrom_lastMatch_self (origAs : List RemoteComment) :
    ∀ (P : List (String × String)) (k : Nat) {p : String × String},
      p ∈ P → (P.map Prod.fst).Nodup →
      (∀ q ∈ P, searchDate (pyStrip q.2) = some q.1) →
      findPosted origAs p.1 = none →
      ∃ i, lastMatch (createdFrom origAs k P) p.1 = some ⟨i, pyStrip p.2⟩
  | [], _, p, hp, _, _, _ => absurd hp (List.not_mem_nil _)
  | q :: P, k, p, hp, hnd, hx, hfp => by
    have hndq : q.1 ∉ P.map Prod.fst ∧ (P.map Prod.fst).Nodup := by
      rw [List.map_cons, List.nodup_cons] at hnd
      exact hnd
    have hxr := fun r hr => hx r (List.mem_cons_of_mem q hr)
    rcases List.mem_cons.mp hp with rfl | hp2
    · rw [show createdFrom origAs k (p :: P)
          = ⟨k, pyStrip p.2⟩ :: createdFrom origAs (k + 1) P from by
        simp only [createdFrom, hfp]]
      rw [lastMatch_cons]
      have hnone : lastMatch (createdFrom origAs (k + 1) P) p.1 = none := by
        apply lastMatch_none_of_forall
        intro e he
        obtain ⟨r, hr, h1, _, _⟩ := createdFrom_extract origAs P (k + 1) hxr e he
        rw [h1]
        intro heq
        exact hndq.1 ((Option.some.inj heq) ▸ List.mem_map_of_mem Prod.fst hr)
      rw [hnone]
      refine ⟨k, ?_⟩
      show (if extractDate (⟨k, pyStrip p.2⟩ : RemoteComment) = some p.1
          then some (⟨k, pyStrip p.2⟩ : RemoteComment) else none)
        = some (⟨k, pyStrip p.2⟩ : RemoteComment)
      rw [if_pos]
      rw [extractDate_strip, hx p (List.mem_cons_self _ _)]
    · cases hfq : findPosted origAs q.1 with
      | some it =>
        rw [show createdFrom origAs k (q :: P) = createdFrom origAs k P from by
          simp only [createdFrom, hfq]]
        exact createdFrom_lastMatch_self origAs P k hp2 hndq.2 hxr hfp
      | none =>
        rw [show createdFrom origAs k (q :: P)
            = ⟨k, pyStrip q.2⟩ :: createdFrom origAs (k + 1) P from by
          simp only [createdFrom, hfq]]
        rw [lastMatch_cons]
        obtain ⟨i, hi⟩ := createdFrom_lastMatch_self origAs P (k + 1) hp2 hndq.2 hxr hfp
        rw [hi]
        exact ⟨i, rfl⟩

theorem dailyOpsAux_noop (as2 : List RemoteComment) :
    ∀ (P : List (String × String)) (k : Nat),
      (∀ p ∈ P, ∃ i, findPosted as2 p.1 = some (i, pyStrip p.2)) →
      dailyOpsAux as2 k P = []
  | [], _, _ => rfl
  | p :: P, k, h => by
    obtain ⟨i, hi⟩ := h p (List.mem_cons_self _ _)
    simp only [dailyOpsAux, hi, if_true, List.nil_append]
    exact dailyOpsAux_noop as2 P k fun q hq => h q (List.mem_cons_of_mem p hq)

/-- After one fully successful run, every parsed date's lookup finds a
comment whose stored (trimmed) text is exactly the trimmed parsed text. -/
theorem post_findPosted (card : CardData) (logs : List (String × String)) (k : Nat)
    (hnd : (logs.map Prod.fst).Nodup)
    (hx : ∀ p ∈ logs, searchDate (pyStrip p.2) = some p.1)
    (hids : (card.actions.map RemoteComment.id).Nodup)
    (hlt : ∀ c ∈ card.actions, c.id < k) :
    ∀ p ∈ sortLogs logs, ∃ i,
      findPosted (applyOps card (sync_daily_log_ops k card logs)).actions p.1
        = some (i, pyStrip p.2) := by
  intro p hp
  have hndP : ((sortLogs logs).map Prod.fst).Nodup :=
    ((sortLogs_perm logs).map Prod.fst).nodup_iff.mpr hnd
  have hxP : ∀ q ∈ sortLogs logs, searchDate (pyStrip q.2) = some q.1 :=
    fun q hq => hx q ((sortLogs_perm logs).mem_iff.mp hq)
  cases hfp : findPosted card.actions p.1 with
  | some it =>
    have hlm : ∃ c0, lastMatch card.actions p.1 = some c0 := by
      have hb := findPosted_eq_lastMatch card.actions p.1
      rw [hfp] at hb
      cases hl : lastMatch card.actions p.1 with
      | none =>
        rw [hl] at hb
        exact absurd hb (by simp)
      | some c0 => exact ⟨c0, rfl⟩
    obtain ⟨c0, hc0⟩ := hlm
    have hcnone : lastMatch (createdFrom card.actions k (sortLogs logs)) p.1 = none := by
      apply lastMatch_none_of_forall
      intro e he
      obtain ⟨q, hq, h1, h2, _⟩ := createdFrom_extract card.actions (sortLogs logs) k hxP e he
      rw [h1]
      intro heq
      have hqp : q = p := nodup_key_pair_eq hndP hq hp (Option.some.inj heq)
      rw [hqp, hfp] at h2
      exact Option.noConfusion h2
    have hmap : lastMatch (card.actions.map (updFn card.actions (sortLogs logs))) p.1
        = some (updFn card.actions (sortLogs logs) c0) := by
      rw [lastMatch_map p.1 (updFn_extract card.actions (sortLogs logs) hids hxP), hc0]
      rfl
    refine ⟨(updFn card.actions (sortLogs logs) c0).id, ?_⟩
    rw [sync_daily_log_run card logs k hnd hx hids hlt, findPosted_eq_lastMatch,
      lastMatch_append, hcnone, hmap]
    show some ((updFn card.actions (sortLogs logs) c0).id,
        pyStrip (updFn card.actions (sortLogs logs) c0).text)
      = some ((updFn card.actions (sortLogs logs) c0).id, pyStrip p.2)
    rw [updFn_target_text hndP hids hp hc0]
  | none =>
    obtain ⟨i, hci⟩ := createdFrom_lastMatch_self card.actions (sortLogs logs) k hp hndP hxP hfp
    refine ⟨i, ?_⟩
    rw [sync_daily_log_run card logs k hnd hx hids hlt, findPosted_eq_lastMatch,
      lastMatch_append, hci]
    show some (i, pyStrip (pyStrip p.2)) = some (i, pyStrip p.2)
    rw [pyStrip_idem]

/-- C3: the log reconciler is idempotent.  Running `sync_daily_log` a
second time with the same parsed daily-log mapping, against the comment
state produced by a fully successful first run, issues no write at all
(no create, no update).  `k` bounds the existing comment ids, so that the
ids Trello mints for the first run's created comments are fresh. -/
theorem c3_second_run_noop (content : String) (card : CardData) (k k' : Nat)
    (hids : (card.actions.map RemoteComment.id).Nodup)
    (hlt : ∀ c ∈ card.actions, c.id < k) :
    sync_daily_log_ops k'
      (applyOps card (sync_daily_log_ops k card (parse_markdown content).daily_logs))
      (parse_markdown content).daily_logs = [] :=
  dailyOpsAux_noop _ _ k'
    (post_findPosted card (parse_markdown content).daily_logs k
      (parse_markdown_daily_nodup content)
      (logShape_extract (parse_markdown_daily_shape content)) hids hlt)

/-- C3 witness: a concrete card and document; the second run issues zero
operations. -/
theorem c3_second_run_noop_witness :
    sync_daily_log_ops 20
      (applyOps wcard (sync_daily_log_ops 10 wcard (parse_markdown wdoc).daily_logs))
      (parse_markdown wdoc).daily_logs = [] :=
  c3_second_run_noop wdoc wcard 10 20 (by decide) (by decide)

/-! ### C2: exactly one comment per parsed date -/

theorem filter_map_extract {f : RemoteComment → RemoteComment} (d : String) :
    ∀ (as : List RemoteComment), (∀ c ∈ as, extractDate (f c) = extractDate c) →
      (as.map f).filter (fun c => decide (extractDate c = some d))
        = (as.filter fun c => decide (extractDate c = some d)).map f
  | [], _ => rfl
  | x :: as, hf => by
    have hx : extractDate (f x) = extractDate x := hf x (List.mem_cons_self _ _)
    have hrest := fun c hc => hf c (List.mem_cons_of_mem x hc)
    rw [List.map_cons]
    by_cases hxd : extractDate x = some d
    · rw [List.filter_cons_of_pos (by simp [hx, hxd]),
        List.filter_cons_of_pos (by simp [hxd]), List.map_cons,
        filter_map_extract d as hrest]
    · rw [List.filter_cons_of_neg (by simp [hx, hxd]),
        List.filter_cons_of_neg (by simp [hxd]),
        filter_map_extract d as hrest]

theorem filter_le_one_eq {α : Type} {l : List α} {p : α → Bool}
    (h : (l.filter p).length ≤ 1) {a b : α}
    (ha : a ∈ l) (hpa : p a = true) (hb : b ∈ l) (hpb : p b = true) : a = b := by
  have ha' : a ∈ l.filter p := List.mem_filter.mpr ⟨ha, hpa⟩
  have hb' : b ∈ l.filter p := List.mem_filter.mpr ⟨hb, hpb⟩
  cases hl : l.filter p with
  | nil =>
    rw [hl] at ha'
    exact absurd ha' (List.not_mem_nil _)
  | cons x xs =>
    rw [hl] at ha' hb' h
    cases xs with
    | nil =>
      rw [List.mem_singleton.mp ha', List.mem_singleton.mp hb']
    | cons y ys =>
      exfalso
      simp only [List.length_cons] at h
      omega

theorem createdFrom_filter_eq (origAs : List RemoteComment) :
    ∀ (P : List (String × String)) (k : Nat) {d v : String},
      (d, v) ∈ P → (P.map Prod.fst).Nodup →
      (∀ q ∈ P, searchDate (pyStrip q.2) = some q.1) →
      findPosted origAs d = none →
      ∃ i, (createdFrom origAs k P).filter (fun c => decide (extractDate c = some d))
        = [⟨i, pyStrip v⟩]
  | [], _, _, _, hp, _, _, _ => absurd hp (List.not_mem_nil _)
  | q :: P, k, d, v, hp, hnd, hx, hfp => by
    have hndq : q.1 ∉ P.map Prod.fst ∧ (P.map Prod.fst).Nodup := by
      rw [List.map_cons, List.nodup_cons] at hnd
      exact hnd
    have hxr := fun r hr => hx r (List.mem_cons_of_mem q hr)
    rcases List.mem_cons.mp hp with heq | hp2
    · have hq1 : q.1 = d := by rw [← heq]
      have hq2 : q.2 = v := by rw [← heq]
      have hfp' : findPosted origAs q.1 = none := by
        rw [hq1]
        exact hfp
      rw [show createdFrom origAs k (q :: P)
          = ⟨k, pyStrip q.2⟩ :: createdFrom origAs (k + 1) P from by
        simp only [createdFrom, hfp']]
      rw [List.filter_cons_of_pos (by
        simp only [decide_eq_true_eq]
        rw [extractDate_strip, hx q (List.mem_cons_self _ _), hq1])]
      have hrest : (createdFrom origAs (k + 1) P).filter
          (fun c => decide (extractDate c = some d)) = [] := by
        rw [List.filter_eq_nil_iff]
        intro e he
        obtain ⟨r, hr, h1, _, _⟩ := createdFrom_extract origAs P (k + 1) hxr e he
        simp only [decide_eq_true_eq]
        rw [h1]
        intro heq2
        have : r.1 = d := Option.some.inj heq2
        exact hndq.1 (by rw [← hq1] at this; exact this ▸ List.mem_map_of_mem Prod.fst hr)
      rw [hrest, hq2]
      exact ⟨k, rfl⟩
    · cases hfq : findPosted origAs q.1 with
      | some it =>
        rw [show createdFrom origAs k (q :: P) = createdFrom origAs k P from by
          simp only [createdFrom, hfq]]
        exact createdFrom_filter_eq origAs P k hp2 hndq.2 hxr hfp
      | none =>
        rw [show createdFrom origAs k (q :: P)
            = ⟨k, pyStrip q.2⟩ :: createdFrom origAs (k + 1) P from by
          simp only [createdFrom, hfq]]
        rw [List.filter_cons_of_neg (by
          simp only [decide_eq_true_eq]
          rw [extractDate_strip, hx q (List.mem_cons_self _ _)]
          intro heq2
          have hq1d : q.1 = d := Option.some.inj heq2
          exact hndq.1 (hq1d ▸ List.mem_map_of_mem Prod.fst hp2))]
        exact createdFrom_filter_eq origAs P (k + 1) hp2 hndq.2 hxr hfp

/-- C2 counterexample: the claim asserts that after a successful run
exactly one comment carries the parsed date and that its text equals the
parsed text.  With two pre-existing comments extracting the same date
(the matched one trim-equal to the parsed text), the run issues nothing:
two comments with that extracted date remain on the card, and no comment's
raw text equals the parsed log text byte for byte. -/
theorem c2_unique_comment_cex :
    ((applyOps c2cexCard (sync_daily_log_ops 10 c2cexCard
        (parse_markdown c2cexDoc).daily_logs)).actions.filter
      fun c => decide (extractDate c = some "2024-01-05")).length = 2
    ∧ ((applyOps c2cexCard (sync_daily_log_ops 10 c2cexCard
        (parse_markdown c2cexDoc).daily_logs)).actions.all
        fun c => c.text != "### 2024-01-05\nB") = true :=
  ⟨by decide, by decide⟩

/-- C2 (amended): for every date in the parsed daily-log mapping, if the
remote card's comments carry pairwise-distinct extracted dates (at most
one existing comment per date, as the `posted_logs` dict presumes) and
its ids are distinct and below the fresh-id bound `k`, then after a fully
successful run exactly one comment on the card has that extracted date,
and every comment with that extracted date carries the parsed log text up
to surrounding whitespace (trim-equality, matching the reconciler's own
comparison; the raw text may retain its original surrounding whitespace). -/
theorem c2_unique_comment_per_date (content : String) (card : CardData) (k : Nat)
    (d v : String)
    (hmem : (d, v) ∈ (parse_markdown content).daily_logs)
    (hids : (card.actions.map RemoteComment.id).Nodup)
    (hlt : ∀ c ∈ card.actions, c.id < k)
    (hone : (card.actions.filter fun c => decide (extractDate c = some d)).length ≤ 1) :
    ((applyOps card (sync_daily_log_ops k card
        (parse_markdown content).daily_logs)).actions.filter
      fun c => decide (extractDate c = some d)).length = 1
    ∧ ∀ c ∈ (applyOps card (sync_daily_log_ops k card
        (parse_markdown content).daily_logs)).actions,
        extractDate c = some d → pyStrip c.text = pyStrip v := by
  have hnd := parse_markdown_daily_nodup content
  have hx := logShape_extract (parse_markdown_daily_shape content)
  have hndP : ((sortLogs (parse_markdown content).daily_logs).map Prod.fst).Nodup :=
    ((sortLogs_perm _).map Prod.fst).nodup_iff.mpr hnd
  have hxP : ∀ q ∈ sortLogs (parse_markdown content).daily_logs,
      searchDate (pyStrip q.2) = some q.1 :=
    fun q hq => hx q ((sortLogs_perm _).mem_iff.mp hq)
  have hmemP : (d, v) ∈ sortLogs (parse_markdown content).daily_logs :=
    (sortLogs_perm _).mem_iff.mpr hmem
  have hrun := sync_daily_log_run card (parse_markdown content).daily_logs k hnd hx hids hlt
  have hpres := updFn_extract card.actions (sortLogs (parse_markdown content).daily_logs)
    hids hxP
  constructor
  · rw [hrun, List.filter_append, List.length_append, filter_map_extract d card.actions hpres,
      List.length_map]
    cases hfp : findPosted card.actions d with
    | some it =>
      have hlm : ∃ c0, lastMatch card.actions d = some c0 := by
        have hb := findPosted_eq_lastMatch card.actions d
        rw [hfp] at hb
        cases hl : lastMatch card.actions d with
        | none =>
          rw [hl] at hb
          exact absurd hb (by simp)
        | some c0 => exact ⟨c0, rfl⟩
      obtain ⟨c0, hc0⟩ := hlm
      have hc0m := lastMatch_some_mem hc0
      have hcreated : (createdFrom card.actions k
          (sortLogs (parse_markdown content).daily_logs)).filter
          (fun c => decide (extractDate c = some d)) = [] := by
        rw [List.filter_eq_nil_iff]
        intro e he
        obtain ⟨q, hq, h1, h2, _⟩ := createdFrom_extract card.actions _ k hxP e he
        simp only [decide_eq_true_eq]
        rw [h1]
        intro heq
        have hqp : q = (d, v) := nodup_key_pair_eq hndP hq hmemP (Option.some.inj heq)
        rw [hqp] at h2
        rw [h2] at hfp
        exact Option.noConfusion hfp
      rw [hcreated]
      have hpos : 0 < (card.actions.filter fun c => decide (extractDate c = some d)).length :=
        List.length_pos_of_mem (List.mem_filter.mpr ⟨hc0m.1, by simp [hc0m.2]⟩)
      simp only [List.length_nil]
      omega
    | none =>
      have horig : (card.actions.filter fun c => decide (extractDate c = some d)) = [] := by
        rw [List.filter_eq_nil_iff]
        intro c hc
        simp only [decide_eq_true_eq]
        have hlmn : lastMatch card.actions d = none := by
          have hb := findPosted_eq_lastMatch card.actions d
          rw [hfp] at hb
          exact Option.map_eq_none'.mp hb.symm
        exact lastMatch_none_forall hlmn c hc
      obtain ⟨i, hcf⟩ := createdFrom_filter_eq card.actions
        (sortLogs (parse_markdown content).daily_logs) k hmemP hndP hxP hfp
      rw [horig, hcf]
      rfl
  · intro c hc hcd
    rw [hrun] at hc
    rcases List.mem_append.mp hc with hcm | hcm
    · obtain ⟨c0', hc0'mem, hc0'eq⟩ := List.mem_map.mp hcm
      have hcd' : extractDate c0' = some d := by
        rw [← hpres c0' hc0'mem, hc0'eq]
        exact hcd
      have hlm : ∃ c0, lastMatch card.actions d = some c0 :=
        match hl : lastMatch card.actions d with
        | some c0 => ⟨c0, rfl⟩
        | none => absurd hcd' (lastMatch_none_forall hl c0' hc0'mem)
      obtain ⟨c0, hc0⟩ := hlm
      have hc0m := lastMatch_some_mem hc0
      have hceq : c0' = c0 := filter_le_one_eq hone hc0'mem (by simp [hcd']) hc0m.1
        (by simp [hc0m.2])
      rw [← hc0'eq, hceq]
      exact updFn_target_text hndP hids hmemP hc0
    · obtain ⟨q, hq, h1, _, h3⟩ := createdFrom_extract card.actions _ k hxP c hcm
      rw [hcd] at h1
      have hqp : q = (d, v) := nodup_key_pair_eq hndP hq hmemP (Option.some.inj h1.symm)
      rw [hqp] at h3
      rw [h3, pyStrip_idem]

/-- C2 witness: one stale matching comment and one new date; after the run
the count for each parsed date is one and the stored text is the parsed
text. -/
theorem c2_unique_comment_per_date_witness :
    ((applyOps wcard (sync_daily_log_ops 10 wcard
        (parse_markdown wdoc).daily_logs)).actions.filter
      fun c => decide (extractDate c = some "2024-01-05")).length = 1
    ∧ ∀ c ∈ (applyOps wcard (sync_daily_log_ops 10 wcard
        (parse_markdown wdoc).daily_logs)).actions,
        extractDate c = some "2024-01-05" →
          pyStrip c.text = pyStrip "### 2024-01-05\nDid work" :=
  c2_unique_comment_per_date wdoc wcard 10 "2024-01-05" "### 2024-01-05\nDid work"
    (by decide) (by decide) (by decide) (by decide)


/-! ### C5: an update is issued iff the trimmed texts differ -/

theorem findPosted_some_elim {as : List RemoteComment} {d : String} {q : Nat × String}
    (h : findPosted as d = some q) :
    ∃ c0, lastMatch as d = some c0 ∧ q.1 = c0.id ∧ q.2 = pyStrip c0.text := by
  rw [findPosted_eq_lastMatch] at h
  cases hl : lastMatch as d with
  | none =>
    rw [hl] at h
    exact Option.noConfusion h
  | some c0 =>
    rw [hl] at h
    have hq : (c0.id, pyStrip c0.text) = q := Option.some.inj h
    exact ⟨c0, rfl, congrArg Prod.fst hq.symm, congrArg Prod.snd hq.symm⟩

theorem findPosted_none_elim {as : List RemoteComment} {d : String}
    (h : findPosted as d = none) : lastMatch as d = none := by
  rw [findPosted_eq_lastMatch] at h
  exact Option.map_eq_none'.mp h

/-- Any update operation the daily loop issues comes from a parsed pair
whose date lookup hit an existing comment with a differing trimmed text;
the target id is that comment’s id and the new text is the pair’s trimmed
text. -/
theorem dailyOpsAux_update_elim (as : List RemoteComment) :
    ∀ (P : List (String × String)) (k : Nat) {i : Nat} {s : String},
      Op.updateComment i s ∈ dailyOpsAux as k P →
      ∃ p, p ∈ P ∧ ∃ c0, lastMatch as p.1 = some c0 ∧ c0.id = i ∧
        s = pyStrip p.2 ∧ pyStrip p.2 ≠ pyStrip c0.text
  | [], _, _, _, h => absurd h (List.not_mem_nil _)
  | p :: P, k, i, s, h => by
    cases hfp : findPosted as p.1 with
    | some it =>
      simp only [dailyOpsAux, hfp] at h
      rcases List.mem_append.mp h with h1 | h1
      · by_cases hcmp : pyStrip p.2 = it.2
        · rw [if_pos hcmp] at h1
          exact absurd h1 (List.not_mem_nil _)
        · rw [if_neg hcmp] at h1
          have hop := List.mem_singleton.mp h1
          injection hop with ha hb
          obtain ⟨c0, hc0, hq1, hq2⟩ := findPosted_some_elim hfp
          refine ⟨p, List.mem_cons_self _ _, c0, hc0, (ha.trans hq1).symm, hb, ?_⟩
          rw [← hq2]
          exact hcmp
      · obtain ⟨q, hq, hrest⟩ := dailyOpsAux_update_elim as P k h1
        exact ⟨q, List.mem_cons_of_mem p hq, hrest⟩
    | none =>
      simp only [dailyOpsAux, hfp] at h
      rcases List.mem_cons.mp h with h1 | h1
      · exact Op.noConfusion h1
      · obtain ⟨q, hq, hrest⟩ := dailyOpsAux_update_elim as P (k + 1) h1
        exact ⟨q, List.mem_cons_of_mem p hq, hrest⟩

/-- Conversely, a parsed pair whose lookup hits an existing comment with a
differing trimmed text does put an update for that comment in the issued
list. -/
theorem dailyOpsAux_update_intro (as : List RemoteComment) :
    ∀ (P : List (String × String)) (k : Nat) {p : String × String} {cid : Nat} {t : String},
      p ∈ P → findPosted as p.1 = some (cid, t) → pyStrip p.2 ≠ t →
      Op.updateComment cid (pyStrip p.2) ∈ dailyOpsAux as k P
  | [], _, _, _, _, hp, _, _ => absurd hp (List.not_mem_nil _)
  | q :: P, k, p, cid, t, hp, hfp, hne => by
    rcases List.mem_cons.mp hp with heq | hp2
    · rw [heq] at hfp hne ⊢
      simp only [dailyOpsAux, hfp]
      refine List.mem_append_left _ ?_
      show Op.updateComment cid (pyStrip q.2)
        ∈ if pyStrip q.2 = t then [] else [Op.updateComment cid (pyStrip q.2)]
      rw [if_neg hne]
      exact List.mem_singleton.mpr rfl
    · cases hfq : findPosted as q.1 with
      | some it =>
        simp only [dailyOpsAux, hfq]
        exact List.mem_append_right _ (dailyOpsAux_update_intro as P k hp2 hfp hne)
      | none =>
        simp only [dailyOpsAux, hfq]
        exact List.mem_cons_of_mem _ (dailyOpsAux_update_intro as P (k + 1) hp2 hfp hne)

/-- C5: for a parsed log date `d` whose lookup over the existing comments
yields a comment (id `cid`, stored trimmed text `t`), `sync_daily_log`
issues an update for that comment if and only if the trimmed parsed log
text differs from `t`; in particular, texts differing only in leading or
trailing whitespace issue no update. -/
theorem c5_update_iff_trim_differs (card : CardData) (logs : List (String × String))
    (k : Nat) (d v : String) (cid : Nat) (t : String)
    (hmem : (d, v) ∈ logs) (hnd : (logs.map Prod.fst).Nodup)
    (hids : (card.actions.map RemoteComment.id).Nodup)
    (hfp : findPosted card.actions d = some (cid, t)) :
    (∃ s, Op.updateComment cid s ∈ sync_daily_log_ops k card logs) ↔ pyStrip v ≠ t := by
  have hndP : ((sortLogs logs).map Prod.fst).Nodup :=
    ((sortLogs_perm logs).map Prod.fst).nodup_iff.mpr hnd
  have hmemP : (d, v) ∈ sortLogs logs := (sortLogs_perm logs).mem_iff.mpr hmem
  obtain ⟨c0, hc0, hq1, hq2⟩ := findPosted_some_elim hfp
  have hc0m := lastMatch_some_mem hc0
  constructor
  · rintro ⟨s, hs⟩
    obtain ⟨q, hq, cq, hlq, hcqid, _, hdiff⟩ :=
      dailyOpsAux_update_elim card.actions (sortLogs logs) k hs
    have hcq := lastMatch_some_mem hlq
    have hceq : cq = c0 := nodup_id_inj hids hcq.1 hc0m.1 (by rw [hcqid]; exact hq1)
    have hdq : q.1 = d := by
      have hx2 := hcq.2
      rw [hceq, hc0m.2] at hx2
      exact (Option.some.inj hx2).symm
    have hqeq : q = (d, v) := nodup_key_pair_eq hndP hq hmemP hdq
    rw [hqeq, hceq] at hdiff
    have hq2s : t = pyStrip c0.text := hq2
    rw [hq2s]
    exact hdiff
  · intro hne
    exact ⟨pyStrip v, dailyOpsAux_update_intro card.actions (sortLogs logs) k hmemP hfp hne⟩

/-- C5 witness: at a concrete card and log list whose single comment
matches the parsed date, the equivalence holds. -/
theorem c5_update_iff_trim_differs_witness :
    ((∃ s, Op.updateComment 1 s ∈ sync_daily_log_ops 10 wcard
        [("2024-01-05", "### 2024-01-05\nDid work")])
      ↔ pyStrip "### 2024-01-05\nDid work" ≠ "### 2024-01-05\nOld text") :=
  c5_update_iff_trim_differs wcard [("2024-01-05", "### 2024-01-05\nDid work")] 10
    "2024-01-05" "### 2024-01-05\nDid work" 1 "### 2024-01-05\nOld text"
    (by decide) (by decide) (by decide) (by decide)


/-! ### C6: comments without an embedded date are never matched or touched -/

/-- A comment not named by any update operation of a batch survives the
batch verbatim. -/
theorem mem_foldl_commentApply :
    ∀ (ops : List Op) (A : List RemoteComment) (c : RemoteComment),
      (∀ i s, Op.updateComment i s ∈ ops → i ≠ c.id) → c ∈ A →
      c ∈ ops.foldl commentApply A
  | [], _, _, _, hc => hc
  | op :: ops, A, c, h, hc => by
    rw [List.foldl_cons]
    refine mem_foldl_commentApply ops (commentApply A op) c
      (fun i s hi => h i s (List.mem_cons_of_mem op hi)) ?_
    cases op with
    | createChecklist a n => exact hc
    | createItem a b n ch => exact hc
    | updateItemState a st => exact hc
    | deleteItem a b => exact hc
    | createComment i t => exact List.mem_append_left _ hc
    | updateComment i t =>
      have hne : i ≠ c.id := h i t (List.mem_cons_self _ _)
      show c ∈ A.map fun x => if x.id = i then { x with text := t } else x
      refine List.mem_map.mpr ⟨c, hc, ?_⟩
      show (if c.id = i then { c with text := t } else c) = c
      rw [if_neg fun hEq => hne hEq.symm]

/-- C6 counterexample: a comment whose date pattern sits mid-body — it is
not a leading date-stamped heading (the anchored match fails on the
trimmed text) — still enters the lookup and is updated, because the code
scans with a search, not an anchored match. -/
theorem c6_comment_lookup_cex :
    dateHeading (pyStrip "see ### 2024-01-05 for details") = none
    ∧ extractDate ⟨1, "see ### 2024-01-05 for details"⟩ = some "2024-01-05"
    ∧ sync_daily_log_ops 10 c6card [("2024-01-05", "### 2024-01-05\nX")]
        = [Op.updateComment 1 "### 2024-01-05\nX"] := by decide

/-- C6 (amended): the lookup criterion is a date pattern found anywhere in
the trimmed body (a search, not a leading-heading match). A comment in
which the search finds no date is excluded from the lookup and survives
every run untouched, no update ever targets its id, and no parsed date
resolves to it; conversely every comment in which the search does find a
date makes that date resolve in the lookup. -/
theorem c6_no_embedded_date_untouched (card : CardData) (logs : List (String × String))
    (k : Nat) (c : RemoteComment)
    (hc : c ∈ card.actions) (hids : (card.actions.map RemoteComment.id).Nodup)
    (hnod : extractDate c = none) :
    (∀ s, Op.updateComment c.id s ∉ sync_daily_log_ops k card logs)
    ∧ c ∈ (applyOps card (sync_daily_log_ops k card logs)).actions
    ∧ (∀ d q, findPosted card.actions d = some q → q.1 ≠ c.id)
    ∧ (∀ c2 ∈ card.actions, ∀ d2, extractDate c2 = some d2 →
        findPosted card.actions d2 ≠ none) := by
  have hupd : ∀ s, Op.updateComment c.id s ∉ sync_daily_log_ops k card logs := by
    intro s hs
    obtain ⟨p, _, c0, hlm, hcid, _, _⟩ :=
      dailyOpsAux_update_elim card.actions (sortLogs logs) k hs
    have hm := lastMatch_some_mem hlm
    have hceq : c0 = c := nodup_id_inj hids hm.1 hc hcid
    rw [hceq] at hm
    rw [hm.2] at hnod
    exact Option.noConfusion hnod
  refine ⟨hupd, ?_, ?_, ?_⟩
  · rw [applyOps_actions]
    exact mem_foldl_commentApply _ _ c (fun i s hi hic => hupd s (hic ▸ hi)) hc
  · intro d q hq hqc
    obtain ⟨c0, hlm, h1, _⟩ := findPosted_some_elim hq
    have hm := lastMatch_some_mem hlm
    have hceq : c0 = c := nodup_id_inj hids hm.1 hc (by rw [← h1, hqc])
    rw [hceq] at hm
    rw [hm.2] at hnod
    exact Option.noConfusion hnod
  · intro c2 hc2 d2 he2 hnone
    exact lastMatch_none_forall (findPosted_none_elim hnone) c2 hc2 he2

/-- C6 witness: a card whose single comment has no date anywhere; with a
one-date log list, the comment is never updated and survives the run. -/
theorem c6_no_embedded_date_untouched_witness :
    (∀ s, Op.updateComment (5 : Nat) s
        ∉ sync_daily_log_ops 10 c6wcard [("2024-01-05", "### 2024-01-05\nX")])
    ∧ (⟨5, "just a note"⟩ : RemoteComment)
        ∈ (applyOps c6wcard
            (sync_daily_log_ops 10 c6wcard [("2024-01-05", "### 2024-01-05\nX")])).actions
    ∧ (∀ d q, findPosted c6wcard.actions d = some q → q.1 ≠ (5 : Nat))
    ∧ (∀ c2 ∈ c6wcard.actions, ∀ d2, extractDate c2 = some d2 →
        findPosted c6wcard.actions d2 ≠ none) :=
  c6_no_embedded_date_untouched c6wcard [("2024-01-05", "### 2024-01-05\nX")] 10
    ⟨5, "just a note"⟩ (by decide) (by decide) (by decide)


/-! ### C7: creates are issued in ascending date order -/

theorem createdDates_append (a b : List Op) :
    createdDates (a ++ b) = createdDates a ++ createdDates b := by
  simp only [createdDates, List.filterMap_append]

theorem createdDates_cons (op : Op) (ops : List Op) :
    createdDates (op :: ops) = createdDates [op] ++ createdDates ops :=
  createdDates_append [op] ops

/-- The dates of the comments a run creates form a sublist of the parsed
keys in processing order (update/skip cases contribute nothing; each
create contributes its pair’s date, recovered from the stored text by the
shape invariant). -/
theorem createdDates_sublist (as : List RemoteComment) :
    ∀ (P : List (String × String)) (k : Nat),
      (∀ p ∈ P, searchDate (pyStrip p.2) = some p.1) →
      List.Sublist (createdDates (dailyOpsAux as k P)) (P.map Prod.fst)
  | [], _, _ => List.nil_sublist _
  | p :: P, k, h => by
    have hx := h p (List.mem_cons_self _ _)
    rw [List.map_cons]
    cases hfp : findPosted as p.1 with
    | some it =>
      simp only [dailyOpsAux, hfp]
      rw [createdDates_append]
      have hhead : createdDates
          (if pyStrip p.2 = it.2 then [] else [Op.updateComment it.1 (pyStrip p.2)]) = [] := by
        by_cases hcmp : pyStrip p.2 = it.2
        · rw [if_pos hcmp]
          rfl
        · rw [if_neg hcmp]
          rfl
      rw [hhead, List.nil_append]
      exact List.Sublist.cons _
        (createdDates_sublist as P k fun q hq => h q (List.mem_cons_of_mem p hq))
    | none =>
      simp only [dailyOpsAux, hfp]
      rw [createdDates_cons]
      have h1 : createdDates [Op.createComment k (pyStrip p.2)] = [p.1] := by
        simp only [createdDates, List.filterMap_cons, List.filterMap_nil, hx]
      rw [h1, List.singleton_append]
      exact List.Sublist.cons₂ _
        (createdDates_sublist as P (k + 1) fun q hq => h q (List.mem_cons_of_mem p hq))

/-- C7: over any parsed document, `sync_daily_log` walks the parsed dates
in ascending (sorted) order, so the create operations it issues carry
strictly ascending dates. -/
theorem c7_creates_in_ascending_date_order (content : String) (card : CardData) (k : Nat) :
    (createdDates (sync_daily_log_ops k card (parse_markdown content).daily_logs)).Pairwise
      (fun a b => a < b) := by
  have hnd := parse_markdown_daily_nodup content
  have hx := logShape_extract (parse_markdown_daily_shape content)
  have hP : List.Perm (sortLogs (parse_markdown content).daily_logs)
      (parse_markdown content).daily_logs := sortLogs_perm _
  have hndP : ((sortLogs (parse_markdown content).daily_logs).map Prod.fst).Nodup :=
    (hP.map Prod.fst).nodup_iff.mpr hnd
  have hxP : ∀ p ∈ sortLogs (parse_markdown content).daily_logs,
      searchDate (pyStrip p.2) = some p.1 := fun p hp => hx p (hP.mem_iff.mp hp)
  have hsorted : (sortLogs (parse_markdown content).daily_logs).Pairwise pairLe :=
    List.sorted_insertionSort pairLe _
  have hne : (sortLogs (parse_markdown content).daily_logs).Pairwise
      (fun a b => a.1 ≠ b.1) := List.pairwise_map.mp hndP
  have hlt : (sortLogs (parse_markdown content).daily_logs).Pairwise
      (fun a b => a.1 < b.1) :=
    List.Pairwise.imp₂ (fun a b hab hneq =>
      (show a.1 < b.1 ∨ (a.1 = b.1 ∧ a.2 ≤ b.2) from hab).resolve_right
        fun h2 => hneq h2.1) hsorted hne
  have hmap : ((sortLogs (parse_markdown content).daily_logs).map Prod.fst).Pairwise
      (fun a b => a < b) := List.pairwise_map.mpr hlt
  exact List.Pairwise.sublist
    (createdDates_sublist card.actions (sortLogs (parse_markdown content).daily_logs) k hxP)
    hmap

/-! ### C1/C8: decomposing the applied state checklist by checklist -/

/-- A batch of writes acts on the checklist list as: every original
checklist evolves in place (id and name fixed, items by `clApply`), and
the created checklists are appended in creation order, each evolved by the
writes after its creation. -/
theorem applyOps_checklists : ∀ (ops : List Op) (card : CardData),
    (applyOps card ops).checklists = card.checklists.map (evolveCl ops) ++ createdCls ops
  | [], card => by
    show card.checklists = card.checklists.map (evolveCl []) ++ createdCls []
    rw [show createdCls [] = [] from rfl, List.append_nil,
      show card.checklists.map (evolveCl []) = card.checklists.map id from
        List.map_congr_left fun cl _ => rfl,
      List.map_id]
  | op :: ops, card => by
    show (applyOps (applyOp card op) ops).checklists = _
    rw [applyOps_checklists ops (applyOp card op)]
    cases op with
    | createChecklist i n =>
      show (card.checklists ++ [(⟨i, n, []⟩ : RemoteChecklist)]).map (evolveCl ops) ++ createdCls ops
        = card.checklists.map (evolveCl (Op.createChecklist i n :: ops))
          ++ createdCls (Op.createChecklist i n :: ops)
      rw [List.map_append, List.append_assoc,
        show createdCls (Op.createChecklist i n :: ops)
          = ⟨i, n, ops.foldl (clApply i) []⟩ :: createdCls ops from rfl,
        show card.checklists.map (evolveCl ops)
          = card.checklists.map (evolveCl (Op.createChecklist i n :: ops)) from
          List.map_congr_left fun cl _ => rfl]
      rfl
    | createItem cid iid nm ck =>
      show (card.checklists.map fun cl =>
          if cl.id = cid then
            { cl with checkItems := cl.checkItems ++ [⟨iid, nm, stateStr ck⟩] }
          else cl).map (evolveCl ops) ++ createdCls ops
        = card.checklists.map (evolveCl (Op.createItem cid iid nm ck :: ops))
          ++ createdCls (Op.createItem cid iid nm ck :: ops)
      rw [List.map_map,
        show createdCls (Op.createItem cid iid nm ck :: ops) = createdCls ops from rfl]
      have hmap : card.checklists.map ((evolveCl ops) ∘ fun cl =>
          if cl.id = cid then
            { cl with checkItems := cl.checkItems ++ [⟨iid, nm, stateStr ck⟩] }
          else cl)
          = card.checklists.map (evolveCl (Op.createItem cid iid nm ck :: ops)) := by
        apply List.map_congr_left
        intro cl _
        show evolveCl ops (if cl.id = cid then
            { cl with checkItems := cl.checkItems ++ [⟨iid, nm, stateStr ck⟩] }
          else cl) = evolveCl (Op.createItem cid iid nm ck :: ops) cl
        by_cases h : cl.id = cid
        · rw [if_pos h]
          show (⟨cl.id, cl.name,
              ops.foldl (clApply cl.id) (cl.checkItems ++ [⟨iid, nm, stateStr ck⟩])⟩
              : RemoteChecklist)
            = ⟨cl.id, cl.name, ops.foldl (clApply cl.id)
                (clApply cl.id cl.checkItems (Op.createItem cid iid nm ck))⟩
          rw [show clApply cl.id cl.checkItems (Op.createItem cid iid nm ck)
              = cl.checkItems ++ [⟨iid, nm, stateStr ck⟩] from by
            show (if cl.id = cid then cl.checkItems ++ [⟨iid, nm, stateStr ck⟩]
              else cl.checkItems) = _
            rw [if_pos h]]
        · rw [if_neg h]
          show (⟨cl.id, cl.name, ops.foldl (clApply cl.id) cl.checkItems⟩ : RemoteChecklist)
            = ⟨cl.id, cl.name, ops.foldl (clApply cl.id)
                (clApply cl.id cl.checkItems (Op.createItem cid iid nm ck))⟩
          rw [show clApply cl.id cl.checkItems (Op.createItem cid iid nm ck)
              = cl.checkItems from by
            show (if cl.id = cid then cl.checkItems ++ [⟨iid, nm, stateStr ck⟩]
              else cl.checkItems) = _
            rw [if_neg h]]
      rw [hmap]
    | updateItemState iid st =>
      show (card.checklists.map fun cl =>
          { cl with checkItems := cl.checkItems.map fun it =>
              if it.id = iid then { it with state := st } else it }).map (evolveCl ops)
          ++ createdCls ops
        = card.checklists.map (evolveCl (Op.updateItemState iid st :: ops))
          ++ createdCls (Op.updateItemState iid st :: ops)
      rw [List.map_map,
        show createdCls (Op.updateItemState iid st :: ops) = createdCls ops from rfl,
        show card.checklists.map ((evolveCl ops) ∘ fun cl =>
            { cl with checkItems := cl.checkItems.map fun it =>
                if it.id = iid then { it with state := st } else it })
          = card.checklists.map (evolveCl (Op.updateItemState iid st :: ops)) from
          List.map_congr_left fun cl _ => rfl]
    | deleteItem cid iid =>
      show (card.checklists.map fun cl =>
          if cl.id = cid then { cl with checkItems := cl.checkItems.filter fun it => it.id ≠ iid }
          else cl).map (evolveCl ops) ++ createdCls ops
        = card.checklists.map (evolveCl (Op.deleteItem cid iid :: ops))
          ++ createdCls (Op.deleteItem cid iid :: ops)
      rw [List.map_map,
        show createdCls (Op.deleteItem cid iid :: ops) = createdCls ops from rfl]
      have hmap : card.checklists.map ((evolveCl ops) ∘ fun cl =>
          if cl.id = cid then { cl with checkItems := cl.checkItems.filter fun it => it.id ≠ iid }
          else cl)
          = card.checklists.map (evolveCl (Op.deleteItem cid iid :: ops)) := by
        apply List.map_congr_left
        intro cl _
        show evolveCl ops (if cl.id = cid then
            { cl with checkItems := cl.checkItems.filter fun it => it.id ≠ iid }
          else cl) = evolveCl (Op.deleteItem cid iid :: ops) cl
        by_cases h : cl.id = cid
        · rw [if_pos h]
          show (⟨cl.id, cl.name,
              ops.foldl (clApply cl.id) (cl.checkItems.filter fun it => it.id ≠ iid)⟩
              : RemoteChecklist)
            = ⟨cl.id, cl.name, ops.foldl (clApply cl.id)
                (clApply cl.id cl.checkItems (Op.deleteItem cid iid))⟩
          rw [show clApply cl.id cl.checkItems (Op.deleteItem cid iid)
              = cl.checkItems.filter (fun it => it.id ≠ iid) from by
            show (if cl.id = cid then cl.checkItems.filter fun it => it.id ≠ iid
              else cl.checkItems) = _
            rw [if_pos h]]
        · rw [if_neg h]
          show (⟨cl.id, cl.name, ops.foldl (clApply cl.id) cl.checkItems⟩ : RemoteChecklist)
            = ⟨cl.id, cl.name, ops.foldl (clApply cl.id)
                (clApply cl.id cl.checkItems (Op.deleteItem cid iid))⟩
          rw [show clApply cl.id cl.checkItems (Op.deleteItem cid iid)
              = cl.checkItems from by
            show (if cl.id = cid then cl.checkItems.filter fun it => it.id ≠ iid
              else cl.checkItems) = _
            rw [if_neg h]]
      rw [hmap]
    | createComment i t =>
      show card.checklists.map (evolveCl ops) ++ createdCls ops
        = card.checklists.map (evolveCl (Op.createComment i t :: ops))
          ++ createdCls (Op.createComment i t :: ops)
      rw [show createdCls (Op.createComment i t :: ops) = createdCls ops from rfl,
        show card.checklists.map (evolveCl ops)
          = card.checklists.map (evolveCl (Op.createComment i t :: ops)) from
          List.map_congr_left fun cl _ => rfl]
    | updateComment i t =>
      show card.checklists.map (evolveCl ops) ++ createdCls ops
        = card.checklists.map (evolveCl (Op.updateComment i t :: ops))
          ++ createdCls (Op.updateComment i t :: ops)
      rw [show createdCls (Op.updateComment i t :: ops) = createdCls ops from rfl,
        show card.checklists.map (evolveCl ops)
          = card.checklists.map (evolveCl (Op.updateComment i t :: ops)) from
          List.map_congr_left fun cl _ => rfl]

theorem createdCls_append : ∀ (a b : List Op),
    createdCls (a ++ b) = (createdCls a).map (evolveCl b) ++ createdCls b
  | [], b => rfl
  | op :: a, b => by
    cases op with
    | createChecklist i n =>
      show (⟨i, n, (a ++ b).foldl (clApply i) []⟩ : RemoteChecklist) :: createdCls (a ++ b)
        = evolveCl b ⟨i, n, a.foldl (clApply i) []⟩ :: ((createdCls a).map (evolveCl b)
            ++ createdCls b)
      rw [createdCls_append a b, List.foldl_append]
      rfl
    | createItem cid iid nm ck => exact createdCls_append a b
    | updateItemState iid st => exact createdCls_append a b
    | deleteItem cid iid => exact createdCls_append a b
    | createComment i t => exact createdCls_append a b
    | updateComment i t => exact createdCls_append a b

theorem createdCls_names : ∀ ops : List Op,
    (createdCls ops).map RemoteChecklist.name = ops.filterMap createName
  | [] => rfl
  | op :: ops => by
    cases op with
    | createChecklist i n =>
      show n :: (createdCls ops).map RemoteChecklist.name
        = (Op.createChecklist i n :: ops).filterMap createName
      rw [createdCls_names ops]
      rfl
    | createItem cid iid nm ck => exact createdCls_names ops
    | updateItemState iid st => exact createdCls_names ops
    | deleteItem cid iid => exact createdCls_names ops
    | createComment i t => exact createdCls_names ops
    | updateComment i t => exact createdCls_names ops


/-! ### lookupLast and Nodup toolbox -/

theorem foldl_lookupLast_acc {β : Type} (m : String) :
    ∀ (l : List (String × β)) (acc : Option β),
      l.foldl (fun a p => if p.1 = m then some p.2 else a) acc
        = match lookupLast l m with
          | some v => some v
          | none => acc
  | [], _ => rfl
  | x :: l, acc => by
    have hL : (x :: l).foldl (fun a p => if p.1 = m then some p.2 else a) acc
        = l.foldl (fun a p => if p.1 = m then some p.2 else a)
            (if x.1 = m then some x.2 else acc) := rfl
    have hM : lookupLast (x :: l) m
        = l.foldl (fun a p => if p.1 = m then some p.2 else a)
            (if x.1 = m then some x.2 else none) := rfl
    rw [hL, foldl_lookupLast_acc m l, hM, foldl_lookupLast_acc m l]
    by_cases hx : x.1 = m
    · rw [if_pos hx, if_pos hx]
      cases lookupLast l m <;> rfl
    · rw [if_neg hx, if_neg hx]
      cases lookupLast l m <;> rfl

theorem lookupLast_append2 {β : Type} (m : String) (l1 l2 : List (String × β)) :
    lookupLast (l1 ++ l2) m = match lookupLast l2 m with
      | some v => some v
      | none => lookupLast l1 m := by
  unfold lookupLast
  rw [List.foldl_append]
  exact foldl_lookupLast_acc m l2 _

theorem lookupLast_none_of_forall2 {β : Type} {m : String} :
    ∀ {l : List (String × β)}, (∀ q ∈ l, q.1 ≠ m) → lookupLast l m = none
  | [], _ => rfl
  | x :: l, h => by
    have hx : x.1 ≠ m := h x (List.mem_cons_self _ _)
    show l.foldl (fun a p => if p.1 = m then some p.2 else a)
      (if x.1 = m then some x.2 else none) = none
    rw [if_neg hx]
    exact lookupLast_none_of_forall2 fun q hq => h q (List.mem_cons_of_mem x hq)

theorem lookupLast_some_aux {β : Type} (m : String) :
    ∀ (l : List (String × β)) (acc : Option β) {v : β},
      l.foldl (fun a p => if p.1 = m then some p.2 else a) acc = some v →
      (m, v) ∈ l ∨ acc = some v
  | [], _, _, h => Or.inr h
  | x :: l, acc, v, h => by
    have hstep : (x :: l).foldl (fun a p => if p.1 = m then some p.2 else a) acc
        = l.foldl (fun a p => if p.1 = m then some p.2 else a)
            (if x.1 = m then some x.2 else acc) := rfl
    rw [hstep] at h
    rcases lookupLast_some_aux m l _ h with h2 | h2
    · exact Or.inl (List.mem_cons_of_mem x h2)
    · by_cases hx : x.1 = m
      · rw [if_pos hx] at h2
        refine Or.inl (List.mem_cons.mpr (Or.inl ?_))
        have hv : x.2 = v := Option.some.inj h2
        rw [← hx, ← hv]
      · rw [if_neg hx] at h2
        exact Or.inr h2

theorem lookupLast_some_mem2 {β : Type} {l : List (String × β)} {m : String} {v : β}
    (h : lookupLast l m = some v) : (m, v) ∈ l := by
  rcases lookupLast_some_aux m l none h with h2 | h2
  · exact h2
  · exact absurd h2 (by simp)

theorem lookupLast_mem_nodup {β : Type} :
    ∀ {l : List (String × β)}, (l.map Prod.fst).Nodup →
      ∀ {m : String} {v : β}, (m, v) ∈ l → lookupLast l m = some v
  | [], _, _, _, h => absurd h (List.not_mem_nil _)
  | x :: l, hnd, m, v, h => by
    rw [List.map_cons, List.nodup_cons] at hnd
    show l.foldl (fun a p => if p.1 = m then some p.2 else a)
      (if x.1 = m then some x.2 else none) = some v
    rcases List.mem_cons.mp h with rfl | h2
    · rw [if_pos rfl, foldl_lookupLast_acc m l,
        lookupLast_none_of_forall2 fun q hq hqm =>
          hnd.1 (by
            rw [show ((m, v) : String × β).1 = m from rfl, ← hqm]
            exact List.mem_map_of_mem Prod.fst hq)]
    · rw [foldl_lookupLast_acc m l, lookupLast_mem_nodup hnd.2 h2]

theorem nodup_map_inj {α β : Type} (f : α → β) :
    ∀ {l : List α}, (l.map f).Nodup → ∀ {a b : α}, a ∈ l → b ∈ l → f a = f b → a = b
  | [], _, _, _, ha, _, _ => absurd ha (List.not_mem_nil _)
  | x :: l, h, a, b, ha, hb, he => by
    rw [List.map_cons, List.nodup_cons] at h
    rcases List.mem_cons.mp ha with rfl | ha2
    · rcases List.mem_cons.mp hb with rfl | hb2
      · rfl
      · exact absurd (by rw [he]; exact List.mem_map_of_mem f hb2) h.1
    · rcases List.mem_cons.mp hb with rfl | hb2
      · exact absurd (by rw [← he]; exact List.mem_map_of_mem f ha2) h.1
      · exact nodup_map_inj f h.2 ha2 hb2 he

theorem flatten_nodup_parts {α β : Type} (f : α → List β) :
    ∀ {L : List α}, ((L.map f).flatten).Nodup → ∀ a ∈ L, (f a).Nodup
  | [], _, a, ha => absurd ha (List.not_mem_nil _)
  | x :: L, h, a, ha => by
    rw [List.map_cons, List.flatten_cons, List.nodup_append] at h
    rcases List.mem_cons.mp ha with rfl | ha2
    · exact h.1
    · exact flatten_nodup_parts f h.2.1 a ha2

theorem flatten_nodup_disjoint {α β : Type} (f : α → List β) :
    ∀ {L : List α}, ((L.map f).flatten).Nodup →
      ∀ {a b : α}, a ∈ L → b ∈ L → a ≠ b → ∀ {x : β}, x ∈ f a → x ∈ f b → False
  | [], _, _, _, ha, _, _, _, _, _ => absurd ha (List.not_mem_nil _)
  | x0 :: L, h, a, b, ha, hb, hne, x, hxa, hxb => by
    rw [List.map_cons, List.flatten_cons, List.nodup_append] at h
    rcases List.mem_cons.mp ha with rfl | ha2
    · rcases List.mem_cons.mp hb with rfl | hb2
      · exact hne rfl
      · exact h.2.2 hxa (List.mem_flatten.mpr ⟨f b, List.mem_map_of_mem f hb2, hxb⟩)
    · rcases List.mem_cons.mp hb with rfl | hb2
      · exact h.2.2 hxb (List.mem_flatten.mpr ⟨f a, List.mem_map_of_mem f ha2, hxa⟩)
      · exact flatten_nodup_disjoint f h.2.1 ha2 hb2 hne hxa hxb

/-- A batch of writes none of which addresses checklist id `c` (by
creation target, deletion target, or an update to one of its current item
ids) leaves an item list unchanged. -/
theorem clApply_foldl_id :
    ∀ (ops : List Op) (c : Nat) (items : List RemoteItem),
      (∀ cid iid n ck, Op.createItem cid iid n ck ∈ ops → c ≠ cid) →
      (∀ cid iid, Op.deleteItem cid iid ∈ ops → c ≠ cid) →
      (∀ iid st, Op.updateItemState iid st ∈ ops → iid ∉ items.map RemoteItem.id) →
      ops.foldl (clApply c) items = items
  | [], _, _, _, _, _ => rfl
  | op :: ops, c, items, h1, h2, h3 => by
    rw [List.foldl_cons]
    have hstep : clApply c items op = items := by
      cases op with
      | createItem cid iid n ck =>
        show (if c = cid then items ++ [⟨iid, n, stateStr ck⟩] else items) = items
        rw [if_neg (h1 cid iid n ck (List.mem_cons_self _ _))]
      | deleteItem cid iid =>
        show (if c = cid then items.filter fun it => it.id ≠ iid else items) = items
        rw [if_neg (h2 cid iid (List.mem_cons_self _ _))]
      | updateItemState iid st =>
        show (items.map fun it => if it.id = iid then { it with state := st } else it) = items
        have hni : iid ∉ items.map RemoteItem.id := h3 iid st (List.mem_cons_self _ _)
        calc items.map (fun it => if it.id = iid then { it with state := st } else it)
            = items.map id := List.map_congr_left fun it hit => by
              show (if it.id = iid then { it with state := st } else it) = it
              rw [if_neg fun he : it.id = iid => hni (by
                rw [← he]
                exact List.mem_map_of_mem RemoteItem.id hit)]
          _ = items := List.map_id items
      | createChecklist i n => rfl
      | createComment i t => rfl
      | updateComment i t => rfl
    rw [hstep]
    exact clApply_foldl_id ops c items
      (fun cid iid n ck hm => h1 cid iid n ck (List.mem_cons_of_mem op hm))
      (fun cid iid hm => h2 cid iid (List.mem_cons_of_mem op hm))
      (fun iid st hm => h3 iid st (List.mem_cons_of_mem op hm))

/-- A batch with no comment writes leaves the comment list unchanged. -/
theorem foldl_commentApply_id :
    ∀ (ops : List Op) (A : List RemoteComment),
      (∀ i t, Op.createComment i t ∉ ops) → (∀ i t, Op.updateComment i t ∉ ops) →
      ops.foldl commentApply A = A
  | [], _, _, _ => rfl
  | op :: ops, A, h1, h2 => by
    rw [List.foldl_cons]
    have hstep : commentApply A op = A := by
      cases op with
      | createComment i t => exact absurd (List.mem_cons_self _ _) (h1 i t)
      | updateComment i t => exact absurd (List.mem_cons_self _ _) (h2 i t)
      | createChecklist i n => rfl
      | createItem a b n ck => rfl
      | updateItemState a st => rfl
      | deleteItem a b => rfl
    rw [hstep]
    exact foldl_commentApply_id ops A
      (fun i t hm => h1 i t (List.mem_cons_of_mem op hm))
      (fun i t hm => h2 i t (List.mem_cons_of_mem op hm))


/-! ### Item-dict facts -/

theorem dictOfItems_mem_aux (S : List RemoteItem) :
    ∀ (its : List RemoteItem) (acc : List (String × RemoteItem)),
      (∀ it ∈ its, it ∈ S) →
      (∀ q ∈ acc, q.1 = q.2.name ∧ q.2 ∈ S) →
      ∀ q ∈ its.foldl (fun a it => dictSet a it.name it) acc, q.1 = q.2.name ∧ q.2 ∈ S
  | [], _, _, hacc, q, hq => hacc q hq
  | it :: its, acc, hS, hacc, q, hq => by
    refine dictOfItems_mem_aux S its (dictSet acc it.name it)
      (fun x hx => hS x (List.mem_cons_of_mem it hx)) ?_ q hq
    intro p hp
    rcases dictSet_mem p hp with h | h
    · exact hacc p h
    · rw [h]
      exact ⟨rfl, hS it (List.mem_cons_self _ _)⟩

/-- Every entry of the item dict is keyed by its item's name and holds an
item of the underlying list. -/
theorem dictOfItems_mem (its : List RemoteItem) :
    ∀ q ∈ dictOfItems its, q.1 = q.2.name ∧ q.2 ∈ its :=
  dictOfItems_mem_aux its its [] (fun _ h => h) (fun q hq => absurd hq (List.not_mem_nil _))

theorem find?_key_eq {β : Type} {n : String} :
    ∀ {l : List (String × β)} {q : String × β}, (l.find? fun p => p.1 = n) = some q → q.1 = n
  | [], _, h => Option.noConfusion h
  | x :: l, q, h => by
    by_cases hx : x.1 = n
    · have hd : decide ((x : String × β).1 = n) = true := decide_eq_true hx
      simp only [List.find?_cons, hd] at h
      rw [← Option.some.inj h]
      exact hx
    · have hd : decide ((x : String × β).1 = n) = false := decide_eq_false hx
      simp only [List.find?_cons, hd] at h
      exact find?_key_eq h

theorem lookupFirst_dict_mem {its : List RemoteItem} {n : String} {it : RemoteItem}
    (h : lookupFirst (dictOfItems its) n = some it) : it ∈ its ∧ it.name = n := by
  unfold lookupFirst at h
  cases hf : (dictOfItems its).find? fun p => p.1 = n with
  | none =>
    rw [hf] at h
    exact Option.noConfusion h
  | some q =>
    rw [hf] at h
    have hq : it = q.2 := (Option.some.inj h).symm
    have hqm := List.mem_of_find?_eq_some hf
    have hqn : q.1 = n := find?_key_eq hf
    obtain ⟨h1, h2⟩ := dictOfItems_mem its q hqm
    refine ⟨by rw [hq]; exact h2, ?_⟩
    rw [hq, ← h1, hqn]

theorem lookupFirst_dict_none {its : List RemoteItem} {n : String}
    (h : n ∉ its.map RemoteItem.name) : lookupFirst (dictOfItems its) n = none := by
  have hf : (dictOfItems its).find? (fun p => p.1 = n) = none := by
    rw [List.find?_eq_none]
    intro q hq
    obtain ⟨h1, h2⟩ := dictOfItems_mem its q hq
    simp only [decide_eq_true_eq]
    intro hqn
    exact h (by rw [← hqn, h1]; exact List.mem_map_of_mem RemoteItem.name h2)
  unfold lookupFirst
  rw [hf]
  rfl

theorem dictSet_append_of_absent {β : Type} {l : List (String × β)} {k : String} {v : β}
    (h : ∀ q ∈ l, q.1 ≠ k) : dictSet l k v = l ++ [(k, v)] := by
  have hA : (l.any fun p => p.1 = k) = false := by
    rw [List.any_eq_false]
    intro q hq
    exact fun hdec => h q hq (of_decide_eq_true hdec)
  unfold dictSet
  rw [hA]
  rfl

theorem dictOfItems_nodup_aux :
    ∀ (its : List RemoteItem) (acc : List (String × RemoteItem)),
      (∀ q ∈ acc, ∀ x ∈ its, q.1 ≠ x.name) →
      (its.map RemoteItem.name).Nodup →
      its.foldl (fun a it => dictSet a it.name it) acc
        = acc ++ its.map fun it => (it.name, it)
  | [], acc, _, _ => (List.append_nil acc).symm
  | it :: its, acc, hdisj, hnd => by
    rw [List.map_cons, List.nodup_cons] at hnd
    have hd2 : ∀ q ∈ acc ++ [(it.name, it)], ∀ x ∈ its, q.1 ≠ x.name := by
      intro q hq x hx
      rcases List.mem_append.mp hq with h | h
      · exact hdisj q h x (List.mem_cons_of_mem it hx)
      · rw [List.mem_singleton.mp h]
        exact fun he => hnd.1 (by
          rw [show it.name = x.name from he]
          exact List.mem_map_of_mem RemoteItem.name hx)
    show its.foldl (fun a x => dictSet a x.name x) (dictSet acc it.name it)
      = acc ++ (it :: its).map fun x => (x.name, x)
    rw [dictSet_append_of_absent fun q hq => hdisj q hq it (List.mem_cons_self _ _),
      dictOfItems_nodup_aux its (acc ++ [(it.name, it)]) hd2 hnd.2,
      List.map_cons, List.append_assoc]
    rfl

/-- With duplicate-free item names the item dict is just the items paired
with their names, in list order. -/
theorem dictOfItems_nodup_names {its : List RemoteItem}
    (h : (its.map RemoteItem.name).Nodup) :
    dictOfItems its = its.map fun it => (it.name, it) :=
  dictOfItems_nodup_aux its [] (fun q hq => absurd hq (List.not_mem_nil _)) h

theorem lookupFirst_map_pair_self :
    ∀ {its : List RemoteItem}, (its.map RemoteItem.name).Nodup →
      ∀ {it : RemoteItem}, it ∈ its →
        lookupFirst (its.map fun x => (x.name, x)) it.name = some it
  | [], _, _, h => absurd h (List.not_mem_nil _)
  | x :: its, hnd, it, h => by
    rw [List.map_cons, List.nodup_cons] at hnd
    rcases List.mem_cons.mp h with rfl | h2
    · have hd : decide (((it.name, it) : String × RemoteItem).1 = it.name) = true :=
        decide_eq_true rfl
      show (((it.name, it) :: its.map fun y => (y.name, y)).find?
          (fun p => p.1 = it.name)).map Prod.snd = some it
      simp only [List.find?_cons, hd]
      rfl
    · have hd : decide (((x.name, x) : String × RemoteItem).1 = it.name) = false :=
        decide_eq_false fun he => hnd.1 (by
          rw [show x.name = it.name from he]
          exact List.mem_map_of_mem RemoteItem.name h2)
      show (((x.name, x) :: its.map fun y => (y.name, y)).find?
          (fun p => p.1 = it.name)).map Prod.snd = some it
      simp only [List.find?_cons, hd]
      exact lookupFirst_map_pair_self hnd.2 h2

theorem lookupFirst_dict_self {its : List RemoteItem}
    (h : (its.map RemoteItem.name).Nodup) {it : RemoteItem} (hit : it ∈ its) :
    lookupFirst (dictOfItems its) it.name = some it := by
  rw [dictOfItems_nodup_names h]
  exact lookupFirst_map_pair_self h hit


/-! ### The create/update loop toolbox -/

theorem taskTargets_of_none {d : List (String × RemoteItem)} {t : Task}
    (h : lookupFirst d t.name = none) (it : RemoteItem) : taskTargets d it t = false := by
  unfold taskTargets
  rw [h]

theorem taskTargets_self {d : List (String × RemoteItem)} {t : Task} {it0 : RemoteItem}
    (h : lookupFirst d t.name = some it0) : taskTargets d it0 t = true := by
  unfold taskTargets
  rw [h]
  exact beq_self_eq_true _

theorem find?_taskTargets_none {origIts : List RemoteItem} {ts : List Task} {t : Task}
    {it0 : RemoteItem}
    (hids : (origIts.map RemoteItem.id).Nodup)
    (hit0 : lookupFirst (dictOfItems origIts) t.name = some it0)
    (hnp : t.name ∉ ts.map Task.name) :
    ts.find? (taskTargets (dictOfItems origIts) it0) = none := by
  rw [List.find?_eq_none]
  intro q hq
  cases hl : lookupFirst (dictOfItems origIts) q.name with
  | none => simp [taskTargets, hl]
  | some itq =>
    simp only [taskTargets, hl, beq_iff_eq]
    intro hid
    have hm1 := lookupFirst_dict_mem hl
    have hm0 := lookupFirst_dict_mem hit0
    have heq : itq = it0 := nodup_map_inj RemoteItem.id hids hm1.1 hm0.1 hid
    have hqn : q.name = t.name := by rw [← hm1.2, heq, hm0.2]
    exact hnp (by rw [← hqn]; exact List.mem_map_of_mem Task.name hq)

theorem itemUpd2_cons_target {d : List (String × RemoteItem)} {ts : List Task} {t : Task}
    {it0 : RemoteItem} (u : RemoteItem → RemoteItem)
    (h : lookupFirst d t.name = some it0) :
    itemUpd2 d (t :: ts) u it0 = { it0 with state := stateStr t.checked } := by
  unfold itemUpd2
  rw [List.find?_cons_of_pos _ (taskTargets_self h)]

theorem itemUpd2_cons_of_ne {d : List (String × RemoteItem)} {ts : List Task} {t : Task}
    {it : RemoteItem} (u : RemoteItem → RemoteItem)
    (h : taskTargets d it t = false) :
    itemUpd2 d (t :: ts) u it = itemUpd2 d ts u it := by
  unfold itemUpd2
  rw [List.find?_cons_of_neg _ (by simp [h])]

theorem cuOps_counter_le (cid : Nat) (d : List (String × RemoteItem)) :
    ∀ (ts : List Task) (k : Nat), k ≤ (cuOps cid d k ts).2
  | [], _ => Nat.le_refl _
  | t :: ts, k => by
    cases hl : lookupFirst d t.name with
    | none =>
      simp only [cuOps, hl]
      exact Nat.le_of_succ_le (cuOps_counter_le cid d ts (k + 1))
    | some it0 =>
      simp only [cuOps, hl]
      exact cuOps_counter_le cid d ts k

theorem cuOps_prov (cid : Nat) (d : List (String × RemoteItem)) :
    ∀ (ts : List Task) (k : Nat), ∀ op ∈ (cuOps cid d k ts).1,
      (∃ iid n ck, op = Op.createItem cid iid n ck ∧ k ≤ iid ∧ iid < (cuOps cid d k ts).2)
      ∨ (∃ n it0 st, lookupFirst d n = some it0 ∧ op = Op.updateItemState it0.id st)
  | [], _, op, h => absurd h (List.not_mem_nil _)
  | t :: ts, k, op, h => by
    cases hl : lookupFirst d t.name with
    | none =>
      simp only [cuOps, hl] at h ⊢
      rcases List.mem_cons.mp h with h1 | h1
      · refine Or.inl ⟨k, t.name, t.checked, h1, Nat.le_refl k, ?_⟩
        exact Nat.lt_of_lt_of_le (Nat.lt_succ_self k) (cuOps_counter_le cid d ts (k + 1))
      · rcases cuOps_prov cid d ts (k + 1) op h1 with ⟨iid, n, ck, he, hb1, hb2⟩ | hupd
        · exact Or.inl ⟨iid, n, ck, he, Nat.le_of_succ_le hb1, hb2⟩
        · exact Or.inr hupd
    | some it0 =>
      simp only [cuOps, hl] at h ⊢
      rcases List.mem_append.mp h with h1 | h1
      · by_cases hcmp : it0.state = stateStr t.checked
        · rw [if_pos hcmp] at h1
          exact absurd h1 (List.not_mem_nil _)
        · rw [if_neg hcmp] at h1
          rw [List.mem_singleton.mp h1]
          exact Or.inr ⟨t.name, it0, stateStr t.checked, hl, rfl⟩
      · exact cuOps_prov cid d ts k op h1

theorem cuCreated_mem (d : List (String × RemoteItem)) :
    ∀ (ts : List Task) (k : Nat), ∀ e ∈ cuCreated d k ts,
      (∃ t ∈ ts, lookupFirst d t.name = none ∧ e.name = t.name ∧ e.state = stateStr t.checked)
      ∧ k ≤ e.id
  | [], _, e, h => absurd h (List.not_mem_nil _)
  | t :: ts, k, e, h => by
    cases hl : lookupFirst d t.name with
    | none =>
      simp only [cuCreated, hl] at h
      rcases List.mem_cons.mp h with h1 | h1
      · rw [h1]
        exact ⟨⟨t, List.mem_cons_self _ _, hl, rfl, rfl⟩, Nat.le_refl k⟩
      · obtain ⟨⟨q, hq, hq2⟩, hb⟩ := cuCreated_mem d ts (k + 1) e h1
        exact ⟨⟨q, List.mem_cons_of_mem t hq, hq2⟩, Nat.le_of_succ_le hb⟩
    | some it0 =>
      simp only [cuCreated, hl] at h
      obtain ⟨⟨q, hq, hq2⟩, hb⟩ := cuCreated_mem d ts k e h
      exact ⟨⟨q, List.mem_cons_of_mem t hq, hq2⟩, hb⟩

theorem cuCreated_id_lt (cid : Nat) (d : List (String × RemoteItem)) :
    ∀ (ts : List Task) (k : Nat), ∀ e ∈ cuCreated d k ts, e.id < (cuOps cid d k ts).2
  | [], _, e, h => absurd h (List.not_mem_nil _)
  | t :: ts, k, e, h => by
    cases hl : lookupFirst d t.name with
    | none =>
      simp only [cuCreated, hl] at h
      simp only [cuOps, hl]
      rcases List.mem_cons.mp h with h1 | h1
      · rw [h1]
        exact Nat.lt_of_lt_of_le (Nat.lt_succ_self k) (cuOps_counter_le cid d ts (k + 1))
      · exact cuCreated_id_lt cid d ts (k + 1) e h1
    | some it0 =>
      simp only [cuCreated, hl] at h
      simp only [cuOps, hl]
      exact cuCreated_id_lt cid d ts k e h

theorem cuCreated_of_none (d : List (String × RemoteItem)) :
    ∀ (ts : List Task) (k : Nat) {t : Task}, t ∈ ts → lookupFirst d t.name = none →
      ∃ e ∈ cuCreated d k ts, e.name = t.name ∧ e.state = stateStr t.checked
  | [], _, _, h, _ => absurd h (List.not_mem_nil _)
  | q :: ts, k, t, h, hl => by
    rcases List.mem_cons.mp h with rfl | h2
    · simp only [cuCreated, hl]
      exact ⟨⟨k, t.name, stateStr t.checked⟩, List.mem_cons_self _ _, rfl, rfl⟩
    · cases hq : lookupFirst d q.name with
      | none =>
        simp only [cuCreated, hq]
        obtain ⟨e, he, hprop⟩ := cuCreated_of_none d ts (k + 1) h2 hl
        exact ⟨e, List.mem_cons_of_mem _ he, hprop⟩
      | some it0 =>
        simp only [cuCreated, hq]
        exact cuCreated_of_none d ts k h2 hl

theorem cuCreated_names (d : List (String × RemoteItem)) :
    ∀ (ts : List Task) (k : Nat),
      (cuCreated d k ts).map RemoteItem.name
        = (ts.filter fun t => (lookupFirst d t.name).isNone).map Task.name
  | [], _ => rfl
  | t :: ts, k => by
    cases hl : lookupFirst d t.name with
    | none =>
      simp only [cuCreated, hl]
      rw [List.map_cons, cuCreated_names d ts (k + 1),
        show (t :: ts).filter (fun t2 => (lookupFirst d t2.name).isNone)
          = t :: ts.filter (fun t2 => (lookupFirst d t2.name).isNone) from
          List.filter_cons_of_pos (by rw [hl]; rfl),
        List.map_cons]
    | some it0 =>
      simp only [cuCreated, hl]
      rw [cuCreated_names d ts k,
        show (t :: ts).filter (fun t2 => (lookupFirst d t2.name).isNone)
          = ts.filter (fun t2 => (lookupFirst d t2.name).isNone) from
          List.filter_cons_of_neg (by rw [hl]; simp)]

theorem cuCreated_nil_pairs :
    ∀ (ts : List Task) (k : Nat), (cuCreated [] k ts).map itemPair = ts.map taskPair
  | [], _ => rfl
  | t :: ts, k => by
    show itemPair ⟨k, t.name, stateStr t.checked⟩ :: (cuCreated [] (k + 1) ts).map itemPair
      = taskPair t :: ts.map taskPair
    rw [cuCreated_nil_pairs ts (k + 1)]
    rfl


/-- The central characterization of the create/update loop of one
milestone: applying its operations rewrites each existing item by
`itemUpd2` and appends exactly the `cuCreated` items.  `u` accumulates the
rewrites of already-processed tasks, `E` the items appended so far. -/
theorem cuOps_apply (cid : Nat) (origIts : List RemoteItem) :
    ∀ (ts : List Task) (k : Nat) (u : RemoteItem → RemoteItem) (E : List RemoteItem),
      (ts.map Task.name).Nodup →
      (origIts.map RemoteItem.id).Nodup →
      (∀ it ∈ origIts, it.id < k) →
      (∀ it, (u it).id = it.id) →
      (∀ t ∈ ts, ∀ it ∈ origIts,
        lookupFirst (dictOfItems origIts) t.name = some it → u it = it) →
      (∀ e ∈ E, ∀ it ∈ origIts, e.id ≠ it.id) →
      (cuOps cid (dictOfItems origIts) k ts).1.foldl (clApply cid) (origIts.map u ++ E)
        = origIts.map (itemUpd2 (dictOfItems origIts) ts u)
            ++ (E ++ cuCreated (dictOfItems origIts) k ts)
  | [], k, u, E, _, _, _, _, _, _ => by
    show origIts.map u ++ E
      = origIts.map (itemUpd2 (dictOfItems origIts) [] u)
          ++ (E ++ cuCreated (dictOfItems origIts) k [])
    rw [show cuCreated (dictOfItems origIts) k [] = [] from rfl, List.append_nil]
    congr 1
  | t :: ts, k, u, E, hnd, hids, hlt, huid, huf, he1 => by
    have hndp : t.name ∉ ts.map Task.name ∧ (ts.map Task.name).Nodup := by
      rw [List.map_cons, List.nodup_cons] at hnd
      exact hnd
    have hufr := fun q hq => huf q (List.mem_cons_of_mem t hq)
    cases hl : lookupFirst (dictOfItems origIts) t.name with
    | none =>
      simp only [cuOps, hl, List.foldl_cons]
      rw [show clApply cid (origIts.map u ++ E) (Op.createItem cid k t.name t.checked)
          = origIts.map u ++ (E ++ [(⟨k, t.name, stateStr t.checked⟩ : RemoteItem)]) from by
        show (if cid = cid
            then (origIts.map u ++ E) ++ [(⟨k, t.name, stateStr t.checked⟩ : RemoteItem)]
            else origIts.map u ++ E) = _
        rw [if_pos rfl, List.append_assoc]]
      have he1b : ∀ e ∈ E ++ [(⟨k, t.name, stateStr t.checked⟩ : RemoteItem)],
          ∀ it ∈ origIts, e.id ≠ it.id := by
        intro e hemem it hit
        rcases List.mem_append.mp hemem with hm | hm
        · exact he1 e hm it hit
        · rw [List.mem_singleton.mp hm]
          exact ne_of_gt (hlt it hit)
      have hltr : ∀ it ∈ origIts, it.id < k + 1 := fun it hit => Nat.lt_succ_of_lt (hlt it hit)
      rw [cuOps_apply cid origIts ts (k + 1) u
        (E ++ [(⟨k, t.name, stateStr t.checked⟩ : RemoteItem)]) hndp.2 hids hltr huid hufr he1b]
      congr 1
      · exact List.map_congr_left fun it _ =>
          (itemUpd2_cons_of_ne u (taskTargets_of_none hl it)).symm
      · rw [List.append_assoc]
        congr 1
        simp only [cuCreated, hl]
        rfl
    | some it0 =>
      have hm0 := lookupFirst_dict_mem hl
      have huit0 : u it0 = it0 := huf t (List.mem_cons_self _ _) it0 hm0.1 hl
      have hfind0 : ts.find? (taskTargets (dictOfItems origIts) it0) = none :=
        find?_taskTargets_none hids hl hndp.1
      by_cases hcmp : it0.state = stateStr t.checked
      · simp only [cuOps, hl, if_pos hcmp, List.nil_append]
        rw [cuOps_apply cid origIts ts k u E hndp.2 hids hlt huid hufr he1]
        congr 1
        · apply List.map_congr_left
          intro it hit
          by_cases hcid : it0.id = it.id
          · have hceq : it = it0 := nodup_map_inj RemoteItem.id hids hit hm0.1 hcid.symm
            subst hceq
            rw [itemUpd2_cons_target u hl,
              show ({ it with state := stateStr t.checked } : RemoteItem) = it from by
                rw [← hcmp]]
            unfold itemUpd2
            rw [hfind0]
            exact huit0
          · exact (itemUpd2_cons_of_ne u (by
              unfold taskTargets
              rw [hl]
              exact beq_eq_false_iff_ne.mpr fun h => hcid h)).symm
        · simp only [cuCreated, hl]
      · simp only [cuOps, hl, if_neg hcmp, List.cons_append, List.nil_append, List.foldl_cons]
        rw [show clApply cid (origIts.map u ++ E)
              (Op.updateItemState it0.id (stateStr t.checked))
            = origIts.map (fun it =>
                if (u it).id = it0.id then { u it with state := stateStr t.checked } else u it)
              ++ E from by
          show (origIts.map u ++ E).map (fun x =>
              if x.id = it0.id then { x with state := stateStr t.checked } else x) = _
          rw [List.map_append, List.map_map]
          congr 1
          calc E.map (fun x => if x.id = it0.id then { x with state := stateStr t.checked } else x)
              = E.map id := List.map_congr_left fun e hemem => by
                show (if e.id = it0.id then { e with state := stateStr t.checked } else e) = e
                rw [if_neg (he1 e hemem it0 hm0.1)]
            _ = E := List.map_id E]
        have huid2 : ∀ it, ((fun it =>
            if (u it).id = it0.id then { u it with state := stateStr t.checked } else u it)
              it).id = it.id := by
          intro it
          show (if (u it).id = it0.id then { u it with state := stateStr t.checked }
            else u it).id = it.id
          by_cases hci : (u it).id = it0.id
          · rw [if_pos hci]
            exact huid it
          · rw [if_neg hci]
            exact huid it
        have huf2 : ∀ q ∈ ts, ∀ it ∈ origIts,
            lookupFirst (dictOfItems origIts) q.name = some it →
            (fun it =>
              if (u it).id = it0.id then { u it with state := stateStr t.checked } else u it)
              it = it := by
          intro q hq it hit hql
          have hueq : u it = it := hufr q hq it hit hql
          show (if (u it).id = it0.id then { u it with state := stateStr t.checked } else u it)
            = it
          rw [hueq]
          have hne : ¬ it.id = it0.id := by
            intro hci
            have hceq : it = it0 := nodup_map_inj RemoteItem.id hids hit hm0.1 hci
            have h1 := (lookupFirst_dict_mem hql).2
            rw [hceq, hm0.2] at h1
            exact hndp.1 (by rw [h1]; exact List.mem_map_of_mem Task.name hq)
          rw [if_neg hne]
        rw [cuOps_apply cid origIts ts k _ E hndp.2 hids hlt huid2 huf2 he1]
        congr 1
        · apply List.map_congr_left
          intro it hit
          by_cases hcid : it0.id = it.id
          · have hceq : it = it0 := nodup_map_inj RemoteItem.id hids hit hm0.1 hcid.symm
            subst hceq
            rw [itemUpd2_cons_target u hl]
            unfold itemUpd2
            rw [hfind0]
            show (if (u it).id = it.id then { u it with state := stateStr t.checked } else u it)
              = { it with state := stateStr t.checked }
            rw [huit0, if_pos rfl]
          · have hne2 : taskTargets (dictOfItems origIts) it t = false := by
              unfold taskTargets
              rw [hl]
              exact beq_eq_false_iff_ne.mpr fun h => hcid h
            rw [itemUpd2_cons_of_ne u hne2]
            show itemUpd2 (dictOfItems origIts) ts
                (fun x =>
                  if (u x).id = it0.id then { u x with state := stateStr t.checked } else u x) it
              = itemUpd2 (dictOfItems origIts) ts u it
            unfold itemUpd2
            cases hfq : ts.find? (taskTargets (dictOfItems origIts) it) with
            | some q => rfl
            | none =>
              show (if (u it).id = it0.id then { u it with state := stateStr t.checked }
                else u it) = u it
              rw [if_neg]
              rw [huid it]
              exact fun h => hcid h.symm
        · simp only [cuCreated, hl]


/-! ### The deletion loop toolbox -/

theorem delOps_cons (cid : Nat) (names : List String) (q : String × RemoteItem)
    (d : List (String × RemoteItem)) :
    delOps cid (q :: d) names
      = (if names.contains q.1 then [] else [Op.deleteItem cid q.2.id]) ++ delOps cid d names := by
  unfold delOps
  rw [List.filterMap_cons]
  by_cases hc : names.contains q.1
  · rw [if_pos hc, if_pos hc]
    rfl
  · rw [if_neg hc, if_neg hc]
    rfl

theorem delOps_mem {cid : Nat} {d : List (String × RemoteItem)} {names : List String}
    {op : Op} (h : op ∈ delOps cid d names) :
    ∃ q ∈ d, op = Op.deleteItem cid q.2.id ∧ names.contains q.1 = false := by
  unfold delOps at h
  obtain ⟨q, hq, hqe⟩ := List.mem_filterMap.mp h
  by_cases hc : names.contains q.1
  · rw [if_pos hc] at hqe
    exact Option.noConfusion hqe
  · rw [if_neg hc] at hqe
    exact ⟨q, hq, (Option.some.inj hqe).symm, Bool.eq_false_iff.mpr hc⟩

theorem filter_ne_id_cons {iid : Nat} {x : RemoteItem} (h : x.id = iid)
    (l : List RemoteItem) :
    (x :: l).filter (fun y => y.id ≠ iid) = l.filter (fun y => y.id ≠ iid) := by
  rw [List.filter_cons]
  have hd : (decide (x.id ≠ iid)) = false := by
    rw [decide_eq_false_iff_not]
    exact fun hne => hne h
  rw [hd]
  rfl

theorem filter_ne_id_self {iid : Nat} (l : List RemoteItem)
    (h : ∀ y ∈ l, y.id ≠ iid) : l.filter (fun y => y.id ≠ iid) = l :=
  List.filter_eq_self.mpr fun y hy => decide_eq_true (h y hy)

/-- The deletion loop on a name-keyed item dict removes exactly the items
whose names are not among the task names, leaving a prefix `F` and a
suffix `E` of unrelated ids untouched. -/
theorem delOps_apply (cid : Nat) (names : List String) (f : RemoteItem → RemoteItem)
    (hfid : ∀ it, (f it).id = it.id) :
    ∀ (its F E : List RemoteItem),
      (its.map RemoteItem.id).Nodup →
      (∀ x ∈ F, ∀ it ∈ its, x.id ≠ it.id) →
      (∀ e ∈ E, ∀ it ∈ its, e.id ≠ it.id) →
      (delOps cid (its.map fun it => (it.name, it)) names).foldl (clApply cid)
          (F ++ its.map f ++ E)
        = F ++ (its.filter fun it => names.contains it.name).map f ++ E
  | [], F, E, _, _, _ => rfl
  | it :: its, F, E, hnd, hF, hE => by
    rw [List.map_cons, List.nodup_cons] at hnd
    show (delOps cid ((it.name, it) :: its.map fun x => (x.name, x)) names).foldl
        (clApply cid) (F ++ (it :: its).map f ++ E)
      = F ++ ((it :: its).filter fun y => names.contains y.name).map f ++ E
    rw [delOps_cons]
    by_cases hc : names.contains it.name
    · rw [if_pos hc, List.nil_append]
      have hshift : F ++ (it :: its).map f ++ E = (F ++ [f it]) ++ its.map f ++ E := by
        simp [List.append_assoc]
      rw [hshift]
      have hF2 : ∀ x ∈ F ++ [f it], ∀ y ∈ its, x.id ≠ y.id := by
        intro x hx y hy
        rcases List.mem_append.mp hx with hm | hm
        · exact hF x hm y (List.mem_cons_of_mem it hy)
        · rw [List.mem_singleton.mp hm, hfid]
          exact fun he => hnd.1 (by rw [he]; exact List.mem_map_of_mem RemoteItem.id hy)
      have hE2 : ∀ e ∈ E, ∀ y ∈ its, e.id ≠ y.id :=
        fun e he y hy => hE e he y (List.mem_cons_of_mem it hy)
      rw [delOps_apply cid names f hfid its (F ++ [f it]) E hnd.2 hF2 hE2,
        show (it :: its).filter (fun y => names.contains y.name)
            = it :: its.filter (fun y => names.contains y.name) from by
          rw [List.filter_cons, hc, if_pos rfl],
        List.map_cons]
      simp [List.append_assoc]
    · rw [if_neg hc]
      rw [show ((([Op.deleteItem cid it.id] : List Op))
          ++ delOps cid (its.map fun x => (x.name, x)) names).foldl (clApply cid)
            (F ++ (it :: its).map f ++ E)
          = (delOps cid (its.map fun x => (x.name, x)) names).foldl (clApply cid)
              (clApply cid (F ++ (it :: its).map f ++ E) (Op.deleteItem cid it.id)) from rfl]
      have hdel : clApply cid (F ++ (it :: its).map f ++ E) (Op.deleteItem cid it.id)
          = F ++ its.map f ++ E := by
        show (if cid = cid
            then (F ++ (it :: its).map f ++ E).filter fun y => y.id ≠ it.id
            else F ++ (it :: its).map f ++ E) = F ++ its.map f ++ E
        rw [if_pos rfl, List.map_cons, List.filter_append, List.filter_append,
          filter_ne_id_cons (hfid it),
          filter_ne_id_self F (fun y hy => hF y hy it (List.mem_cons_self _ _)),
          filter_ne_id_self E (fun y hy => hE y hy it (List.mem_cons_self _ _)),
          filter_ne_id_self (its.map f) ?hits]
        case hits =>
          intro y hy
          obtain ⟨z, hz, hzy⟩ := List.mem_map.mp hy
          rw [← hzy, hfid]
          exact fun he => hnd.1 (by rw [← he]; exact List.mem_map_of_mem RemoteItem.id hz)
      rw [hdel]
      have hE2 : ∀ e ∈ E, ∀ y ∈ its, e.id ≠ y.id :=
        fun e he y hy => hE e he y (List.mem_cons_of_mem it hy)
      have hF2 : ∀ x ∈ F, ∀ y ∈ its, x.id ≠ y.id :=
        fun x hx y hy => hF x hx y (List.mem_cons_of_mem it hy)
      rw [delOps_apply cid names f hfid its F E hnd.2 hF2 hE2,
        show (it :: its).filter (fun y => names.contains y.name)
            = its.filter (fun y => names.contains y.name) from by
          rw [List.filter_cons, Bool.eq_false_iff.mpr hc,
            if_neg fun h => Bool.noConfusion h]]


/-! ### The milestone-loop segment lemma -/

theorem SegProv_mono {card : CardData} {keys keys2 : List String} {c0 c0b c1 c1b : Nat} :
    ∀ {op : Op}, SegProv card keys c0 c1 op → (∀ n ∈ keys, n ∈ keys2) →
      c0b ≤ c0 → c1 ≤ c1b → SegProv card keys2 c0b c1b op := by
  intro op h hk h0 h1
  cases op with
  | createChecklist i n =>
    exact ⟨Nat.le_trans h0 h.1, Nat.lt_of_lt_of_le h.2.1 h1, hk n h.2.2⟩
  | createItem cid iid nm ck =>
    refine ⟨Nat.le_trans h0 h.1, Nat.lt_of_lt_of_le h.2.1 h1, ?_⟩
    rcases h.2.2 with ⟨cl, hcl, hn, he⟩ | ⟨hb1, hb2⟩
    · exact Or.inl ⟨cl, hcl, hk cl.name hn, he⟩
    · exact Or.inr ⟨Nat.le_trans h0 hb1, Nat.lt_of_lt_of_le hb2 h1⟩
  | updateItemState iid st =>
    obtain ⟨cl, hcl, hn, hi⟩ := h
    exact ⟨cl, hcl, hk cl.name hn, hi⟩
  | deleteItem cid iid =>
    obtain ⟨cl, hcl, hn, he, hi⟩ := h
    exact ⟨cl, hcl, hk cl.name hn, he, hi⟩
  | createComment i t => exact h
  | updateComment i t => exact h

/-- Running a segment of the milestone loop, when every key still to be
processed either creates a new checklist or resolves to an original one
(and the keys are duplicate-free), only appends operations with segment
provenance and only appends freshly-created entries to the lookup dict. -/
theorem syncSegment (card : CardData) (ms : List (String × List Task)) (k : Nat) :
    ∀ (todo : List (String × List Task)) (acc : MsAcc),
      (todo.map Prod.fst).Nodup →
      (∀ q ∈ todo, ∀ cl, lookupLast acc.known q.1 = some cl →
        cl ∈ card.checklists ∧ cl.name = q.1) →
      ∃ extra created,
        (todo.foldl (syncStep ms) acc).ops = acc.ops ++ extra ∧
        (todo.foldl (syncStep ms) acc).known = acc.known ++ created ∧
        acc.counter ≤ (todo.foldl (syncStep ms) acc).counter ∧
        (∀ op ∈ extra, SegProv card (todo.map Prod.fst) acc.counter
          (todo.foldl (syncStep ms) acc).counter op) ∧
        (∀ q ∈ created, q.1 ∈ todo.map Prod.fst)
  | [], acc, _, _ => ⟨[], [], (List.append_nil _).symm, (List.append_nil _).symm, Nat.le_refl _,
      fun op h => absurd h (List.not_mem_nil _), fun q h => absurd h (List.not_mem_nil _)⟩
  | p :: todo, acc, hnd, hfresh => by
    rw [List.map_cons, List.nodup_cons] at hnd
    rw [List.foldl_cons]
    cases hl : lookupLast acc.known p.1 with
    | some cl =>
      obtain ⟨hclmem, hclname⟩ := hfresh p (List.mem_cons_self _ _) cl hl
      have hstep : syncStep ms acc p = { acc with
          ops := acc.ops ++ (cuOps cl.id (dictOfItems cl.checkItems) acc.counter p.2).1
            ++ delOps cl.id (dictOfItems cl.checkItems) (taskNamesFor ms p.1)
          counter := (cuOps cl.id (dictOfItems cl.checkItems) acc.counter p.2).2 } := by
        simp only [syncStep, hl]
      rw [hstep]
      have hfresh2 : ∀ q ∈ todo, ∀ cl2, lookupLast acc.known q.1 = some cl2 →
          cl2 ∈ card.checklists ∧ cl2.name = q.1 :=
        fun q hq => hfresh q (List.mem_cons_of_mem p hq)
      obtain ⟨extra, created, hops, hknown, hcnt, hprov, hcreat⟩ :=
        syncSegment card ms k todo { acc with
          ops := acc.ops ++ (cuOps cl.id (dictOfItems cl.checkItems) acc.counter p.2).1
            ++ delOps cl.id (dictOfItems cl.checkItems) (taskNamesFor ms p.1)
          counter := (cuOps cl.id (dictOfItems cl.checkItems) acc.counter p.2).2 }
          hnd.2 hfresh2
      refine ⟨(cuOps cl.id (dictOfItems cl.checkItems) acc.counter p.2).1
          ++ (delOps cl.id (dictOfItems cl.checkItems) (taskNamesFor ms p.1) ++ extra),
        created, ?_, ?_, ?_, ?_, ?_⟩
      · rw [hops, List.append_assoc, List.append_assoc]
      · exact hknown
      · exact Nat.le_trans
          (cuOps_counter_le cl.id (dictOfItems cl.checkItems) p.2 acc.counter) hcnt
      · intro op hop
        have hkeys : cl.name ∈ (p :: todo).map Prod.fst := by
          rw [List.map_cons, hclname]
          exact List.mem_cons_self _ _
        rcases List.mem_append.mp hop with h1 | h1
        · rcases cuOps_prov cl.id (dictOfItems cl.checkItems) p.2 acc.counter op h1 with
            ⟨iid, n2, ck, he, hb1, hb2⟩ | ⟨n2, it0, st, hlk, he⟩
          · rw [he]
            exact ⟨hb1, Nat.lt_of_lt_of_le hb2 hcnt, Or.inl ⟨cl, hclmem, hkeys, rfl⟩⟩
          · rw [he]
            have hm := lookupFirst_dict_mem hlk
            exact ⟨cl, hclmem, hkeys, List.mem_map_of_mem RemoteItem.id hm.1⟩
        · rcases List.mem_append.mp h1 with h2 | h2
          · obtain ⟨q2, hq2, he, _⟩ := delOps_mem h2
            rw [he]
            have hm := dictOfItems_mem cl.checkItems q2 hq2
            exact ⟨cl, hclmem, hkeys, rfl, List.mem_map_of_mem RemoteItem.id hm.2⟩
          · exact SegProv_mono (hprov op h2) (fun n hn => List.mem_cons_of_mem _ hn)
              (cuOps_counter_le cl.id (dictOfItems cl.checkItems) p.2 acc.counter)
              (Nat.le_refl _)
      · intro q hq
        exact List.mem_cons_of_mem _ (hcreat q hq)
    | none =>
      have hstep : syncStep ms acc p = {
          ops := acc.ops ++ Op.createChecklist acc.counter p.1
              :: (cuOps acc.counter [] (acc.counter + 1) p.2).1
            ++ delOps acc.counter [] (taskNamesFor ms p.1)
          counter := (cuOps acc.counter [] (acc.counter + 1) p.2).2
          known := acc.known ++ [(p.1, (⟨acc.counter, p.1, []⟩ : RemoteChecklist))] } := by
        simp only [syncStep, hl]
      rw [hstep]
      have hfresh2 : ∀ q ∈ todo, ∀ cl2,
          lookupLast (acc.known ++ [(p.1, (⟨acc.counter, p.1, []⟩ : RemoteChecklist))]) q.1
            = some cl2 →
          cl2 ∈ card.checklists ∧ cl2.name = q.1 := by
        intro q hq cl2 hlk
        rw [lookupLast_append2] at hlk
        have hq1 : lookupLast [(p.1, (⟨acc.counter, p.1, []⟩ : RemoteChecklist))] q.1
            = none := by
          apply lookupLast_none_of_forall2
          intro r hr
          rw [List.mem_singleton.mp hr]
          exact fun he => hnd.1 (by
            rw [show p.1 = q.1 from he]
            exact List.mem_map_of_mem Prod.fst hq)
        rw [hq1] at hlk
        exact hfresh q (List.mem_cons_of_mem p hq) cl2 hlk
      obtain ⟨extra, created, hops, hknown, hcnt, hprov, hcreat⟩ :=
        syncSegment card ms k todo {
          ops := acc.ops ++ Op.createChecklist acc.counter p.1
              :: (cuOps acc.counter [] (acc.counter + 1) p.2).1
            ++ delOps acc.counter [] (taskNamesFor ms p.1)
          counter := (cuOps acc.counter [] (acc.counter + 1) p.2).2
          known := acc.known ++ [(p.1, (⟨acc.counter, p.1, []⟩ : RemoteChecklist))] }
          hnd.2 hfresh2
      have hcntStep : acc.counter < (cuOps acc.counter [] (acc.counter + 1) p.2).2 :=
        Nat.lt_of_lt_of_le (Nat.lt_succ_self _)
          (cuOps_counter_le acc.counter [] p.2 (acc.counter + 1))
      refine ⟨Op.createChecklist acc.counter p.1
          :: ((cuOps acc.counter [] (acc.counter + 1) p.2).1
            ++ (delOps acc.counter [] (taskNamesFor ms p.1) ++ extra)),
        (p.1, (⟨acc.counter, p.1, []⟩ : RemoteChecklist)) :: created, ?_, ?_, ?_, ?_, ?_⟩
      · rw [hops, List.append_assoc, List.append_assoc]
        rfl
      · rw [hknown, List.append_assoc]
        rfl
      · exact Nat.le_trans (Nat.le_of_lt hcntStep) hcnt
      · intro op hop
        rcases List.mem_cons.mp hop with h2 | h2
        · rw [h2]
          exact ⟨Nat.le_refl _, Nat.lt_of_lt_of_le hcntStep hcnt,
            List.mem_cons_self _ _⟩
        · rcases List.mem_append.mp h2 with h3 | h3
          · rcases cuOps_prov acc.counter [] p.2 (acc.counter + 1) op h3 with
              ⟨iid, n2, ck, he, hb1, hb2⟩ | ⟨n2, it0, st, hlk, he⟩
            · rw [he]
              exact ⟨Nat.le_of_succ_le hb1, Nat.lt_of_lt_of_le hb2 hcnt,
                Or.inr ⟨Nat.le_refl _, Nat.lt_of_lt_of_le hcntStep hcnt⟩⟩
            · exact Option.noConfusion hlk
          · rcases List.mem_append.mp h3 with h4 | h4
            · exact absurd h4 (List.not_mem_nil op)
            · exact SegProv_mono (hprov op h4) (fun n hn => List.mem_cons_of_mem _ hn)
                (Nat.le_of_lt hcntStep) (Nat.le_refl _)
      · intro q hq
        rcases List.mem_cons.mp hq with h2 | h2
        · rw [h2]
          exact List.mem_cons_self _ _
        · exact List.mem_cons_of_mem _ (hcreat q h2)


/-! ### C8: the frame of one milestone run -/

theorem lookupLast_map_pair {l : List RemoteChecklist} {m : String} {cl : RemoteChecklist}
    (h : lookupLast (l.map fun c => (c.name, c)) m = some cl) : cl ∈ l ∧ cl.name = m := by
  have hm := lookupLast_some_mem2 h
  obtain ⟨c2, hc2, he⟩ := List.mem_map.mp hm
  have h1 : c2.name = m := congrArg Prod.fst he
  have h2 : c2 = cl := congrArg Prod.snd he
  rw [← h2]
  exact ⟨hc2, h1⟩

theorem lookupLast_ne_none2 {β : Type} :
    ∀ {l : List (String × β)} {m : String} {q : String × β}, q ∈ l → q.1 = m →
      lookupLast l m ≠ none
  | [], _, _, hq, _ => absurd hq (List.not_mem_nil _)
  | x :: l, m, q, hq, hqm => by
    show l.foldl (fun a p => if p.1 = m then some p.2 else a)
      (if x.1 = m then some x.2 else none) ≠ none
    rw [foldl_lookupLast_acc m l]
    rcases List.mem_cons.mp hq with rfl | h2
    · cases hLL : lookupLast l m with
      | some v => simp
      | none =>
        rw [if_pos hqm]
        simp
    · cases hLL : lookupLast l m with
      | some v => simp
      | none => exact absurd hLL (lookupLast_ne_none2 h2 hqm)

/-- C8: a run of `sync_milestones` never deletes a checklist and never
deletes (or otherwise touches) a comment: checklists whose name is not a
parsed milestone name survive entirely unmodified, every pre-existing
checklist survives with its id and name, the comment list is unchanged,
and the only deletion operations are item deletions addressed to original
checklists whose name is a parsed milestone name. -/
theorem c8_no_checklist_or_comment_deletion (card : CardData)
    (ms : List (String × List Task)) (k : Nat)
    (hkeys : (ms.map Prod.fst).Nodup)
    (hclids : (card.checklists.map RemoteChecklist.id).Nodup)
    (hiids : ((card.checklists.map fun cl => cl.checkItems.map RemoteItem.id).flatten).Nodup)
    (hlt : ∀ cl ∈ card.checklists, cl.id < k ∧ ∀ it ∈ cl.checkItems, it.id < k) :
    (∀ cl ∈ card.checklists, cl.name ∉ ms.map Prod.fst →
        cl ∈ (applyOps card (sync_milestones_ops k card ms)).checklists)
    ∧ (∀ cl ∈ card.checklists,
        ∃ cl2 ∈ (applyOps card (sync_milestones_ops k card ms)).checklists,
          cl2.id = cl.id ∧ cl2.name = cl.name)
    ∧ (applyOps card (sync_milestones_ops k card ms)).actions = card.actions
    ∧ (∀ cid iid, Op.deleteItem cid iid ∈ sync_milestones_ops k card ms →
        ∃ cl ∈ card.checklists, cl.name ∈ ms.map Prod.fst ∧ cid = cl.id) := by
  obtain ⟨extra, created, hops, hknown, hcnt, hprov, hcreat⟩ :=
    syncSegment card ms k ms ⟨[], k, card.checklists.map fun cl => (cl.name, cl)⟩ hkeys
      (fun q hq cl hl => lookupLast_map_pair hl)
  have hopsAll : sync_milestones_ops k card ms = extra := by
    show (ms.foldl (syncStep ms) ⟨[], k, card.checklists.map fun cl => (cl.name, cl)⟩).ops
      = extra
    rw [hops]
    rfl
  have hprovAll : ∀ op ∈ sync_milestones_ops k card ms,
      SegProv card (ms.map Prod.fst) k
        (ms.foldl (syncStep ms)
          ⟨[], k, card.checklists.map fun cl => (cl.name, cl)⟩).counter op := by
    intro op hop
    refine hprov op ?_
    rw [← hopsAll]
    exact hop
  refine ⟨?_, ?_, ?_, ?_⟩
  · intro cl hcl hnm
    rw [applyOps_checklists]
    refine List.mem_append_left _ ?_
    have h1 : ∀ cid iid n ck, Op.createItem cid iid n ck ∈ sync_milestones_ops k card ms →
        cl.id ≠ cid := by
      intro cid iid n ck hmem he
      rcases (hprovAll _ hmem).2.2 with ⟨cl2, hcl2, hn2, he2⟩ | ⟨hk1, _⟩
      · have hceq : cl = cl2 := nodup_map_inj RemoteChecklist.id hclids hcl hcl2
          (by rw [← he2]; exact he)
        rw [hceq] at hnm
        exact hnm hn2
      · rw [← he] at hk1
        exact Nat.lt_irrefl _ (Nat.lt_of_lt_of_le (hlt cl hcl).1 hk1)
    have h2 : ∀ cid iid, Op.deleteItem cid iid ∈ sync_milestones_ops k card ms →
        cl.id ≠ cid := by
      intro cid iid hmem he
      obtain ⟨cl2, hcl2, hn2, he2, _⟩ := hprovAll _ hmem
      have hceq : cl = cl2 := nodup_map_inj RemoteChecklist.id hclids hcl hcl2
        (by rw [← he2]; exact he)
      rw [hceq] at hnm
      exact hnm hn2
    have h3 : ∀ iid st, Op.updateItemState iid st ∈ sync_milestones_ops k card ms →
        iid ∉ cl.checkItems.map RemoteItem.id := by
      intro iid st hmem hin
      obtain ⟨cl2, hcl2, hn2, hin2⟩ := hprovAll _ hmem
      have hne : cl2 ≠ cl := by
        intro hceq
        rw [hceq] at hn2
        exact hnm hn2
      exact flatten_nodup_disjoint (fun c => c.checkItems.map RemoteItem.id) hiids
        hcl2 hcl hne hin2 hin
    have hev : evolveCl (sync_milestones_ops k card ms) cl = cl := by
      show (⟨cl.id, cl.name,
          (sync_milestones_ops k card ms).foldl (clApply cl.id) cl.checkItems⟩
          : RemoteChecklist) = cl
      rw [clApply_foldl_id (sync_milestones_ops k card ms) cl.id cl.checkItems h1 h2 h3]
    have hm2 := List.mem_map_of_mem (evolveCl (sync_milestones_ops k card ms)) hcl
    rw [hev] at hm2
    exact hm2
  · intro cl hcl
    rw [applyOps_checklists]
    exact ⟨evolveCl (sync_milestones_ops k card ms) cl,
      List.mem_append_left _ (List.mem_map_of_mem _ hcl), rfl, rfl⟩
  · rw [applyOps_actions]
    apply foldl_commentApply_id
    · intro i t hmem
      exact hprovAll _ hmem
    · intro i t hmem
      exact hprovAll _ hmem
  · intro cid iid hmem
    obtain ⟨cl, hcl, hn, he, _⟩ := hprovAll _ hmem
    exact ⟨cl, hcl, hn, he⟩

/-- C8 witness at a concrete card and milestone list: the untracked
checklist survives untouched, all checklists survive, comments are
untouched, and the only deletion is of an item of the tracked
checklist. -/
theorem c8_no_checklist_or_comment_deletion_witness :
    ((⟨2, "Other", [⟨12, "Keep", "incomplete"⟩]⟩ : RemoteChecklist).name
        ∉ c1wMs.map Prod.fst →
      (⟨2, "Other", [⟨12, "Keep", "incomplete"⟩]⟩ : RemoteChecklist)
        ∈ (applyOps c1wCard (sync_milestones_ops 100 c1wCard c1wMs)).checklists)
    ∧ (∀ cl ∈ c1wCard.checklists,
        ∃ cl2 ∈ (applyOps c1wCard (sync_milestones_ops 100 c1wCard c1wMs)).checklists,
          cl2.id = cl.id ∧ cl2.name = cl.name)
    ∧ (applyOps c1wCard (sync_milestones_ops 100 c1wCard c1wMs)).actions = c1wCard.actions
    ∧ (∀ cid iid, Op.deleteItem cid iid ∈ sync_milestones_ops 100 c1wCard c1wMs →
        ∃ cl ∈ c1wCard.checklists, cl.name ∈ c1wMs.map Prod.fst ∧ cid = cl.id) := by
  obtain ⟨ha, hb, hc, hd⟩ := c8_no_checklist_or_comment_deletion c1wCard c1wMs 100
    (by decide) (by decide) (by decide) (by decide)
  exact ⟨ha ⟨2, "Other", [⟨12, "Keep", "incomplete"⟩]⟩ (by decide), hb, hc, hd⟩


/-! ### C1: the mirrored item set of one milestone -/

theorem itemUpd2_id {d : List (String × RemoteItem)} {ts : List Task}
    {u : RemoteItem → RemoteItem} (hu : ∀ it, (u it).id = it.id) (it : RemoteItem) :
    (itemUpd2 d ts u it).id = it.id := by
  unfold itemUpd2
  cases h : ts.find? (taskTargets d it) with
  | some t => rfl
  | none => exact hu it

theorem itemUpd2_name {d : List (String × RemoteItem)} {ts : List Task}
    {u : RemoteItem → RemoteItem} (hu : ∀ it, (u it).name = it.name) (it : RemoteItem) :
    (itemUpd2 d ts u it).name = it.name := by
  unfold itemUpd2
  cases h : ts.find? (taskTargets d it) with
  | some t => rfl
  | none => exact hu it

theorem itemUpd2_eval_target {origIts : List RemoteItem} {tasks : List Task}
    (hin : (origIts.map RemoteItem.name).Nodup)
    (hii : (origIts.map RemoteItem.id).Nodup)
    (htn : (tasks.map Task.name).Nodup)
    {x : RemoteItem} {t : Task} (hx : x ∈ origIts) (ht : t ∈ tasks)
    (hname : t.name = x.name) :
    itemUpd2 (dictOfItems origIts) tasks id x = ⟨x.id, x.name, stateStr t.checked⟩ := by
  have htg : taskTargets (dictOfItems origIts) x t = true := by
    unfold taskTargets
    rw [hname, lookupFirst_dict_self hin hx]
    exact beq_self_eq_true _
  cases hf : tasks.find? (taskTargets (dictOfItems origIts) x) with
  | none => exact absurd htg ((List.find?_eq_none.mp hf) t ht)
  | some t2 =>
    have ht2m := List.mem_of_find?_eq_some hf
    have ht2g : taskTargets (dictOfItems origIts) x t2 = true := List.find?_some hf
    have ht2n : t2.name = x.name := by
      unfold taskTargets at ht2g
      cases hl2 : lookupFirst (dictOfItems origIts) t2.name with
      | none =>
        rw [hl2] at ht2g
        exact Bool.noConfusion ht2g
      | some it2 =>
        rw [hl2] at ht2g
        have hid : it2.id = x.id := by
          rw [beq_iff_eq] at ht2g
          exact ht2g
        have hm2 := lookupFirst_dict_mem hl2
        have : it2 = x := nodup_map_inj RemoteItem.id hii hm2.1 hx hid
        rw [← hm2.2, this]
    have ht2t : t2 = t := nodup_map_inj Task.name htn ht2m ht (by rw [ht2n, hname])
    unfold itemUpd2
    rw [hf, ht2t]

theorem createdCls_eq_nil :
    ∀ {ops : List Op}, (∀ op ∈ ops, createName op = none) → createdCls ops = []
  | [], _ => rfl
  | op :: ops, h => by
    cases op with
    | createChecklist i n =>
      exact absurd (h _ (List.mem_cons_self _ _)) (by simp [createName])
    | createItem a b n c =>
      exact @createdCls_eq_nil ops fun op2 h2 => h op2 (List.mem_cons_of_mem _ h2)
    | updateItemState a st =>
      exact @createdCls_eq_nil ops fun op2 h2 => h op2 (List.mem_cons_of_mem _ h2)
    | deleteItem a b =>
      exact @createdCls_eq_nil ops fun op2 h2 => h op2 (List.mem_cons_of_mem _ h2)
    | createComment i t =>
      exact @createdCls_eq_nil ops fun op2 h2 => h op2 (List.mem_cons_of_mem _ h2)
    | updateComment i t =>
      exact @createdCls_eq_nil ops fun op2 h2 => h op2 (List.mem_cons_of_mem _ h2)

theorem cuOps_no_create (cid : Nat) (d : List (String × RemoteItem)) (ts : List Task)
    (k : Nat) : ∀ op ∈ (cuOps cid d k ts).1, createName op = none := by
  intro op h
  rcases cuOps_prov cid d ts k op h with ⟨iid, n, ck, he, _, _⟩ | ⟨n, it0, st, _, he⟩ <;>
    rw [he] <;> rfl

theorem delOps_no_create (cid : Nat) (d : List (String × RemoteItem)) (names : List String) :
    ∀ op ∈ delOps cid d names, createName op = none := by
  intro op h
  obtain ⟨q, _, he, _⟩ := delOps_mem h
  rw [he]
  rfl

theorem cu_pairs_mem_iff (origIts : List RemoteItem) (tasks : List Task) (kk : Nat)
    (hin : (origIts.map RemoteItem.name).Nodup)
    (hii : (origIts.map RemoteItem.id).Nodup)
    (htn : (tasks.map Task.name).Nodup) (pr : String × String) :
    (pr ∈ ((origIts.filter fun it => (tasks.map Task.name).contains it.name).map
        (itemUpd2 (dictOfItems origIts) tasks id)).map itemPair
      ∨ pr ∈ (cuCreated (dictOfItems origIts) kk tasks).map itemPair)
    ↔ pr ∈ tasks.map taskPair := by
  constructor
  · rintro (h | h)
    · obtain ⟨y, hy, hpy⟩ := List.mem_map.mp h
      obtain ⟨x, hx, hxy⟩ := List.mem_map.mp hy
      have hxf := List.mem_filter.mp hx
      have hxn : x.name ∈ tasks.map Task.name := List.elem_iff.mp hxf.2
      obtain ⟨t, ht, htn2⟩ := List.mem_map.mp hxn
      have heval := itemUpd2_eval_target hin hii htn hxf.1 ht htn2
      rw [← hpy, ← hxy, heval]
      refine List.mem_map.mpr ⟨t, ht, ?_⟩
      show (t.name, stateStr t.checked) = (x.name, stateStr t.checked)
      rw [htn2]
    · obtain ⟨e, he, hpe⟩ := List.mem_map.mp h
      obtain ⟨⟨t, ht, hl, hn, hs⟩, _⟩ := cuCreated_mem (dictOfItems origIts) tasks kk e he
      refine List.mem_map.mpr ⟨t, ht, ?_⟩
      rw [← hpe]
      show (t.name, stateStr t.checked) = (e.name, e.state)
      rw [hn, hs]
  · intro h
    obtain ⟨t, ht, hpt⟩ := List.mem_map.mp h
    by_cases hx : t.name ∈ origIts.map RemoteItem.name
    · obtain ⟨x, hxm, hxn⟩ := List.mem_map.mp hx
      refine Or.inl (List.mem_map.mpr ⟨itemUpd2 (dictOfItems origIts) tasks id x,
        List.mem_map.mpr ⟨x, ?_, rfl⟩, ?_⟩)
      · refine List.mem_filter.mpr ⟨hxm, ?_⟩
        rw [hxn]
        exact List.elem_iff.mpr (List.mem_map_of_mem Task.name ht)
      · rw [itemUpd2_eval_target hin hii htn hxm ht hxn.symm, ← hpt]
        show (x.name, stateStr t.checked) = (t.name, stateStr t.checked)
        rw [hxn]
    · have hl : lookupFirst (dictOfItems origIts) t.name = none := lookupFirst_dict_none hx
      obtain ⟨e, he, hn, hs⟩ := cuCreated_of_none (dictOfItems origIts) tasks kk ht hl
      refine Or.inr (List.mem_map.mpr ⟨e, he, ?_⟩)
      rw [← hpt]
      show (e.name, e.state) = (t.name, stateStr t.checked)
      rw [hn, hs]


theorem createName_eq_some {op : Op} {n : String} (h : createName op = some n) :
    ∃ i, op = Op.createChecklist i n := by
  cases op with
  | createChecklist i n2 =>
    have h2 : n2 = n := Option.some.inj h
    exact ⟨i, by rw [h2]⟩
  | createItem a b c d => exact Option.noConfusion h
  | updateItemState a b => exact Option.noConfusion h
  | deleteItem a b => exact Option.noConfusion h
  | createComment a b => exact Option.noConfusion h
  | updateComment a b => exact Option.noConfusion h

theorem delOps_apply_dict (cid : Nat) (names : List String) (f : RemoteItem → RemoteItem)
    (hfid : ∀ it, (f it).id = it.id) (its F E : List RemoteItem)
    (hin : (its.map RemoteItem.name).Nodup)
    (hii : (its.map RemoteItem.id).Nodup)
    (hF : ∀ x ∈ F, ∀ it ∈ its, x.id ≠ it.id)
    (hE : ∀ e ∈ E, ∀ it ∈ its, e.id ≠ it.id) :
    (delOps cid (dictOfItems its) names).foldl (clApply cid) (F ++ its.map f ++ E)
      = F ++ (its.filter fun it => names.contains it.name).map f ++ E := by
  rw [dictOfItems_nodup_names hin]
  exact delOps_apply cid names f hfid its F E hii hF hE

/-- Writes of a segment whose keys avoid `cl.name` leave the tracked item
list of the original checklist `cl` unchanged. -/
theorem segAvoid (card : CardData) (keys : List String) (c0 c1 kb : Nat)
    (extra : List Op) (hprov : ∀ op ∈ extra, SegProv card keys c0 c1 op)
    (cl : RemoteChecklist) (hclmem : cl ∈ card.checklists)
    (hnm : cl.name ∉ keys)
    (hclids : (card.checklists.map RemoteChecklist.id).Nodup)
    (hiids : ((card.checklists.map fun c => c.checkItems.map RemoteItem.id).flatten).Nodup)
    (hltk : cl.id < c0)
    (hltI : ∀ cl2 ∈ card.checklists, ∀ it ∈ cl2.checkItems, it.id < kb)
    (items : List RemoteItem)
    (hitems : ∀ i ∈ items.map RemoteItem.id, i ∈ cl.checkItems.map RemoteItem.id ∨ kb ≤ i) :
    extra.foldl (clApply cl.id) items = items := by
  apply clApply_foldl_id
  · intro cid iid n ck hmem he
    rcases (hprov _ hmem).2.2 with ⟨cl2, hcl2, hn2, he2⟩ | ⟨hb1, _⟩
    · have hceq : cl = cl2 := nodup_map_inj RemoteChecklist.id hclids hclmem hcl2
        (by rw [← he2]; exact he)
      rw [hceq] at hnm
      exact hnm hn2
    · rw [← he] at hb1
      exact Nat.lt_irrefl _ (Nat.lt_of_lt_of_le hltk hb1)
  · intro cid iid hmem he
    obtain ⟨cl2, hcl2, hn2, he2, _⟩ := hprov _ hmem
    have hceq : cl = cl2 := nodup_map_inj RemoteChecklist.id hclids hclmem hcl2
      (by rw [← he2]; exact he)
    rw [hceq] at hnm
    exact hnm hn2
  · intro iid st hmem hin
    obtain ⟨cl2, hcl2, hn2, hin2⟩ := hprov _ hmem
    have hne : cl2 ≠ cl := fun hceq => hnm (by rw [← hceq]; exact hn2)
    rcases hitems iid hin with hino | hige
    · exact flatten_nodup_disjoint (fun c => c.checkItems.map RemoteItem.id) hiids
        hcl2 hclmem hne hin2 hino
    · obtain ⟨it2, hit2, hit2e⟩ := List.mem_map.mp hin2
      exact Nat.lt_irrefl _ (Nat.lt_of_lt_of_le (hltI cl2 hcl2 it2 hit2)
        (by rw [hit2e]; exact hige))

/-- Writes of a segment leave a checklist created before the segment (id
below the segment base and unequal to every original id) unchanged, as
long as its items all have ids no original item has. -/
theorem segAvoidCreated (card : CardData) (keys : List String) (c0 c1 : Nat)
    (extra : List Op) (hprov : ∀ op ∈ extra, SegProv card keys c0 c1 op)
    (cid : Nat) (hcidlt : cid < c0)
    (hOrig : ∀ cl2 ∈ card.checklists, cl2.id ≠ cid)
    (items : List RemoteItem)
    (hitems : ∀ i ∈ items.map RemoteItem.id,
      ∀ cl2 ∈ card.checklists, ∀ it ∈ cl2.checkItems, it.id ≠ i) :
    extra.foldl (clApply cid) items = items := by
  apply clApply_foldl_id
  · intro cid2 iid n ck hmem he
    rcases (hprov _ hmem).2.2 with ⟨cl2, hcl2, hn2, he2⟩ | ⟨hb1, _⟩
    · exact hOrig cl2 hcl2 (by rw [← he2, ← he])
    · exact Nat.lt_irrefl _ (Nat.lt_of_lt_of_le hcidlt (by rw [he]; exact hb1))
  · intro cid2 iid hmem he
    obtain ⟨cl2, hcl2, hn2, he2, _⟩ := hprov _ hmem
    exact hOrig cl2 hcl2 (by rw [← he2, ← he])
  · intro iid st hmem hin
    obtain ⟨cl2, hcl2, hn2, hin2⟩ := hprov _ hmem
    obtain ⟨it2, hit2, hit2e⟩ := List.mem_map.mp hin2
    exact hitems iid hin cl2 hcl2 it2 hit2 hit2e

theorem cu_pairs_perm (origIts : List RemoteItem) (tasks : List Task) (kk : Nat)
    (hin : (origIts.map RemoteItem.name).Nodup)
    (hii : (origIts.map RemoteItem.id).Nodup)
    (htn : (tasks.map Task.name).Nodup) :
    List.Perm
      (((origIts.filter fun it => (tasks.map Task.name).contains it.name).map
          (itemUpd2 (dictOfItems origIts) tasks id)).map itemPair
        ++ (cuCreated (dictOfItems origIts) kk tasks).map itemPair)
      (tasks.map taskPair) := by
  have hfn1 : (((origIts.filter fun it => (tasks.map Task.name).contains it.name).map
      (itemUpd2 (dictOfItems origIts) tasks id)).map itemPair).map Prod.fst
      = (origIts.filter fun it => (tasks.map Task.name).contains it.name).map
          RemoteItem.name := by
    rw [List.map_map, List.map_map]
    exact List.map_congr_left fun x _ => itemUpd2_name (fun _ => rfl) x
  have hfn2 : ((cuCreated (dictOfItems origIts) kk tasks).map itemPair).map Prod.fst
      = (tasks.filter fun t =>
          (lookupFirst (dictOfItems origIts) t.name).isNone).map Task.name := by
    rw [List.map_map]
    rw [show (cuCreated (dictOfItems origIts) kk tasks).map (Prod.fst ∘ itemPair)
        = (cuCreated (dictOfItems origIts) kk tasks).map RemoteItem.name from rfl]
    exact cuCreated_names (dictOfItems origIts) tasks kk
  have hnd1 : ((((origIts.filter fun it => (tasks.map Task.name).contains it.name).map
      (itemUpd2 (dictOfItems origIts) tasks id)).map itemPair
        ++ (cuCreated (dictOfItems origIts) kk tasks).map itemPair).map Prod.fst).Nodup := by
    rw [List.map_append, hfn1, hfn2, List.nodup_append]
    refine ⟨List.Nodup.sublist (List.Sublist.map _ (List.filter_sublist _)) hin,
      List.Nodup.sublist (List.Sublist.map _ (List.filter_sublist _)) htn, ?_⟩
    intro n hn1 hn2
    obtain ⟨t, htf, htn2⟩ := List.mem_map.mp hn2
    have hlt2 := (List.mem_filter.mp htf).2
    have hlnone : lookupFirst (dictOfItems origIts) t.name = none :=
      Option.isNone_iff_eq_none.mp hlt2
    obtain ⟨x, hxf, hxn⟩ := List.mem_map.mp hn1
    have hxm := (List.mem_filter.mp hxf).1
    have hsome := lookupFirst_dict_self hin hxm
    rw [show x.name = t.name from by rw [hxn, htn2]] at hsome
    rw [hlnone] at hsome
    exact Option.noConfusion hsome
  have hnd2 : ((tasks.map taskPair).map Prod.fst).Nodup := by
    rw [List.map_map]
    rw [show tasks.map (Prod.fst ∘ taskPair) = tasks.map Task.name from rfl]
    exact htn
  exact List.perm_of_nodup_nodup_toFinset_eq (List.Nodup.of_map Prod.fst hnd1)
    (List.Nodup.of_map Prod.fst hnd2)
    (List.toFinset.ext fun pr => by
      constructor
      · intro hpr
        exact (cu_pairs_mem_iff origIts tasks kk hin hii htn pr).mp (List.mem_append.mp hpr)
      · intro hpr
        rcases (cu_pairs_mem_iff origIts tasks kk hin hii htn pr).mpr hpr with h | h
        · exact List.mem_append_left _ h
        · exact List.mem_append_right _ h)


/-- Case core for C1 when the milestone name resolves to an existing
checklist `cl`: after the run the unique checklist named `m` is `cl`
evolved, and its (name, state) item pairs are a permutation of the parsed
task pairs. -/
theorem c1_some_core (card : CardData) (ms : List (String × List Task)) (k : Nat)
    (m : String) (tasks : List Task) (L2 : List (String × List Task))
    (acc1 : MsAcc) (e1 : List Op) (c1s : List (String × RemoteChecklist))
    (keys1 : List String)
    (htasks : (tasks.map Task.name).Nodup)
    (hclnames : (card.checklists.map RemoteChecklist.name).Nodup)
    (hclids : (card.checklists.map RemoteChecklist.id).Nodup)
    (hinames : ∀ c ∈ card.checklists, (c.checkItems.map RemoteItem.name).Nodup)
    (hiids : ((card.checklists.map fun c => c.checkItems.map RemoteItem.id).flatten).Nodup)
    (hlt : ∀ c ∈ card.checklists, c.id < k ∧ ∀ it ∈ c.checkItems, it.id < k)
    (hndL2 : (L2.map Prod.fst).Nodup) (hmL2 : m ∉ L2.map Prod.fst)
    (hmK1 : m ∉ keys1) (hK1L2 : ∀ n ∈ keys1, n ∉ L2.map Prod.fst)
    (hknown1 : acc1.known = (card.checklists.map fun c => (c.name, c)) ++ c1s)
    (hc1keys : ∀ q ∈ c1s, q.1 ∈ keys1)
    (hcnt1 : k ≤ acc1.counter)
    (hops1 : acc1.ops = e1)
    (hprov1 : ∀ op ∈ e1, SegProv card keys1 k acc1.counter op)
    (hnames : taskNamesFor ms m = tasks.map Task.name)
    (cl : RemoteChecklist)
    (hlook : lookupLast (card.checklists.map fun c => (c.name, c)) m = some cl) :
    ∃ clq ∈ (applyOps card
        (List.foldl (syncStep ms) (syncStep ms acc1 (m, tasks)) L2).ops).checklists,
      clq.name = m
      ∧ (∀ cl2 ∈ (applyOps card
          (List.foldl (syncStep ms) (syncStep ms acc1 (m, tasks)) L2).ops).checklists,
          cl2.name = m → cl2 = clq)
      ∧ List.Perm (clq.checkItems.map itemPair) (tasks.map taskPair) := by
  obtain ⟨hclmem, hclname⟩ := lookupLast_map_pair hlook
  have hidsCl : (cl.checkItems.map RemoteItem.id).Nodup :=
    flatten_nodup_parts (fun c => c.checkItems.map RemoteItem.id) hiids cl hclmem
  have hinCl : (cl.checkItems.map RemoteItem.name).Nodup := hinames cl hclmem
  have hlookup1 : lookupLast acc1.known m = some cl := by
    rw [hknown1, lookupLast_append2,
      lookupLast_none_of_forall2 (fun q hq hqm => hmK1 (by rw [← hqm]; exact hc1keys q hq))]
    exact hlook
  have hstep : syncStep ms acc1 (m, tasks) = { acc1 with
      ops := acc1.ops ++ (cuOps cl.id (dictOfItems cl.checkItems) acc1.counter tasks).1
        ++ delOps cl.id (dictOfItems cl.checkItems) (taskNamesFor ms m)
      counter := (cuOps cl.id (dictOfItems cl.checkItems) acc1.counter tasks).2 } := by
    simp only [syncStep, hlookup1]
  rw [hstep]
  have hfresh2 : ∀ q ∈ L2, ∀ cl2, lookupLast acc1.known q.1 = some cl2 →
      cl2 ∈ card.checklists ∧ cl2.name = q.1 := by
    intro q hq cl2 hl2
    rw [hknown1, lookupLast_append2,
      lookupLast_none_of_forall2 (fun r hr hrm => hK1L2 r.1 (hc1keys r hr)
        (by rw [hrm]; exact List.mem_map_of_mem Prod.fst hq))] at hl2
    exact lookupLast_map_pair hl2
  obtain ⟨e2, c2s, hops2, hknown2, hcnt2, hprov2, hcreat2⟩ :=
    syncSegment card ms k L2 { acc1 with
      ops := acc1.ops ++ (cuOps cl.id (dictOfItems cl.checkItems) acc1.counter tasks).1
        ++ delOps cl.id (dictOfItems cl.checkItems) (taskNamesFor ms m)
      counter := (cuOps cl.id (dictOfItems cl.checkItems) acc1.counter tasks).2 }
      hndL2 hfresh2
  have hOPS : (List.foldl (syncStep ms) { acc1 with
        ops := acc1.ops ++ (cuOps cl.id (dictOfItems cl.checkItems) acc1.counter tasks).1
          ++ delOps cl.id (dictOfItems cl.checkItems) (taskNamesFor ms m)
        counter := (cuOps cl.id (dictOfItems cl.checkItems) acc1.counter tasks).2 } L2).ops
      = ((e1 ++ (cuOps cl.id (dictOfItems cl.checkItems) acc1.counter tasks).1)
        ++ delOps cl.id (dictOfItems cl.checkItems) (taskNamesFor ms m)) ++ e2 := by
    rw [hops2]
    show (acc1.ops ++ (cuOps cl.id (dictOfItems cl.checkItems) acc1.counter tasks).1
      ++ delOps cl.id (dictOfItems cl.checkItems) (taskNamesFor ms m)) ++ e2 = _
    rw [hops1]
  have hα : e1.foldl (clApply cl.id) cl.checkItems = cl.checkItems :=
    segAvoid card keys1 k acc1.counter k e1 hprov1 cl hclmem
      (fun hx => hmK1 (by rw [← hclname]; exact hx)) hclids hiids ((hlt cl hclmem).1)
      (fun c2 hc2 it hit => (hlt c2 hc2).2 it hit)
      cl.checkItems (fun i hi => Or.inl hi)
  have hβ : (cuOps cl.id (dictOfItems cl.checkItems) acc1.counter tasks).1.foldl
      (clApply cl.id) cl.checkItems
      = cl.checkItems.map (itemUpd2 (dictOfItems cl.checkItems) tasks id)
        ++ cuCreated (dictOfItems cl.checkItems) acc1.counter tasks := by
    have h0 := cuOps_apply cl.id cl.checkItems tasks acc1.counter id [] htasks hidsCl
      (fun it hit => Nat.lt_of_lt_of_le ((hlt cl hclmem).2 it hit) hcnt1)
      (fun it => rfl) (fun t ht it hit hlk => rfl)
      (fun e heE => absurd heE (List.not_mem_nil _))
    rw [List.map_id, List.append_nil, List.nil_append] at h0
    exact h0
  have hγ : (delOps cl.id (dictOfItems cl.checkItems) (taskNamesFor ms m)).foldl
      (clApply cl.id)
      (cl.checkItems.map (itemUpd2 (dictOfItems cl.checkItems) tasks id)
        ++ cuCreated (dictOfItems cl.checkItems) acc1.counter tasks)
      = (cl.checkItems.filter fun it => (tasks.map Task.name).contains it.name).map
          (itemUpd2 (dictOfItems cl.checkItems) tasks id)
        ++ cuCreated (dictOfItems cl.checkItems) acc1.counter tasks := by
    rw [hnames]
    have h0 := delOps_apply_dict cl.id (tasks.map Task.name)
      (itemUpd2 (dictOfItems cl.checkItems) tasks id) (itemUpd2_id (fun it => rfl))
      cl.checkItems [] (cuCreated (dictOfItems cl.checkItems) acc1.counter tasks)
      hinCl hidsCl (fun x hx => absurd hx (List.not_mem_nil _))
      (fun e heE it hit hee => by
        have hb := (cuCreated_mem (dictOfItems cl.checkItems) tasks acc1.counter e heE).2
        rw [hee] at hb
        exact Nat.lt_irrefl _ (Nat.lt_of_lt_of_le
          (Nat.lt_of_lt_of_le ((hlt cl hclmem).2 it hit) hcnt1) hb))
    exact h0
  have hδ : e2.foldl (clApply cl.id)
      ((cl.checkItems.filter fun it => (tasks.map Task.name).contains it.name).map
          (itemUpd2 (dictOfItems cl.checkItems) tasks id)
        ++ cuCreated (dictOfItems cl.checkItems) acc1.counter tasks)
      = (cl.checkItems.filter fun it => (tasks.map Task.name).contains it.name).map
          (itemUpd2 (dictOfItems cl.checkItems) tasks id)
        ++ cuCreated (dictOfItems cl.checkItems) acc1.counter tasks := by
    refine segAvoid card (L2.map Prod.fst)
      (cuOps cl.id (dictOfItems cl.checkItems) acc1.counter tasks).2
      (List.foldl (syncStep ms) { acc1 with
        ops := acc1.ops ++ (cuOps cl.id (dictOfItems cl.checkItems) acc1.counter tasks).1
          ++ delOps cl.id (dictOfItems cl.checkItems) (taskNamesFor ms m)
        counter := (cuOps cl.id (dictOfItems cl.checkItems) acc1.counter tasks).2 } L2).counter
      k e2 hprov2 cl hclmem (fun hx => hmL2 (by rw [← hclname]; exact hx)) hclids hiids
      (Nat.lt_of_lt_of_le ((hlt cl hclmem).1) (Nat.le_trans hcnt1
        (cuOps_counter_le cl.id (dictOfItems cl.checkItems) tasks acc1.counter)))
      (fun c2 hc2 it hit => (hlt c2 hc2).2 it hit) _ ?_
    intro i hi
    rw [List.map_append] at hi
    rcases List.mem_append.mp hi with h1 | h1
    · left
      rw [List.map_map] at h1
      obtain ⟨x, hxf, hxe⟩ := List.mem_map.mp h1
      have hxe2 : x.id = i := by
        rw [← hxe]
        exact (itemUpd2_id (fun it => rfl) x).symm
      rw [← hxe2]
      exact List.mem_map_of_mem RemoteItem.id (List.mem_filter.mp hxf).1
    · right
      obtain ⟨e, heE, hee⟩ := List.mem_map.mp h1
      have hb := (cuCreated_mem (dictOfItems cl.checkItems) tasks acc1.counter e heE).2
      rw [hee] at hb
      exact Nat.le_trans hcnt1 hb
  have hfoldItems : (((e1 ++ (cuOps cl.id (dictOfItems cl.checkItems) acc1.counter tasks).1)
        ++ delOps cl.id (dictOfItems cl.checkItems) (taskNamesFor ms m)) ++ e2).foldl
      (clApply cl.id) cl.checkItems
      = (cl.checkItems.filter fun it => (tasks.map Task.name).contains it.name).map
          (itemUpd2 (dictOfItems cl.checkItems) tasks id)
        ++ cuCreated (dictOfItems cl.checkItems) acc1.counter tasks := by
    rw [List.foldl_append, List.foldl_append, List.foldl_append, hα, hβ, hγ, hδ]
  rw [hOPS, applyOps_checklists]
  refine ⟨evolveCl (((e1 ++ (cuOps cl.id (dictOfItems cl.checkItems) acc1.counter tasks).1)
      ++ delOps cl.id (dictOfItems cl.checkItems) (taskNamesFor ms m)) ++ e2) cl,
    List.mem_append_left _ (List.mem_map_of_mem _ hclmem), hclname, ?_, ?_⟩
  · intro cl2 hcl2 hname2
    rcases List.mem_append.mp hcl2 with hmem2 | hmem2
    · obtain ⟨cl3, hcl3, hce⟩ := List.mem_map.mp hmem2
      have hn3 : cl3.name = m := by
        have h2 := congrArg RemoteChecklist.name hce
        rw [hname2] at h2
        exact h2
      have hceq : cl3 = cl := nodup_map_inj RemoteChecklist.name hclnames hcl3 hclmem
        (by rw [hn3, hclname])
      rw [← hce, hceq]
    · exfalso
      have hnmem : cl2.name ∈ (createdCls (((e1
          ++ (cuOps cl.id (dictOfItems cl.checkItems) acc1.counter tasks).1)
          ++ delOps cl.id (dictOfItems cl.checkItems) (taskNamesFor ms m)) ++ e2)).map
          RemoteChecklist.name :=
        List.mem_map_of_mem _ hmem2
      rw [createdCls_names, hname2, List.filterMap_append, List.filterMap_append,
        List.filterMap_append] at hnmem
      rcases List.mem_append.mp hnmem with h2 | h2
      · rcases List.mem_append.mp h2 with h3 | h3
        · rcases List.mem_append.mp h3 with h4 | h4
          · obtain ⟨op, hop, hcm⟩ := List.mem_filterMap.mp h4
            obtain ⟨i, hoe⟩ := createName_eq_some hcm
            have hp := hprov1 op hop
            rw [hoe] at hp
            exact hmK1 hp.2.2
          · obtain ⟨op, hop, hcm⟩ := List.mem_filterMap.mp h4
            rw [cuOps_no_create _ _ _ _ op hop] at hcm
            exact Option.noConfusion hcm
        · obtain ⟨op, hop, hcm⟩ := List.mem_filterMap.mp h3
          rw [delOps_no_create _ _ _ op hop] at hcm
          exact Option.noConfusion hcm
      · obtain ⟨op, hop, hcm⟩ := List.mem_filterMap.mp h2
        obtain ⟨i, hoe⟩ := createName_eq_some hcm
        have hp := hprov2 op hop
        rw [hoe] at hp
        exact hmL2 hp.2.2
  · rw [show (evolveCl (((e1 ++ (cuOps cl.id (dictOfItems cl.checkItems) acc1.counter
          tasks).1) ++ delOps cl.id (dictOfItems cl.checkItems) (taskNamesFor ms m))
          ++ e2) cl).checkItems
        = (((e1 ++ (cuOps cl.id (dictOfItems cl.checkItems) acc1.counter tasks).1)
          ++ delOps cl.id (dictOfItems cl.checkItems) (taskNamesFor ms m)) ++ e2).foldl
            (clApply cl.id) cl.checkItems from rfl,
      hfoldItems, List.map_append]
    exact cu_pairs_perm cl.checkItems tasks acc1.counter hinCl hidsCl htasks


/-- Case core for C1 when no existing checklist carries the milestone name:
the run creates a fresh checklist named `m` whose final items are exactly the
created items for the parsed tasks. -/
theorem c1_none_core (card : CardData) (ms : List (String × List Task)) (k : Nat)
    (m : String) (tasks : List Task) (L2 : List (String × List Task))
    (acc1 : MsAcc) (e1 : List Op) (c1s : List (String × RemoteChecklist))
    (keys1 : List String)
    (htasks : (tasks.map Task.name).Nodup)
    (hlt : ∀ c ∈ card.checklists, c.id < k ∧ ∀ it ∈ c.checkItems, it.id < k)
    (hndL2 : (L2.map Prod.fst).Nodup) (hmL2 : m ∉ L2.map Prod.fst)
    (hmK1 : m ∉ keys1) (hK1L2 : ∀ n ∈ keys1, n ∉ L2.map Prod.fst)
    (hnameNone : ∀ c2 ∈ card.checklists, c2.name ≠ m)
    (hknown1 : acc1.known = (card.checklists.map fun c => (c.name, c)) ++ c1s)
    (hc1keys : ∀ q ∈ c1s, q.1 ∈ keys1)
    (hcnt1 : k ≤ acc1.counter)
    (hops1 : acc1.ops = e1)
    (hprov1 : ∀ op ∈ e1, SegProv card keys1 k acc1.counter op) :
    ∃ clq ∈ (applyOps card
        (List.foldl (syncStep ms) (syncStep ms acc1 (m, tasks)) L2).ops).checklists,
      clq.name = m
      ∧ (∀ cl2 ∈ (applyOps card
          (List.foldl (syncStep ms) (syncStep ms acc1 (m, tasks)) L2).ops).checklists,
          cl2.name = m → cl2 = clq)
      ∧ List.Perm (clq.checkItems.map itemPair) (tasks.map taskPair) := by
  have hnone : lookupLast (card.checklists.map fun c => (c.name, c)) m = none := by
    apply lookupLast_none_of_forall2
    intro q hq hqm
    obtain ⟨c2, hc2, hqe⟩ := List.mem_map.mp hq
    have h1 : c2.name = q.1 := congrArg Prod.fst hqe
    exact hnameNone c2 hc2 (h1.trans hqm)
  have hlookup1 : lookupLast acc1.known m = none := by
    rw [hknown1, lookupLast_append2,
      lookupLast_none_of_forall2 (fun q hq hqm => hmK1 (by rw [← hqm]; exact hc1keys q hq))]
    exact hnone
  have hstep : syncStep ms acc1 (m, tasks) = { acc1 with
      ops := acc1.ops ++ Op.createChecklist acc1.counter m
          :: (cuOps acc1.counter [] (acc1.counter + 1) tasks).1
        ++ delOps acc1.counter [] (taskNamesFor ms m)
      counter := (cuOps acc1.counter [] (acc1.counter + 1) tasks).2
      known := acc1.known ++ [(m, (⟨acc1.counter, m, []⟩ : RemoteChecklist))] } := by
    simp only [syncStep, hlookup1]
  rw [hstep]
  have hfresh2 : ∀ q ∈ L2, ∀ cl2,
      lookupLast (acc1.known ++ [(m, (⟨acc1.counter, m, []⟩ : RemoteChecklist))]) q.1
        = some cl2 →
      cl2 ∈ card.checklists ∧ cl2.name = q.1 := by
    intro q hq cl2 hl2
    have hq1 : lookupLast [(m, (⟨acc1.counter, m, []⟩ : RemoteChecklist))] q.1 = none := by
      apply lookupLast_none_of_forall2
      intro r hr
      rw [List.mem_singleton.mp hr]
      intro hrm
      exact hmL2 (by rw [show m = q.1 from hrm]; exact List.mem_map_of_mem Prod.fst hq)
    rw [lookupLast_append2, hq1, hknown1, lookupLast_append2,
      lookupLast_none_of_forall2 (fun r hr hrm => hK1L2 r.1 (hc1keys r hr)
        (by rw [hrm]; exact List.mem_map_of_mem Prod.fst hq))] at hl2
    exact lookupLast_map_pair hl2
  obtain ⟨e2, c2s, hops2, hknown2, hcnt2, hprov2, hcreat2⟩ :=
    syncSegment card ms k L2 { acc1 with
      ops := acc1.ops ++ Op.createChecklist acc1.counter m
          :: (cuOps acc1.counter [] (acc1.counter + 1) tasks).1
        ++ delOps acc1.counter [] (taskNamesFor ms m)
      counter := (cuOps acc1.counter [] (acc1.counter + 1) tasks).2
      known := acc1.known ++ [(m, (⟨acc1.counter, m, []⟩ : RemoteChecklist))] }
      hndL2 hfresh2
  have hcustep : acc1.counter + 1 ≤ (cuOps acc1.counter [] (acc1.counter + 1) tasks).2 :=
    cuOps_counter_le acc1.counter [] tasks (acc1.counter + 1)
  have hdelnil : delOps acc1.counter ([] : List (String × RemoteItem)) (taskNamesFor ms m)
      = [] := rfl
  have hOPS : (List.foldl (syncStep ms) { acc1 with
        ops := acc1.ops ++ Op.createChecklist acc1.counter m
            :: (cuOps acc1.counter [] (acc1.counter + 1) tasks).1
          ++ delOps acc1.counter [] (taskNamesFor ms m)
        counter := (cuOps acc1.counter [] (acc1.counter + 1) tasks).2
        known := acc1.known ++ [(m, (⟨acc1.counter, m, []⟩ : RemoteChecklist))] } L2).ops
      = (e1 ++ Op.createChecklist acc1.counter m
          :: (cuOps acc1.counter [] (acc1.counter + 1) tasks).1) ++ e2 := by
    rw [hops2]
    show (acc1.ops ++ Op.createChecklist acc1.counter m
        :: (cuOps acc1.counter [] (acc1.counter + 1) tasks).1
      ++ delOps acc1.counter [] (taskNamesFor ms m)) ++ e2 = _
    rw [hops1, hdelnil, List.append_nil]
  rw [hOPS, applyOps_checklists]
  have hcreatedDecomp : createdCls ((e1 ++ Op.createChecklist acc1.counter m
        :: (cuOps acc1.counter [] (acc1.counter + 1) tasks).1) ++ e2)
      = (createdCls e1).map (evolveCl ((Op.createChecklist acc1.counter m
          :: (cuOps acc1.counter [] (acc1.counter + 1) tasks).1) ++ e2))
        ++ ((⟨acc1.counter, m,
            ((cuOps acc1.counter [] (acc1.counter + 1) tasks).1 ++ e2).foldl
              (clApply acc1.counter) []⟩ : RemoteChecklist)
          :: createdCls ((cuOps acc1.counter [] (acc1.counter + 1) tasks).1 ++ e2)) := by
    rw [List.append_assoc, createdCls_append]
    rfl
  have hmyitems : (((cuOps acc1.counter [] (acc1.counter + 1) tasks).1 ++ e2).foldl
        (clApply acc1.counter) ([] : List RemoteItem))
      = cuCreated [] (acc1.counter + 1) tasks := by
    rw [List.foldl_append]
    have hβ : ((cuOps acc1.counter [] (acc1.counter + 1) tasks).1.foldl
          (clApply acc1.counter) ([] : List RemoteItem))
        = cuCreated [] (acc1.counter + 1) tasks := by
      have h0 := cuOps_apply acc1.counter [] tasks (acc1.counter + 1) id [] htasks
        List.nodup_nil
        (fun it hit => absurd hit (List.not_mem_nil _))
        (fun it => rfl) (fun t ht it hit hlk => rfl)
        (fun e heE => absurd heE (List.not_mem_nil _))
      exact h0
    rw [hβ]
    refine segAvoidCreated card (L2.map Prod.fst)
      (cuOps acc1.counter [] (acc1.counter + 1) tasks).2
      (List.foldl (syncStep ms) { acc1 with
        ops := acc1.ops ++ Op.createChecklist acc1.counter m
            :: (cuOps acc1.counter [] (acc1.counter + 1) tasks).1
          ++ delOps acc1.counter [] (taskNamesFor ms m)
        counter := (cuOps acc1.counter [] (acc1.counter + 1) tasks).2
        known := acc1.known ++ [(m, (⟨acc1.counter, m, []⟩ : RemoteChecklist))] }
        L2).counter
      e2 hprov2 acc1.counter
      (Nat.lt_of_lt_of_le (Nat.lt_succ_self _) hcustep)
      (fun c2 hc2 he => Nat.lt_irrefl _ (Nat.lt_of_lt_of_le
        (Nat.lt_of_lt_of_le ((hlt c2 hc2).1) hcnt1) (Nat.le_of_eq he.symm)))
      (cuCreated [] (acc1.counter + 1) tasks) ?_
    intro i hi c2 hc2 it hit hee
    obtain ⟨e, heE, hei⟩ := List.mem_map.mp hi
    have hb := (cuCreated_mem [] tasks (acc1.counter + 1) e heE).2
    rw [hei] at hb
    rw [← hee] at hb
    exact Nat.lt_irrefl _ (Nat.lt_of_lt_of_le (Nat.lt_of_lt_of_le
      (Nat.lt_of_lt_of_le ((hlt c2 hc2).2 it hit) hcnt1) (Nat.le_succ _)) hb)
  refine ⟨⟨acc1.counter, m, cuCreated [] (acc1.counter + 1) tasks⟩, ?_, rfl, ?_, ?_⟩
  · refine List.mem_append_right _ ?_
    rw [hcreatedDecomp]
    refine List.mem_append_right _ ?_
    rw [hmyitems]
    exact List.mem_cons_self _ _
  · intro cl2 hcl2 hname2
    rcases List.mem_append.mp hcl2 with hmem2 | hmem2
    · exfalso
      obtain ⟨cl3, hcl3, hce⟩ := List.mem_map.mp hmem2
      have hn3 : cl3.name = m := by
        have h2 := congrArg RemoteChecklist.name hce
        rw [hname2] at h2
        exact h2
      exact hnameNone cl3 hcl3 hn3
    · rw [hcreatedDecomp] at hmem2
      rcases List.mem_append.mp hmem2 with hmem3 | hmem3
      · exfalso
        obtain ⟨cl4, hcl4, hce4⟩ := List.mem_map.mp hmem3
        have hn4 : cl4.name = m := by
          have h2 := congrArg RemoteChecklist.name hce4
          rw [hname2] at h2
          exact h2
        have hn5 : cl4.name ∈ (createdCls e1).map RemoteChecklist.name :=
          List.mem_map_of_mem _ hcl4
        rw [createdCls_names, hn4] at hn5
        obtain ⟨op, hop, hcm⟩ := List.mem_filterMap.mp hn5
        obtain ⟨i, hoe⟩ := createName_eq_some hcm
        have hp := hprov1 op hop
        rw [hoe] at hp
        exact hmK1 hp.2.2
      · rcases List.mem_cons.mp hmem3 with hhead | htail
        · rw [hhead, hmyitems]
        · exfalso
          have hn5 : cl2.name ∈ (createdCls
              ((cuOps acc1.counter [] (acc1.counter + 1) tasks).1 ++ e2)).map
              RemoteChecklist.name :=
            List.mem_map_of_mem _ htail
          rw [createdCls_names, List.filterMap_append, hname2] at hn5
          rcases List.mem_append.mp hn5 with h6 | h6
          · obtain ⟨op, hop, hcm⟩ := List.mem_filterMap.mp h6
            rw [cuOps_no_create _ _ _ _ op hop] at hcm
            exact Option.noConfusion hcm
          · obtain ⟨op, hop, hcm⟩ := List.mem_filterMap.mp h6
            obtain ⟨i, hoe⟩ := createName_eq_some hcm
            have hp := hprov2 op hop
            rw [hoe] at hp
            exact hmL2 hp.2.2
  · rw [show ((⟨acc1.counter, m, cuCreated [] (acc1.counter + 1) tasks⟩ :
        RemoteChecklist)).checkItems = cuCreated [] (acc1.counter + 1) tasks from rfl,
      cuCreated_nil_pairs]


set_option maxHeartbeats 1000000 in
/-- C1 (amended): for every milestone `(m, tasks)` in the parsed mapping —
with duplicate-free milestone keys, task names, checklist names/ids and
item ids, all existing ids below the fresh-id base — after a fully
successful `sync_milestones` run the card has exactly one checklist named
`m`, and its items' (name, state) pairs are a permutation of the parsed
tasks' (name, completion-state) pairs. -/
theorem c1_milestone_checklist_mirror (card : CardData) (ms : List (String × List Task))
    (k : Nat) (m : String) (tasks : List Task)
    (hm : (m, tasks) ∈ ms)
    (hkeys : (ms.map Prod.fst).Nodup)
    (htasks : (tasks.map Task.name).Nodup)
    (hclnames : (card.checklists.map RemoteChecklist.name).Nodup)
    (hclids : (card.checklists.map RemoteChecklist.id).Nodup)
    (hinames : ∀ c ∈ card.checklists, (c.checkItems.map RemoteItem.name).Nodup)
    (hiids : ((card.checklists.map fun c => c.checkItems.map RemoteItem.id).flatten).Nodup)
    (hlt : ∀ c ∈ card.checklists, c.id < k ∧ ∀ it ∈ c.checkItems, it.id < k) :
    ∃ clq ∈ (applyOps card (sync_milestones_ops k card ms)).checklists,
      clq.name = m
      ∧ (∀ cl2 ∈ (applyOps card (sync_milestones_ops k card ms)).checklists,
          cl2.name = m → cl2 = clq)
      ∧ List.Perm (clq.checkItems.map itemPair) (tasks.map taskPair) := by
  obtain ⟨L1, L2, he⟩ := List.append_of_mem hm
  have hkeysE : ((L1 ++ (m, tasks) :: L2).map Prod.fst).Nodup := by
    rw [← he]
    exact hkeys
  rw [List.map_append, List.map_cons, List.nodup_append] at hkeysE
  have hnd1 := hkeysE.1
  have hmidcons := hkeysE.2.1
  rw [List.nodup_cons] at hmidcons
  have hndL2 : (L2.map Prod.fst).Nodup := hmidcons.2
  have hmL2 : m ∉ L2.map Prod.fst := hmidcons.1
  have hdisj := hkeysE.2.2
  have hmL1 : m ∉ L1.map Prod.fst :=
    fun hx => hdisj hx (List.mem_cons_self m (L2.map Prod.fst))
  have hK1L2 : ∀ n ∈ L1.map Prod.fst, n ∉ L2.map Prod.fst :=
    fun n hn1 hn2 => hdisj hn1 (List.mem_cons_of_mem _ hn2)
  have hnames : taskNamesFor ms m = tasks.map Task.name := by
    show ((lookupLast ms m).getD []).map Task.name = tasks.map Task.name
    rw [lookupLast_mem_nodup hkeys hm]
    rfl
  obtain ⟨e1, c1s, hops1, hknown1, hcnt1, hprov1, hcreat1⟩ :=
    syncSegment card ms k L1 ⟨[], k, card.checklists.map fun c => (c.name, c)⟩ hnd1
      (fun q hq cl2 hl => lookupLast_map_pair hl)
  have hrunops : sync_milestones_ops k card ms
      = (List.foldl (syncStep ms)
          (syncStep ms (List.foldl (syncStep ms)
            ⟨[], k, card.checklists.map fun c => (c.name, c)⟩ L1) (m, tasks)) L2).ops := by
    show (List.foldl (syncStep ms)
        ⟨[], k, card.checklists.map fun c => (c.name, c)⟩ ms).ops = _
    rw [congrArg (List.foldl (syncStep ms)
        ⟨[], k, card.checklists.map fun c => (c.name, c)⟩) he,
      List.foldl_append, List.foldl_cons]
  rw [hrunops]
  cases hlook : lookupLast (card.checklists.map fun c => (c.name, c)) m with
  | some cl =>
    exact c1_some_core card ms k m tasks L2
      (List.foldl (syncStep ms) ⟨[], k, card.checklists.map fun c => (c.name, c)⟩ L1)
      e1 c1s (L1.map Prod.fst) htasks hclnames hclids hinames hiids hlt hndL2 hmL2
      hmL1 hK1L2 hknown1 hcreat1 hcnt1 hops1 hprov1 hnames cl hlook
  | none =>
    have hnameNone : ∀ c2 ∈ card.checklists, c2.name ≠ m := by
      intro c2 hc2 he2
      exact lookupLast_ne_none2 (List.mem_map_of_mem (fun c => (c.name, c)) hc2) he2 hlook
    exact c1_none_core card ms k m tasks L2
      (List.foldl (syncStep ms) ⟨[], k, card.checklists.map fun c => (c.name, c)⟩ L1)
      e1 c1s (L1.map Prod.fst) htasks hlt hndL2 hmL2 hmL1 hK1L2 hnameNone
      hknown1 hcreat1 hcnt1 hops1 hprov1


/-- C1 counterexample to the literal claim: with a checklist that already
holds two items sharing the name "T", a run for milestone "M" with an
empty parsed task list leaves one "T" item behind — the final item set is
not the (empty) parsed task list, so the mirror does not hold "regardless
of what items the checklist held before the run". -/
theorem c1_mirror_cex :
    ((applyOps c1cexCard (sync_milestones_ops 100 c1cexCard [("M", [])])).checklists.map
        fun cl => (cl.name, cl.checkItems.map fun it => (it.name, it.state)))
      = [("M", [("T", "complete")])] := by
  decide

/-- C1 witness: at the scenario card, the run leaves exactly one checklist
named "Week 1" and its items mirror the parsed tasks. -/
theorem c1_milestone_checklist_mirror_witness :
    ∃ clq ∈ (applyOps c1wCard (sync_milestones_ops 100 c1wCard c1wMs)).checklists,
      clq.name = "Week 1"
      ∧ (∀ cl2 ∈ (applyOps c1wCard (sync_milestones_ops 100 c1wCard c1wMs)).checklists,
          cl2.name = "Week 1" → cl2 = clq)
      ∧ List.Perm (clq.checkItems.map itemPair)
          ([⟨"Setup env", true⟩, ⟨"Write tests", false⟩].map taskPair) :=
  c1_milestone_checklist_mirror c1wCard c1wMs 100 "Week 1"
    [⟨"Setup env", true⟩, ⟨"Write tests", false⟩]
    (by decide) (by decide) (by decide) (by decide) (by decide)
    (by decide) (by decide) (by decide)

end SyncScript
